import Mathlib

/-!
Verification development for the nanoclaw orchestration core and ops runner.

The definitions below are shallow embeddings of the TypeScript source:
`src/approved-executor.ts` (dispatcher safety filters and execution gate),
`src/plan-contract.ts` (plan schema, parser and serializer),
`src/action-queue.ts` (proposal journal), and
`infra/apps/ops-runner/src/index.ts` (runner: dispatch batching, signature
verification, background run lifecycle).

Platform primitives (the WHATWG `URL` parser, `JSON.parse`/`JSON.stringify`,
JavaScript regular expressions, `String.prototype.trim`) are modelled as Lean
functions faithful to their behaviour on the inputs the claims exercise; each
model notes its simplifications in its doc comment.
-/

set_option maxHeartbeats 1000000
set_option maxRecDepth 8000

namespace Spec2Proof

/-- Model of the JavaScript whitespace class: the characters matched by `\s`
in a regular expression and removed by `String.prototype.trim` (WhiteSpace
plus LineTerminator code points). -/
def jsWhitespace (c : Char) : Bool :=
  let n := c.toNat
  n == 9 || n == 10 || n == 11 || n == 12 || n == 13 || n == 32 ||
  n == 0xa0 || n == 0x1680 || (0x2000 ≤ n && n ≤ 0x200a) ||
  n == 0x2028 || n == 0x2029 || n == 0x202f || n == 0x205f ||
  n == 0x3000 || n == 0xfeff

/-- Model of JavaScript `String.prototype.trim`: drop `jsWhitespace`
characters from both ends. -/
def jsTrimList (l : List Char) : List Char :=
  ((l.dropWhile jsWhitespace).reverse.dropWhile jsWhitespace).reverse

/-- String wrapper of `jsTrimList`. -/
def jsTrim (s : String) : String :=
  ⟨jsTrimList s.data⟩

/-- Model of `String.prototype.toLowerCase` restricted to ASCII (the
hostnames the filters lowercase are ASCII; implemented over the character
list so that it evaluates by kernel reduction). -/
def jsToLower (s : String) : String := ⟨s.data.map Char.toLower⟩

/-- Model of `String.prototype.endsWith`. -/
def strEndsWith (s suffix : String) : Bool := suffix.data.isSuffixOf s.data

/-- Model of `String.prototype.startsWith`. -/
def strStartsWith (s p : String) : Bool := p.data.isPrefixOf s.data

/-- Model of `String.prototype.slice(n)` for a non-negative start. -/
def strDrop (s : String) (n : Nat) : String := ⟨s.data.drop n⟩

/-- Splitter for `String.prototype.split(sep)` with a single-character
separator. -/
def splitOnCharAux (sep : Char) : List Char → List Char → List String
  | [], acc => [⟨acc.reverse⟩]
  | c :: rest, acc =>
    if c == sep then ⟨acc.reverse⟩ :: splitOnCharAux sep rest []
    else splitOnCharAux sep rest (c :: acc)

/-- Model of `String.prototype.split(sep)` with a single-character
separator. -/
def splitOnChar (sep : Char) (s : String) : List String :=
  splitOnCharAux sep s.data []

/-- Blocked shell metacharacters of `BLOCKED_META_CHARS = /[;&|`$<>{}\]/` in
`approved-executor.ts`, given by code point: semicolon 59, ampersand 38,
vertical bar 124, backquote 96, dollar 36, less-than 60, greater-than 62,
left brace 123, right brace 125, backslash 92. -/
def isBlockedMetaChar (c : Char) : Bool :=
  let n := c.toNat
  n == 59 || n == 38 || n == 124 || n == 96 || n == 36 ||
  n == 60 || n == 62 || n == 123 || n == 125 || n == 92

/-- Model of `BLOCKED_META_CHARS.test s`: some character of `s` is in the
blocked class (the pattern is unanchored). -/
def hasBlockedMetaChar (s : String) : Bool :=
  s.data.any isBlockedMetaChar

/-- Regular expressions over characters, with character classes as decidable
predicates.  Used to embed the anchored JavaScript patterns of
`ALLOWED_READONLY_COMMANDS`; matching is whole-string (the source patterns
are `^...$`-anchored and tested without the `m` flag). -/
inductive Rx where
  | eps : Rx
  | chr (p : Char → Bool) : Rx
  | cat (a b : Rx) : Rx
  | alt (a b : Rx) : Rx
  | star (a : Rx) : Rx

/-- Nullability: whether the regex accepts the empty string. -/
def Rx.nullable : Rx → Bool
  | .eps => true
  | .chr _ => false
  | .cat a b => a.nullable && b.nullable
  | .alt a b => a.nullable || b.nullable
  | .star _ => true

/-- Brzozowski derivative of a regex by one character. -/
def Rx.deriv : Rx → Char → Rx
  | .eps, _ => .chr (fun _ => false)
  | .chr p, c => if p c then .eps else .chr (fun _ => false)
  | .cat a b, c =>
      if a.nullable then .alt (.cat (a.deriv c) b) (b.deriv c)
      else .cat (a.deriv c) b
  | .alt a b, c => .alt (a.deriv c) (b.deriv c)
  | .star a, c => .cat (a.deriv c) (.star a)

/-- Whole-string matching by iterated derivatives. -/
def Rx.matchList (r : Rx) (l : List Char) : Bool :=
  (l.foldl Rx.deriv r).nullable

/-- Literal word regex. -/
def Rx.litList : List Char → Rx
  | [] => .eps
  | c :: cs => .cat (.chr (fun d => d == c)) (Rx.litList cs)

/-- Literal word regex from a string. -/
def Rx.lit (s : String) : Rx := Rx.litList s.data

/-- One-or-more repetition (`+`). -/
def Rx.plus (r : Rx) : Rx := .cat r (.star r)

/-- Zero-or-one repetition (`?`). -/
def Rx.opt (r : Rx) : Rx := .alt .eps r

/-- Character class `\d` of the source patterns (ASCII digits, since the
patterns carry no `u` flag). -/
def rxDigit : Rx := .chr Char.isDigit

/-- Character class `\s+`. -/
def rxWsPlus : Rx := Rx.plus (.chr jsWhitespace)

/-- Character class `[A-Za-z0-9._:-]` of the ping pattern. -/
def pingHostChar (c : Char) : Bool :=
  c.isAlphanum || c == '.' || c == '_' || c == ':' || c == '-'

/-- Character class of the ls and df path patterns: ASCII alphanumerics,
dot, underscore, slash and hyphen. -/
def pathChar (c : Char) : Bool :=
  c.isAlphanum || c == '.' || c == '_' || c == '/' || c == '-'

/-- Character class `[a-zA-Z0-9_.@-]` of the systemctl and journalctl
patterns. -/
def unitChar (c : Char) : Bool :=
  c.isAlphanum || c == '_' || c == '.' || c == '@' || c == '-'

/-- Character class `[-a-zA-Z0-9=:_./]` of the docker ps pattern. -/
def dockerArgChar (c : Char) : Bool :=
  c == '-' || c.isAlphanum || c == '=' || c == ':' || c == '_' ||
  c == '.' || c == '/'

/-- Character class `[a-zA-ZhT]` of the df pattern. -/
def dfFlagChar (c : Char) : Bool :=
  c.isAlpha || c == 'h' || c == 'T'

/-- Character class `[a-zA-Z]`. -/
def asciiAlpha (c : Char) : Bool := c.isAlpha

/-- Embedding of `ALLOWED_READONLY_COMMANDS` from `approved-executor.ts`,
one `Rx` per source pattern, in source order. -/
def ALLOWED_READONLY_COMMANDS : List Rx :=
  [ Rx.lit "uptime",
    Rx.lit "whoami",
    Rx.lit "id",
    Rx.lit "hostname",
    Rx.lit "date",
    -- /^ping -c \d+ [A-Za-z0-9._:-]+$/
    .cat (Rx.lit "ping -c ") (.cat (Rx.plus rxDigit)
      (.cat (.chr (fun c => c == ' ')) (Rx.plus (.chr pingHostChar)))),
    -- /^ls(?:\s+-[a-zA-Z]+)?\s+\/[A-Za-z0-9._/-]+$/
    .cat (Rx.lit "ls")
      (.cat (Rx.opt (.cat rxWsPlus (.cat (.chr (fun c => c == '-'))
        (Rx.plus (.chr asciiAlpha)))))
        (.cat rxWsPlus (.cat (.chr (fun c => c == '/'))
          (Rx.plus (.chr pathChar))))),
    -- /^uname(?:\s+-[a-zA-Z]+)?$/
    .cat (Rx.lit "uname")
      (Rx.opt (.cat rxWsPlus (.cat (.chr (fun c => c == '-'))
        (Rx.plus (.chr asciiAlpha))))),
    -- /^free(?:\s+-[a-zA-Z]+)?$/
    .cat (Rx.lit "free")
      (Rx.opt (.cat rxWsPlus (.cat (.chr (fun c => c == '-'))
        (Rx.plus (.chr asciiAlpha))))),
    -- /^df(?:\s+-[a-zA-ZhT]+)*(?:\s+\/[A-Za-z0-9._/-]+)?$/
    .cat (Rx.lit "df")
      (.cat (.star (.cat rxWsPlus (.cat (.chr (fun c => c == '-'))
        (Rx.plus (.chr dfFlagChar)))))
        (Rx.opt (.cat rxWsPlus (.cat (.chr (fun c => c == '/'))
          (Rx.plus (.chr pathChar)))))),
    -- /^docker ps(?:\s+[-a-zA-Z0-9=:_./]+)*$/
    .cat (Rx.lit "docker ps")
      (.star (.cat rxWsPlus (Rx.plus (.chr dockerArgChar)))),
    Rx.lit "docker stats --no-stream",
    -- /^systemctl status [a-zA-Z0-9_.@-]+(?:\s+--no-pager)?$/
    .cat (Rx.lit "systemctl status ")
      (.cat (Rx.plus (.chr unitChar))
        (Rx.opt (.cat rxWsPlus (Rx.lit "--no-pager")))),
    -- /^journalctl -u [a-zA-Z0-9_.@-]+(?:\s+--no-pager)?(?:\s+-n\s+\d+)?$/
    .cat (Rx.lit "journalctl -u ")
      (.cat (Rx.plus (.chr unitChar))
        (.cat (Rx.opt (.cat rxWsPlus (Rx.lit "--no-pager")))
          (Rx.opt (.cat rxWsPlus (.cat (Rx.lit "-n")
            (.cat rxWsPlus (Rx.plus rxDigit))))))) ]

/-- Embedding of `isAllowedReadonlyCommand` from `approved-executor.ts`:
trim, reject the empty command, reject blocked metacharacters, then accept
when some allowlist pattern matches the trimmed command. -/
def isAllowedReadonlyCommand (command : String) : Bool :=
  let trimmed := jsTrim command
  if trimmed = "" then false
  else if hasBlockedMetaChar trimmed then false
  else ALLOWED_READONLY_COMMANDS.any (fun r => r.matchList trimmed.data)

/-! ## Model of the WHATWG URL parser

`new URL(s)` is a platform primitive; the model below covers the parts the
safety filters read: the scheme (as `protocol`, lowercased with a trailing
colon) and the hostname.  Faithful behaviours kept: leading/trailing
C0-control-or-space stripping, removal of interior tab/LF/CR, tolerance of
any number of slashes after a special scheme, userinfo stripping at the last
`@`, bracketed IPv6 hosts kept bracketed in `hostname` (as the platform
does: `new URL("http://[::1]/").hostname = "[::1]"`), port splitting, ASCII
lowercasing of hostnames, rejection of forbidden host code points.
Simplified: IPv6/IPv4 hostname canonicalisation, percent-decoding and IDNA
are omitted — concrete inputs in this file are written already canonical. -/

structure URLParts where
  protocol : String
  hostname : String
deriving DecidableEq, Repr

/-- ASCII hex digit test (for loose IPv6 literal validation). -/
def isHexDigit (c : Char) : Bool :=
  c.isDigit || ('a' ≤ c && c ≤ 'f') || ('A' ≤ c && c ≤ 'F')

/-- Forbidden host code points of the WHATWG URL standard (the subset that
can occur here; percent is permitted since percent-decoding is not
modelled). -/
def forbiddenHostChar (c : Char) : Bool :=
  let n := c.toNat
  n == 0 || n == 9 || n == 10 || n == 13 || n == 32 ||
  c == '#' || c == '/' || c == ':' || c == '<' || c == '>' ||
  c == '?' || c == '@' || c == '[' || c == ']' || c == '^' ||
  c == '|' || c.toNat == 92

/-- Scheme continuation characters: ASCII alphanumeric, `+`, `-`, `.`. -/
def schemeChar (c : Char) : Bool :=
  c.isAlphanum || c == '+' || c == '-' || c == '.'

/-- Special schemes of the URL standard (those whose authority is parsed
even without a double slash). -/
def specialScheme (s : String) : Bool :=
  s == "http" || s == "https" || s == "ws" || s == "wss" || s == "ftp" ||
  s == "file"

/-- Parse and validate an authority substring into a hostname, mirroring the
WHATWG host parser: strip userinfo at the last `@`; a host starting with `[`
must close with `]` and contain only hex digits, colons and dots between
(loose IPv6 validation, no canonicalisation); otherwise split off a
digits-only port at the first `:` and reject forbidden host characters;
hostnames are ASCII-lowercased. -/
def parseAuthority (auth : List Char) : Option String :=
  let hostPort :=
    match (auth.reverse.span (fun c => c ≠ '@')) with
    | (rev, []) => rev.reverse
    | (rev, _) => rev.reverse
  match hostPort with
  | '[' :: rest =>
    match rest.span (fun c => c ≠ ']') with
    | (inner, ']' :: post) =>
      if inner = [] then none
      else if !(inner.all (fun c => isHexDigit c || c == ':' || c == '.')) then none
      else
        match post with
        | [] => some ⟨'[' :: (inner.map Char.toLower) ++ [']']⟩
        | ':' :: port =>
          if port.all Char.isDigit then some ⟨'[' :: (inner.map Char.toLower) ++ [']']⟩
          else none
        | _ => none
    | _ => none
  | _ =>
    match hostPort.span (fun c => c ≠ ':') with
    | (host, []) =>
      if host.any forbiddenHostChar then none
      else some ⟨host.map Char.toLower⟩
    | (host, _ :: port) =>
      if !(port.all Char.isDigit) then none
      else if host.any forbiddenHostChar then none
      else some ⟨host.map Char.toLower⟩

/-- Model of `new URL(s)` restricted to the fields the filters read; see the
section comment for coverage.  Returns `none` when the platform parser would
throw. -/
def urlParse (s : String) : Option URLParts :=
  let l0 := s.data.dropWhile (fun c => c.toNat ≤ 0x20)
  let l1 := (l0.reverse.dropWhile (fun c => c.toNat ≤ 0x20)).reverse
  let l := l1.filter (fun c => c.toNat ≠ 9 && c.toNat ≠ 10 && c.toNat ≠ 13)
  match l with
  | [] => none
  | c :: _ =>
    if !c.isAlpha then none
    else
      match l.span (fun d => d ≠ ':') with
      | (schemeRaw, ':' :: rest) =>
        if !(schemeRaw.all schemeChar) then none
        else
          let scheme : String := ⟨schemeRaw.map Char.toLower⟩
          if specialScheme scheme then
            let afterSlashes := rest.dropWhile (fun d => d == '/' || d.toNat == 92)
            let auth := afterSlashes.takeWhile
              (fun d => d ≠ '/' && d ≠ '?' && d ≠ '#' && d.toNat ≠ 92)
            match parseAuthority auth with
            | none => none
            | some host =>
              if host = "" then none
              else some ⟨scheme ++ ":", host⟩
          else
            match rest with
            | '/' :: '/' :: tail =>
              let auth := tail.takeWhile (fun d => d ≠ '/' && d ≠ '?' && d ≠ '#')
              match parseAuthority auth with
              | none => none
              | some host => some ⟨scheme ++ ":", host⟩
            | _ => some ⟨scheme ++ ":", ""⟩
      | _ => none

namespace Core

/-- Embedding of `isPrivateHostname` from `approved-executor.ts`. -/
def isPrivateHostname (hostname : String) : Bool :=
  let lower := jsToLower hostname
  if lower == "localhost" then true
  else if strEndsWith lower ".local" then true
  else if strEndsWith lower ".internal" then true
  else false

/-- Digit-string to number, for the `split('.').map(Number)` step. -/
def digitsToNat (s : String) : Nat :=
  s.data.foldl (fun acc c => acc * 10 + (c.toNat - 48)) 0

/-- Embedding of `isPrivateIpv4` from `approved-executor.ts`: the hostname
must match `/^\d+\.\d+\.\d+\.\d+$/` (exactly four non-empty all-digit parts)
and its first two octets fall in a private range. -/
def isPrivateIpv4 (hostname : String) : Bool :=
  let parts := splitOnChar '.' hostname
  if !(parts.length == 4 && parts.all (fun p => p ≠ "" && p.data.all Char.isDigit)) then
    false
  else
    let a := digitsToNat (parts.headI)
    let b := digitsToNat (parts.getD 1 "")
    if a == 10 || a == 127 || a == 0 then true
    else if a == 169 && b == 254 then true
    else if a == 172 && 16 ≤ b && b ≤ 31 then true
    else if a == 192 && b == 168 then true
    else false

/-- Embedding of `isPrivateIpv6` from `approved-executor.ts`. -/
def isPrivateIpv6 (hostname : String) : Bool :=
  let lower := jsToLower hostname
  if lower == "::1" then true
  else if strStartsWith lower "fc" || strStartsWith lower "fd" then true
  else if strStartsWith lower "fe80:" then true
  else false

/-- Embedding of `isAllowedWebUrl` from `approved-executor.ts` (the core
dispatcher variant): parse `url.trim()`, require an http/https protocol and
a non-empty trimmed hostname, and deny the metadata address, private
hostnames and private IPv4/IPv6 ranges. -/
def isAllowedWebUrl (url : String) : Bool :=
  match urlParse (jsTrim url) with
  | none => false
  | some parsed =>
    if parsed.protocol ≠ "http:" && parsed.protocol ≠ "https:" then false
    else
      let host := jsTrim parsed.hostname
      if host = "" then false
      else if host == "169.254.169.254" then false
      else if isPrivateHostname host then false
      else if isPrivateIpv4 host || isPrivateIpv6 host then false
      else true

end Core

namespace Runner

/-- Embedding of `isPrivateHostname` from `infra/apps/ops-runner/src/index.ts`
(this variant also names `metadata.google.internal` explicitly). -/
def isPrivateHostname (hostname : String) : Bool :=
  let lower := jsToLower hostname
  lower == "localhost" || strEndsWith lower ".local" ||
  strEndsWith lower ".internal" || lower == "metadata.google.internal"

/-- Embedding of the runner's `isPrivateIpv4` (same text as the core's). -/
def isPrivateIpv4 (hostname : String) : Bool :=
  Core.isPrivateIpv4 hostname

/-- Embedding of the runner's `isPrivateIpv6` (same predicate as the
core's, written as one disjunction in the source). -/
def isPrivateIpv6 (hostname : String) : Bool :=
  let lower := jsToLower hostname
  lower == "::1" || strStartsWith lower "fe80:" || strStartsWith lower "fc" ||
  strStartsWith lower "fd"

/-- Embedding of `isAllowedWebUrl` from `infra/apps/ops-runner/src/index.ts`.
`allowlist` stands for `WEB_FETCH_ALLOWLIST` (empty by default: the env
variable defaults to the empty string, which splits to no entries). -/
def isAllowedWebUrl (allowlist : List String) (url : String) : Bool :=
  match urlParse url with
  | none => false
  | some parsed =>
    if parsed.protocol ≠ "http:" && parsed.protocol ≠ "https:" then false
    else
      let host := jsToLower (jsTrim parsed.hostname)
      if host = "" then false
      else if host == "169.254.169.254" then false
      else if isPrivateHostname host then false
      else if isPrivateIpv4 host || isPrivateIpv6 host then false
      else if allowlist.length > 0 then
        allowlist.any (fun domain => host == domain || strEndsWith host ("." ++ domain))
      else true

end Runner

/-! ## Model of JSON (`JSON.parse` / `JSON.stringify`)

`JSON.parse` and `JSON.stringify(·, null, 2)` are platform primitives.  The
model keeps: the JSON whitespace set, string escapes (both directions,
including `\uXXXX` for control characters), leading-zero rejection,
arrays/objects with textual member order (object member lookup is
last-wins, as property assignment in `JSON.parse` makes later duplicate
keys shadow earlier ones), and the exact two-space pretty-printed layout of
`JSON.stringify(v, null, 2)`.  Simplifications: numbers are modelled as
integers (fractional/exponent literals fail to parse; no claim input uses
them), and a `\uXXXX` escape denoting a UTF-16 surrogate decodes to U+FFFD
since Lean strings cannot hold lone surrogates. -/

inductive Json where
  | null : Json
  | bool (b : Bool) : Json
  | num (n : Int) : Json
  | str (s : String) : Json
  | arr (elems : List Json) : Json
  | obj (members : List (String × Json)) : Json
deriving Repr

/-- JSON whitespace (space, tab, line feed, carriage return). -/
def jsonWs (c : Char) : Bool :=
  c == ' ' || c == '\t' || c == '\n' || c.toNat == 13

/-- Skip JSON whitespace. -/
def skipJsonWs (l : List Char) : List Char := l.dropWhile jsonWs

/-- Hexadecimal digit value. -/
def hexVal (c : Char) : Option Nat :=
  if c.isDigit then some (c.toNat - 48)
  else if 'a' ≤ c && c ≤ 'f' then some (c.toNat - 87)
  else if 'A' ≤ c && c ≤ 'F' then some (c.toNat - 55)
  else none

/-- Decode a `\uXXXX` code unit to a character; UTF-16 surrogate code units
map to U+FFFD (see the section comment). -/
def charFromCodeUnit (n : Nat) : Char :=
  if 0xd800 ≤ n && n ≤ 0xdfff then Char.ofNat 0xfffd else Char.ofNat n

/-- Decoded character of a single-character JSON string escape. -/
def escapeCodeOf (e : Char) : Option Char :=
  if e == '"' then some '"'
  else if e == '\\' then some '\\'
  else if e == '/' then some '/'
  else if e == 'b' then some (Char.ofNat 8)
  else if e == 'f' then some (Char.ofNat 12)
  else if e == 'n' then some '\n'
  else if e == 'r' then some (Char.ofNat 13)
  else if e == 't' then some '\t'
  else none

/-- Parse a JSON string body after the opening quote; returns the decoded
characters and the remaining input after the closing quote.  Unescaped
control characters are rejected, as `JSON.parse` rejects them. -/
def parseStringBody : List Char → Option (List Char × List Char)
  | [] => none
  | c :: r =>
    if c == '"' then some ([], r)
    else if c == '\\' then
      match r with
      | [] => none
      | e :: r2 =>
        if e == 'u' then
          match r2 with
          | h1 :: h2 :: h3 :: h4 :: r3 =>
            match hexVal h1, hexVal h2, hexVal h3, hexVal h4 with
            | some a, some b, some hc, some d =>
              (parseStringBody r3).map
                (fun p =>
                  (charFromCodeUnit (((a * 16 + b) * 16 + hc) * 16 + d) :: p.1, p.2))
            | _, _, _, _ => none
          | _ => none
        else
          match escapeCodeOf e with
          | some decoded => (parseStringBody r2).map (fun p => (decoded :: p.1, p.2))
          | none => none
    else if c.toNat < 32 then none
    else (parseStringBody r).map (fun p => (c :: p.1, p.2))

/-- Value of a digit string. -/
def digitsVal (l : List Char) : Nat :=
  l.foldl (fun acc c => acc * 10 + (c.toNat - 48)) 0

/-- Parse an unsigned JSON integer (leading zeros rejected; a following
`.`, `e` or `E` makes the model reject, see the section comment). -/
def parseNatNum (l : List Char) : Option (Nat × List Char) :=
  let ds := l.takeWhile Char.isDigit
  let rest := l.dropWhile Char.isDigit
  if ds.isEmpty then none
  else if 1 < ds.length && ds.headI == '0' then none
  else
    match rest with
    | '.' :: _ => none
    | 'e' :: _ => none
    | 'E' :: _ => none
    | _ => some (digitsVal ds, rest)

/-- Parse a JSON number (integral; see the section comment). -/
def parseNumber (l : List Char) : Option (Int × List Char) :=
  match l with
  | c :: rest =>
    if c == '-' then (parseNatNum rest).map (fun p => (-(p.1 : Int), p.2))
    else (parseNatNum l).map (fun p => ((p.1 : Int), p.2))
  | [] => none

mutual

/-- Parse one JSON value (fuel-indexed; `jsonParse` supplies ample fuel). -/
def parseValue : Nat → List Char → Option (Json × List Char)
  | 0, _ => none
  | Nat.succ fuel, l =>
    match skipJsonWs l with
    | 'n' :: 'u' :: 'l' :: 'l' :: r => some (.null, r)
    | 't' :: 'r' :: 'u' :: 'e' :: r => some (.bool true, r)
    | 'f' :: 'a' :: 'l' :: 's' :: 'e' :: r => some (.bool false, r)
    | '"' :: r => (parseStringBody r).map (fun p => (.str ⟨p.1⟩, p.2))
    | '[' :: r =>
      match skipJsonWs r with
      | ']' :: r2 => some (.arr [], r2)
      | _ => (parseElems fuel r).map (fun p => (.arr p.1, p.2))
    | '{' :: r =>
      match skipJsonWs r with
      | '}' :: r2 => some (.obj [], r2)
      | _ => (parseMembers fuel r).map (fun p => (.obj p.1, p.2))
    | c :: r =>
      if c == '-' || c.isDigit then
        (parseNumber (c :: r)).map (fun p => (.num p.1, p.2))
      else none
    | [] => none

/-- Parse the elements of a non-empty JSON array, consuming the closing
bracket. -/
def parseElems : Nat → List Char → Option (List Json × List Char)
  | 0, _ => none
  | Nat.succ fuel, l =>
    match parseValue fuel l with
    | none => none
    | some (v, rest) =>
      match skipJsonWs rest with
      | ',' :: r2 => (parseElems fuel r2).map (fun p => (v :: p.1, p.2))
      | ']' :: r2 => some ([v], r2)
      | _ => none

/-- Parse the members of a non-empty JSON object, consuming the closing
brace. -/
def parseMembers : Nat → List Char → Option (List (String × Json) × List Char)
  | 0, _ => none
  | Nat.succ fuel, l =>
    match skipJsonWs l with
    | '"' :: r =>
      match parseStringBody r with
      | none => none
      | some (k, rest) =>
        match skipJsonWs rest with
        | ':' :: r2 =>
          match parseValue fuel r2 with
          | none => none
          | some (v, rest2) =>
            match skipJsonWs rest2 with
            | ',' :: r3 => (parseMembers fuel r3).map (fun p => ((⟨k⟩, v) :: p.1, p.2))
            | '}' :: r3 => some ([(⟨k⟩, v)], r3)
            | _ => none
        | _ => none
    | _ => none

end

/-- Model of `JSON.parse`: parse one value and require only whitespace to
follow.  Returns `none` where the platform primitive throws. -/
def jsonParse (s : String) : Option Json :=
  match parseValue (s.length + 1) s.data with
  | some (v, rest) => if skipJsonWs rest = [] then some v else none
  | none => none

/-- Lowercase hexadecimal digit character (as `JSON.stringify` emits). -/
def hexDigitChar (n : Nat) : Char :=
  if n < 10 then Char.ofNat (48 + n) else Char.ofNat (87 + n)

/-- Four-digit hexadecimal rendering of a code unit. -/
def hex4 (n : Nat) : List Char :=
  [hexDigitChar (n / 4096 % 16), hexDigitChar (n / 256 % 16),
   hexDigitChar (n / 16 % 16), hexDigitChar (n % 16)]

/-- Escape one character as `JSON.stringify` does inside string literals. -/
def escapeChar (c : Char) : List Char :=
  if c == '"' then ['\\', '"']
  else if c == '\\' then ['\\', '\\']
  else if c.toNat == 8 then ['\\', 'b']
  else if c.toNat == 9 then ['\\', 't']
  else if c.toNat == 10 then ['\\', 'n']
  else if c.toNat == 12 then ['\\', 'f']
  else if c.toNat == 13 then ['\\', 'r']
  else if c.toNat < 32 then '\\' :: 'u' :: hex4 c.toNat
  else [c]

/-- Quoted, escaped JSON string literal. -/
def quoteString (s : String) : List Char :=
  '"' :: (s.data.map escapeChar).flatten ++ ['"']

/-- Decimal digits of a natural number. -/
def natToChars (n : Nat) : List Char :=
  if h : n < 10 then [Char.ofNat (48 + n)]
  else natToChars (n / 10) ++ [Char.ofNat (48 + n % 10)]
decreasing_by exact Nat.div_lt_self (by omega) (by omega)

/-- Decimal rendering of an integer. -/
def intToChars (i : Int) : List Char :=
  if i < 0 then '-' :: natToChars i.natAbs else natToChars i.natAbs

mutual

/-- Model of `JSON.stringify(v, null, 2)` at indentation `ind`, producing
the exact pretty-printed character sequence. -/
def emitValue (ind : Nat) : Json → List Char
  | .null => ['n', 'u', 'l', 'l']
  | .bool b => if b then ['t', 'r', 'u', 'e'] else ['f', 'a', 'l', 's', 'e']
  | .num n => intToChars n
  | .str s => quoteString s
  | .arr [] => ['[', ']']
  | .arr (v :: vs) =>
    '[' :: '\n' :: emitElems (ind + 2) v vs ++
      ('\n' :: List.replicate ind ' ' ++ [']'])
  | .obj [] => ['{', '}']
  | .obj ((k, jv) :: ms) =>
    '{' :: '\n' :: emitMembers (ind + 2) k jv ms ++
      ('\n' :: List.replicate ind ' ' ++ ['}'])
termination_by v => sizeOf v
decreasing_by all_goals (simp_wf <;> omega)

/-- Array elements, one per line at indentation `ind`, comma-separated. -/
def emitElems (ind : Nat) (v : Json) (vs : List Json) : List Char :=
  List.replicate ind ' ' ++ emitValue ind v ++
    match vs with
    | [] => []
    | w :: ws => ',' :: '\n' :: emitElems ind w ws
termination_by 1 + sizeOf v + sizeOf vs
decreasing_by all_goals (simp_wf <;> omega)

/-- Object members, one per line at indentation `ind`, comma-separated;
the member under emission is passed destructured as `k`, `jv`. -/
def emitMembers (ind : Nat) (k : String) (jv : Json)
    (ms : List (String × Json)) : List Char :=
  List.replicate ind ' ' ++ quoteString k ++ ':' :: ' ' :: emitValue ind jv ++
    match ms with
    | [] => []
    | (k', jv') :: ms' => ',' :: '\n' :: emitMembers ind k' jv' ms'
termination_by 1 + sizeOf jv + sizeOf ms
decreasing_by all_goals (simp_wf; omega)

end

/-- String wrapper for the pretty serializer at top level:
`JSON.stringify(v, null, 2)`. -/
def jsonStringifyPretty (v : Json) : String := ⟨emitValue 0 v⟩

/-! ## Plan contract (`plan-contract.ts`)

Embedding of the action union, per-variant validators, `parsePlanJson`,
`extractPlanBlock`, `formatPlanBlock` and `parsePlanFromText`. -/

/-- Closed set of ssh targets (`ALLOWED_TARGETS`). -/
inductive Target where
  | william : Target
  | willyUbuntu : Target
deriving DecidableEq, Repr

/-- Wire name of a target. -/
def Target.name : Target → String
  | .william => "william"
  | .willyUbuntu => "willy-ubuntu"

/-- Web fetch modes. -/
inductive WebFetchMode where
  | http : WebFetchMode
  | browser : WebFetchMode
deriving DecidableEq, Repr

/-- Wire name of a web fetch mode. -/
def WebFetchMode.name : WebFetchMode → String
  | .http => "http"
  | .browser => "browser"

/-- Execution mode hint. -/
inductive ExecutionMode where
  | foreground : ExecutionMode
  | background : ExecutionMode
deriving DecidableEq, Repr

/-- Optional execution hints shared by executable variants
(`ExecutionHints`). -/
structure Hints where
  executionMode : Option ExecutionMode
  parallelGroup : Option String
deriving DecidableEq, Repr

/-- Empty hints. -/
def Hints.none' : Hints := ⟨none, none⟩

/-- The action union of `plan-contract.ts` (the eleven-variant version the
runner-era contract exports). -/
inductive Action where
  | reply : Action
  | question (question : String) : Action
  | ssh (target : Target) (command : String) (requiresApproval : Bool)
      (reason : String) (hints : Hints) : Action
  | obsidianWrite (path patch : String) (requiresApproval : Bool)
      (reason : String) (hints : Hints) : Action
  | webFetch (url : String) (mode : WebFetchMode) (requiresApproval : Bool)
      (reason : String) (extract : Option String) (hints : Hints) : Action
  | imageToText (imageUrl : String) (requiresApproval : Bool) (reason : String)
      (prompt : Option String) (hints : Hints) : Action
  | voiceToText (audioUrl : String) (requiresApproval : Bool) (reason : String)
      (language : Option String) (hints : Hints) : Action
  | opencodeServe (task : String) (requiresApproval : Bool) (reason : String)
      (cwd : Option String) (timeout : Option Int) (hints : Hints) : Action
  | addonInstall (addon : String) (requiresApproval : Bool) (reason : String)
      (hints : Hints) : Action
  | addonCreate (addon purpose : String) (requiresApproval : Bool)
      (reason : String) (hints : Hints) : Action
  | addonRun (addon : String) (input : Option String) (requiresApproval : Bool)
      (reason : String) (hints : Hints) : Action
deriving DecidableEq, Repr

/-- A plan is a list of actions (`Plan`). -/
structure Plan where
  actions : List Action
deriving DecidableEq, Repr

/-- The empty plan (`EMPTY_PLAN`). -/
def EMPTY_PLAN : Plan := ⟨[]⟩

/-- Result record of `parsePlanFromText` (`PlanParseResult`). -/
structure PlanParseResult where
  plan : Option Plan
  errors : List String
  rawJson : Option String
deriving DecidableEq, Repr

/-- Last-wins member lookup, modelling property access on an object built
by `JSON.parse` (later duplicate keys shadow earlier ones). -/
def lookupLast (ms : List (String × Json)) (k : String) : Option Json :=
  ms.foldl (fun acc m => if m.1 == k then some m.2 else acc) none

/-- Property access `value[k]`; non-objects have no fields (array index
properties are not modelled: the validators access only named fields). -/
def Json.getField : Json → String → Option Json
  | .obj ms, k => lookupLast ms k
  | _, _ => none

/-- Embedding of `isObject` from `plan-contract.ts`: `typeof v === 'object'
&& v !== null`, which is also true of arrays. -/
def isObjectLike : Json → Bool
  | .obj _ => true
  | .arr _ => true
  | _ => false

/-- Field read `typeof value.k === 'string' ? value.k.trim() : ''`. -/
def strFieldTrimmed (v : Json) (k : String) : String :=
  match v.getField k with
  | some (.str s) => jsTrim s
  | _ => ""

/-- Field read `typeof value.k === 'string' ? value.k.trim() : undefined`. -/
def optStrFieldTrimmed (v : Json) (k : String) : Option String :=
  match v.getField k with
  | some (.str s) => some (jsTrim s)
  | _ => none

/-- Field read `typeof value.k === 'boolean' ? value.k : d`. -/
def boolFieldOr (v : Json) (k : String) (d : Bool) : Bool :=
  match v.getField k with
  | some (.bool b) => b
  | _ => d

/-- Embedding of `parseExecutionHints`: `executionMode` is kept only when
strictly equal to `'background'`; `parallelGroup` is kept when its trimmed
value is non-empty. -/
def parseExecutionHints (v : Json) : Hints :=
  let executionMode : Option ExecutionMode :=
    match v.getField "executionMode" with
    | some (.str s) => if s == "background" then some .background else none
    | _ => none
  let parallelGroup := strFieldTrimmed v "parallelGroup"
  ⟨executionMode, if parallelGroup = "" then none else some parallelGroup⟩

/-- Protocol check `['http:', 'https:'].includes(new URL(u).protocol)`,
with `none` for a throwing parse. -/
def urlProtocolOk (u : String) : Bool :=
  match urlParse u with
  | some p => p.protocol == "http:" || p.protocol == "https:"
  | none => false

/-- Embedding of `validateSshAction`. -/
def validateSshAction (v : Json) : Option Action :=
  let command := strFieldTrimmed v "command"
  let target :=
    match v.getField "target" with
    | some (.str s) => s
    | _ => ""
  let requiresApproval := boolFieldOr v "requiresApproval" true
  let reason := strFieldTrimmed v "reason"
  if command = "" || reason = "" then none
  else if target == "william" then
    some (.ssh .william command requiresApproval reason (parseExecutionHints v))
  else if target == "willy-ubuntu" then
    some (.ssh .willyUbuntu command requiresApproval reason (parseExecutionHints v))
  else none

/-- Embedding of `validateObsidianWriteAction`. -/
def validateObsidianWriteAction (v : Json) : Option Action :=
  let path := strFieldTrimmed v "path"
  let patch := strFieldTrimmed v "patch"
  let requiresApproval := boolFieldOr v "requiresApproval" true
  let reason := strFieldTrimmed v "reason"
  if path = "" || patch = "" || reason = "" then none
  else some (.obsidianWrite path patch requiresApproval reason (parseExecutionHints v))

/-- Embedding of `validateQuestionAction`. -/
def validateQuestionAction (v : Json) : Option Action :=
  let question := strFieldTrimmed v "question"
  if question = "" then none else some (.question question)

/-- Embedding of `validateWebFetchAction`: trims url/mode/reason/extract,
defaults `mode` to `http` unless the trimmed mode equals `browser`,
defaults `requiresApproval` to `mode === 'browser'` when not supplied as a
boolean, requires non-empty url and reason, and requires the url to parse
with an http or https protocol.  A trimmed-empty `extract` is dropped. -/
def validateWebFetchAction (v : Json) : Option Action :=
  let url := strFieldTrimmed v "url"
  let modeCandidate := strFieldTrimmed v "mode"
  let mode : WebFetchMode := if modeCandidate == "browser" then .browser else .http
  let requiresApproval := boolFieldOr v "requiresApproval" (mode == .browser)
  let reason := strFieldTrimmed v "reason"
  let extract := optStrFieldTrimmed v "extract"
  if url = "" || reason = "" then none
  else if !urlProtocolOk url then none
  else
    some (.webFetch url mode requiresApproval reason
      (match extract with
       | some e => if e = "" then none else some e
       | none => none)
      (parseExecutionHints v))

/-- Embedding of `validateImageToTextAction`. -/
def validateImageToTextAction (v : Json) : Option Action :=
  let imageUrl := strFieldTrimmed v "imageUrl"
  let reason := strFieldTrimmed v "reason"
  let requiresApproval := boolFieldOr v "requiresApproval" true
  let prompt := optStrFieldTrimmed v "prompt"
  if imageUrl = "" || reason = "" then none
  else if !urlProtocolOk imageUrl then none
  else
    some (.imageToText imageUrl requiresApproval reason
      (match prompt with
       | some p => if p = "" then none else some p
       | none => none)
      (parseExecutionHints v))

/-- Embedding of `validateVoiceToTextAction`. -/
def validateVoiceToTextAction (v : Json) : Option Action :=
  let audioUrl := strFieldTrimmed v "audioUrl"
  let reason := strFieldTrimmed v "reason"
  let requiresApproval := boolFieldOr v "requiresApproval" true
  let language := optStrFieldTrimmed v "language"
  if audioUrl = "" || reason = "" then none
  else if !urlProtocolOk audioUrl then none
  else
    some (.voiceToText audioUrl requiresApproval reason
      (match language with
       | some lg => if lg = "" then none else some lg
       | none => none)
      (parseExecutionHints v))

/-- Embedding of `validateOpencodeServeAction`: `timeout` is kept when the
field is a (finite) number, floored and clamped to `[1, 600]`; numbers are
integral in this model (see the JSON section comment). -/
def validateOpencodeServeAction (v : Json) : Option Action :=
  let task := strFieldTrimmed v "task"
  let reason := strFieldTrimmed v "reason"
  let requiresApproval := boolFieldOr v "requiresApproval" true
  let cwd := optStrFieldTrimmed v "cwd"
  let timeout : Option Int :=
    match v.getField "timeout" with
    | some (.num n) => some (max 1 (min 600 n))
    | _ => none
  if task = "" || reason = "" then none
  else
    some (.opencodeServe task requiresApproval reason
      (match cwd with
       | some c => if c = "" then none else some c
       | none => none)
      timeout (parseExecutionHints v))

/-- Addon name pattern `/^[a-z0-9][a-z0-9-]{0,63}$/i` (case-insensitive):
one ASCII alphanumeric, then up to 63 ASCII alphanumerics or hyphens. -/
def addonNameOk (s : String) : Bool :=
  match s.data with
  | [] => false
  | c :: cs =>
    c.isAlphanum && cs.length ≤ 63 && cs.all (fun d => d.isAlphanum || d == '-')

/-- Embedding of `validateAddonInstallAction`. -/
def validateAddonInstallAction (v : Json) : Option Action :=
  let addon := strFieldTrimmed v "addon"
  let reason := strFieldTrimmed v "reason"
  let requiresApproval := boolFieldOr v "requiresApproval" true
  if addon = "" || reason = "" || !addonNameOk addon then none
  else some (.addonInstall addon requiresApproval reason (parseExecutionHints v))

/-- Embedding of `validateAddonCreateAction`. -/
def validateAddonCreateAction (v : Json) : Option Action :=
  let addon := strFieldTrimmed v "addon"
  let purpose := strFieldTrimmed v "purpose"
  let reason := strFieldTrimmed v "reason"
  let requiresApproval := boolFieldOr v "requiresApproval" true
  if addon = "" || purpose = "" || reason = "" || !addonNameOk addon then none
  else some (.addonCreate addon purpose requiresApproval reason (parseExecutionHints v))

/-- Embedding of `validateAddonRunAction`. -/
def validateAddonRunAction (v : Json) : Option Action :=
  let addon := strFieldTrimmed v "addon"
  let input := optStrFieldTrimmed v "input"
  let reason := strFieldTrimmed v "reason"
  let requiresApproval := boolFieldOr v "requiresApproval" true
  if addon = "" || reason = "" || !addonNameOk addon then none
  else
    some (.addonRun addon
      (match input with
       | some i => if i = "" then none else some i
       | none => none)
      requiresApproval reason (parseExecutionHints v))

/-- Embedding of `validateAction`: dispatch on the `type` field; unknown or
missing types reject.  Non-objects reject (`isObject` guard; field access
on an array yields no `type` string and falls to the default branch). -/
def validateAction (v : Json) : Option Action :=
  if !isObjectLike v then none
  else
    let t :=
      match v.getField "type" with
      | some (.str s) => s
      | _ => ""
    if t == "reply" then some .reply
    else if t == "question" then validateQuestionAction v
    else if t == "ssh" then validateSshAction v
    else if t == "obsidian_write" then validateObsidianWriteAction v
    else if t == "web_fetch" then validateWebFetchAction v
    else if t == "image_to_text" then validateImageToTextAction v
    else if t == "voice_to_text" then validateVoiceToTextAction v
    else if t == "opencode_serve" then validateOpencodeServeAction v
    else if t == "addon_install" then validateAddonInstallAction v
    else if t == "addon_create" then validateAddonCreateAction v
    else if t == "addon_run" then validateAddonRunAction v
    else none

/-- Validate a list of action values; any failure rejects the whole list. -/
def validateActions : List Json → Option (List Action)
  | [] => some []
  | v :: vs =>
    match validateAction v with
    | none => none
    | some a => (validateActions vs).map (fun as => a :: as)

/-- Embedding of `parsePlanJson`: `JSON.parse`, require an object-like top
level (arrays included), read `actions` when it is an array (else treat as
empty), and validate every element. -/
def parsePlanJson (jsonText : String) : Option Plan :=
  match jsonParse jsonText with
  | none => none
  | some parsed =>
    if !isObjectLike parsed then none
    else
      let actions :=
        match parsed.getField "actions" with
        | some (.arr l) => l
        | _ => []
      (validateActions actions).map Plan.mk

/-- Scan for the closing triple-backtick fence: returns the characters
before the first occurrence and the remainder after it. -/
def findCloseFence : List Char → Option (List Char × List Char)
  | '`' :: '`' :: '`' :: rest => some ([], rest)
  | c :: rest => (findCloseFence rest).map (fun p => (c :: p.1, p.2))
  | [] => none

/-- Whether a character list contains a triple backtick. -/
def hasTripleBacktickList : List Char → Bool
  | '`' :: '`' :: '`' :: _ => true
  | _ :: rest => hasTripleBacktickList rest
  | [] => false

/-- Whether a string contains a triple backtick. -/
def hasTripleBacktick (s : String) : Bool := hasTripleBacktickList s.data

/-- Attempt the remainder of `PLAN_BLOCK_REGEX` after an opening fence:
optionally consume a (case-insensitive) `json` tag, greedily consume
whitespace, then capture lazily up to the next triple backtick.  Failure
here means no closing fence exists anywhere after this point, so the whole
regex cannot match from any later start either. -/
def tryFenceAt (l : List Char) : Option (List Char) :=
  let l1 := if (l.take 4).map Char.toLower = ['j', 's', 'o', 'n'] then l.drop 4 else l
  let l2 := l1.dropWhile jsWhitespace
  (findCloseFence l2).map (fun p => p.1)

/-- Leftmost match of `PLAN_BLOCK_REGEX` over the character list. -/
def extractPlanBlockList : List Char → Option (List Char)
  | '`' :: '`' :: '`' :: rest => tryFenceAt rest
  | _ :: rest => extractPlanBlockList rest
  | [] => none

/-- Embedding of `extractPlanBlock`: first fenced block's capture,
trimmed. -/
def extractPlanBlock (text : String) : Option String :=
  (extractPlanBlockList text.data).map (fun cap => jsTrim ⟨cap⟩)

/-- Optional string member for a serialized action object (the
`...(x ? \x7b x \x7d : \x7b\x7d)` spread pattern). -/
def optStrMember (k : String) (v : Option String) : List (String × Json) :=
  match v with
  | some s => [(k, .str s)]
  | none => []

/-- Hint members appended by the `...hints` spread (present fields only,
`executionMode` before `parallelGroup`). -/
def hintsMembers (h : Hints) : List (String × Json) :=
  (match h.executionMode with
   | some .background => [("executionMode", Json.str "background")]
   | some .foreground => [("executionMode", Json.str "foreground")]
   | none => []) ++
  (match h.parallelGroup with
   | some g => [("parallelGroup", Json.str g)]
   | none => [])

/-- JSON object for one action, with the member order the validators use
when constructing the returned object literal. -/
def actionToJson : Action → Json
  | .reply => .obj [("type", .str "reply")]
  | .question q => .obj [("type", .str "question"), ("question", .str q)]
  | .ssh target command requiresApproval reason hints =>
    .obj ([("type", .str "ssh"), ("command", .str command),
           ("target", .str target.name),
           ("requiresApproval", .bool requiresApproval),
           ("reason", .str reason)] ++ hintsMembers hints)
  | .obsidianWrite path patch requiresApproval reason hints =>
    .obj ([("type", .str "obsidian_write"), ("path", .str path),
           ("patch", .str patch),
           ("requiresApproval", .bool requiresApproval),
           ("reason", .str reason)] ++ hintsMembers hints)
  | .webFetch url mode requiresApproval reason ex hints =>
    .obj ([("type", .str "web_fetch"), ("url", .str url),
           ("mode", .str mode.name),
           ("requiresApproval", .bool requiresApproval),
           ("reason", .str reason)] ++ optStrMember "extract" ex ++
          hintsMembers hints)
  | .imageToText imageUrl requiresApproval reason prompt hints =>
    .obj ([("type", .str "image_to_text"), ("imageUrl", .str imageUrl),
           ("reason", .str reason),
           ("requiresApproval", .bool requiresApproval)] ++
          optStrMember "prompt" prompt ++ hintsMembers hints)
  | .voiceToText audioUrl requiresApproval reason language hints =>
    .obj ([("type", .str "voice_to_text"), ("audioUrl", .str audioUrl),
           ("reason", .str reason),
           ("requiresApproval", .bool requiresApproval)] ++
          optStrMember "language" language ++ hintsMembers hints)
  | .opencodeServe task requiresApproval reason cwd timeout hints =>
    .obj ([("type", .str "opencode_serve"), ("task", .str task),
           ("reason", .str reason),
           ("requiresApproval", .bool requiresApproval)] ++
          optStrMember "cwd" cwd ++
          (match timeout with
           | some t => [("timeout", Json.num t)]
           | none => []) ++ hintsMembers hints)
  | .addonInstall addon requiresApproval reason hints =>
    .obj ([("type", .str "addon_install"), ("addon", .str addon),
           ("reason", .str reason),
           ("requiresApproval", .bool requiresApproval)] ++ hintsMembers hints)
  | .addonCreate addon purpose requiresApproval reason hints =>
    .obj ([("type", .str "addon_create"), ("addon", .str addon),
           ("purpose", .str purpose), ("reason", .str reason),
           ("requiresApproval", .bool requiresApproval)] ++ hintsMembers hints)
  | .addonRun addon input requiresApproval reason hints =>
    .obj ([("type", .str "addon_run"), ("addon", .str addon)] ++
          optStrMember "input" input ++
          [("reason", .str reason),
           ("requiresApproval", .bool requiresApproval)] ++ hintsMembers hints)

/-- JSON object of a plan: `{ actions: [...] }`. -/
def planToJson (p : Plan) : Json :=
  .obj [("actions", .arr (p.actions.map actionToJson))]

/-- Embedding of `formatPlanBlock(plan)`:
`'```json\n' + JSON.stringify(plan, null, 2) + '\n```'`.  The serialized
object carries the fields in construction order per variant. -/
def formatPlanBlock (plan : Plan) : String :=
  "```json\n" ++ jsonStringifyPretty (planToJson plan) ++ "\n```"

/-- Model of `replace(/^json\s*/i, '')`: strip one leading
case-insensitive `json` literal with following whitespace. -/
def stripLeadingJsonTag (s : String) : String :=
  if (s.data.take 4).map Char.toLower = ['j', 's', 'o', 'n'] then
    ⟨(s.data.drop 4).dropWhile jsWhitespace⟩
  else s

/-- Embedding of `parsePlanFromText`. -/
def parsePlanFromText (text : String) : PlanParseResult :=
  match extractPlanBlock text with
  | none =>
    let candidate := jsTrim (stripLeadingJsonTag (jsTrim text))
    match parsePlanJson candidate with
    | some plan => ⟨some plan, [], some candidate⟩
    | none => ⟨none, ["Missing JSON plan block in response"], none⟩
  | some block =>
    match parsePlanJson block with
    | none =>
      ⟨none, ["Plan block exists but JSON failed to parse or schema validation failed"],
        some block⟩
    | some plan => ⟨some plan, [], some block⟩

/-! ## Proposal journal (`action-queue.ts`)

The journal file is a JSON array under the data directory; reads and the
write-back are modelled as explicit state passing of the record list.  The
run-time inputs the source draws from the clock and the RNG (`createId()`,
`new Date().toISOString()`) are passed explicitly. -/

namespace Journal

/-- Proposal status (`'proposed' | 'approved' | 'denied'`). -/
inductive ProposalStatus where
  | proposed : ProposalStatus
  | approved : ProposalStatus
  | denied : ProposalStatus
deriving DecidableEq, Repr

/-- Embedding of `ActionProposalRecord`. -/
structure ActionProposalRecord where
  id : String
  createdAt : String
  status : ProposalStatus
  groupFolder : String
  chatJid : String
  requestText : Option String
  actions : List Action
  decidedAt : Option String
  decisionReason : Option String
deriving DecidableEq, Repr

/-- A decision (`'approved' | 'denied'`). -/
inductive Decision where
  | approved : Decision
  | denied : Decision
deriving DecidableEq, Repr

/-- Status after a decision. -/
def Decision.toStatus : Decision → ProposalStatus
  | .approved => .approved
  | .denied => .denied

/-- Input record of `enqueueActionProposal`. -/
structure EnqueueInput where
  groupFolder : String
  chatJid : String
  plan : Plan
  requestText : Option String
deriving DecidableEq, Repr

/-- Embedding of `enqueueActionProposal`: a plan with zero actions yields
`null` and leaves the journal unchanged; otherwise a fresh `proposed`
record is appended (`requestText` is trimmed, with the empty string
becoming `undefined` by `|| undefined`). -/
def enqueueActionProposal (newId createdAt : String) (input : EnqueueInput)
    (queue : List ActionProposalRecord) :
    List ActionProposalRecord × Option ActionProposalRecord :=
  if input.plan.actions.length = 0 then (queue, none)
  else
    let record : ActionProposalRecord :=
      { id := newId, createdAt := createdAt, status := .proposed,
        groupFolder := input.groupFolder, chatJid := input.chatJid,
        requestText :=
          match input.requestText with
          | some t => if jsTrim t = "" then none else some (jsTrim t)
          | none => none,
        actions := input.plan.actions, decidedAt := none, decisionReason := none }
    (queue ++ [record], some record)

/-- Terminal write of `decideActionProposal` on the found record: flip
status, set `decidedAt`, and set `decisionReason` only when a truthy
(non-empty) reason was supplied. -/
def decideRecord (now : String) (decision : Decision) (reason : Option String)
    (r : ActionProposalRecord) : ActionProposalRecord :=
  { r with
    status := decision.toStatus,
    decidedAt := some now,
    decisionReason :=
      match reason with
      | some s => if s = "" then r.decisionReason else some s
      | none => r.decisionReason }

/-- Embedding of `decideActionProposal`: find the first record with the
given id; return `null` with the journal unchanged when it is missing or
not `proposed`; otherwise update it in place and persist. -/
def decideActionProposal (now id : String) (decision : Decision)
    (reason : Option String) :
    List ActionProposalRecord →
      List ActionProposalRecord × Option ActionProposalRecord
  | [] => ([], none)
  | r :: rest =>
    if r.id = id then
      if r.status = .proposed then
        let r' := decideRecord now decision reason r
        (r' :: rest, some r')
      else (r :: rest, none)
    else
      let p := decideActionProposal now id decision reason rest
      (r :: p.1, p.2)

/-- One journal operation with its run-time inputs. -/
inductive JournalOp where
  | enq (newId createdAt : String) (input : EnqueueInput) : JournalOp
  | dec (now id : String) (decision : Decision) (reason : Option String) : JournalOp
deriving Repr

/-- Apply one operation to the journal. -/
def stepJournal (queue : List ActionProposalRecord) (op : JournalOp) :
    List ActionProposalRecord × Option ActionProposalRecord :=
  match op with
  | .enq newId createdAt input => enqueueActionProposal newId createdAt input queue
  | .dec now id decision reason => decideActionProposal now id decision reason queue

/-- Run a sequence of operations from the empty journal. -/
def runJournal (ops : List JournalOp) : List ActionProposalRecord :=
  ops.foldl (fun q op => (stepJournal q op).1) []

/-- How one stored record may evolve across a single journal operation:
it is untouched, or it was `proposed` and only its decision fields
changed, the status moving to `approved` or `denied`. -/
def recEvolution (old new : ActionProposalRecord) : Prop :=
  new = old ∨
  (old.status = .proposed ∧
    (new.status = .approved ∨ new.status = .denied) ∧
    new.id = old.id ∧ new.createdAt = old.createdAt ∧
    new.groupFolder = old.groupFolder ∧ new.chatJid = old.chatJid ∧
    new.requestText = old.requestText ∧ new.actions = old.actions)

end Journal

/-! ## Runner dispatch batching and signature gate
(`infra/apps/ops-runner/src/index.ts`) -/

namespace Runner

instance : Inhabited Json := ⟨Json.null⟩

/-- JS truthiness of `action.parallelGroup` for wire actions, which carry
it as a string or not at all: present and non-empty. -/
def isGroupedAction (a : Json) : Bool :=
  match a.getField "parallelGroup" with
  | some (.str s) => s ≠ ""
  | _ => false

/-- Group key of a grouped action. -/
def groupKeyOf (a : Json) : String :=
  match a.getField "parallelGroup" with
  | some (.str s) => s
  | _ => ""

/-- Insert an indexed action into the group map, modelling JS `Map`
semantics: a new key is appended at the end, an existing key's list grows
at its end. -/
def groupInsert (m : List (String × List (Nat × Json))) (key : String)
    (item : Nat × Json) : List (String × List (Nat × Json)) :=
  match m with
  | [] => [(key, [item])]
  | (k, l) :: rest =>
    if k = key then (k, l ++ [item]) :: rest
    else (k, l) :: groupInsert rest key item

/-- Build the `groupedMap` of `executeDispatchActions` from the indexed
action list. -/
def buildGroupMap (items : List (Nat × Json)) :
    List (String × List (Nat × Json)) :=
  items.foldl
    (fun m it => if isGroupedAction it.2 then groupInsert m (groupKeyOf it.2) it else m)
    []

/-- Split a list into chunks of `k` (with `k ≥ 1` enforced by the caller
through `Math.max(1, DISPATCH_MAX_PARALLEL)`); `fuel` bounds the
recursion. -/
def chunksAux (k : Nat) : Nat → List α → List (List α)
  | 0, _ => []
  | _, [] => []
  | Nat.succ fuel, l => l.take k :: chunksAux k fuel (l.drop k)

/-- Chunking with ample fuel. -/
def chunks (k : Nat) (l : List α) : List (List α) :=
  chunksAux k l.length l

/-- Apply a list of indexed writes to a result array. -/
def applyWrites (ws : List (Nat × R)) (res : List (Option R)) : List (Option R) :=
  ws.foldl (fun r w => r.set w.1 (some w.2)) res

/-- The index/value writes performed by `executeDispatchActions`: the
serial pass over ungrouped actions in declaration order, then the grouped
actions in group-map order, batched by `max(1, maxParallel)`; each batch
runs under `Promise.all` and its results are written back to the original
indices in batch order.  `exec` stands for the awaited
`executeDispatchAction`. -/
def dispatchWrites (maxParallel : Nat) (exec : Json → R) (actions : List Json) :
    List (List (Nat × R)) :=
  let indexed := actions.enum
  let serial := indexed.filter (fun ia => !isGroupedAction ia.2)
  let grouped := ((buildGroupMap indexed).map Prod.snd).flatten
  let batches := chunks (max 1 maxParallel) grouped
  [serial.map (fun ia => (ia.1, exec ia.2))] ++
    batches.map (fun b => b.map (fun ia => (ia.1, exec ia.2)))

/-- Embedding of `executeDispatchActions`: a fresh `new Array(n)` of holes,
filled by the serial pass and then the bounded-parallel grouped batches. -/
def executeDispatchActions (maxParallel : Nat) (exec : Json → R)
    (actions : List Json) : List (Option R) :=
  (dispatchWrites maxParallel exec actions).foldl
    (fun res ws => applyWrites ws res)
    (List.replicate actions.length none)

/-- Embedding of `buildSignature`: HMAC-SHA256 over `ts + "." + body`,
hex-encoded.  The HMAC itself is a crypto-library primitive, abstracted as
the `hmac` parameter (secret first, message second). -/
def buildSignature (hmac : String → String → String)
    (timestamp payload secret : String) : String :=
  hmac secret (timestamp ++ "." ++ payload)

/-- The two signature headers of a dispatch request (`none` for an absent
header; `request.headers.get` yields `null` then `|| ''`). -/
structure DispatchHeaders where
  signatureTs : Option String
  signature : Option String
deriving DecidableEq, Repr

/-- Embedding of `verifyDispatchSignature`: vacuously true without a
configured secret; otherwise require both headers, the `sha256=` prefix,
and equality with the recomputed signature over the raw body. -/
def verifyDispatchSignature (hmac : String → String → String)
    (webhookSecret : String) (h : DispatchHeaders) (body : String) : Bool :=
  if webhookSecret = "" then true
  else if h.signatureTs.getD "" = "" ||
      !(strStartsWith (h.signature.getD "") "sha256=") then false
  else
    strDrop (h.signature.getD "") 7 ==
      buildSignature hmac (h.signatureTs.getD "") body webhookSecret

/-- Decode of the dispatch body done by `handleDispatch` after signature
verification: `JSON.parse`, then require `event === 'approved_actions.dispatch'`,
a truthy `dispatchId`, and an `actions` array; the raw action values are
handed to `executeDispatchActions`. -/
def parseDispatchBody (rawBody : String) : Option (Option (String × List Json)) :=
  match jsonParse rawBody with
  | none => none
  | some v =>
    let event :=
      match v.getField "event" with
      | some (.str s) => s
      | _ => ""
    let dispatchId :=
      match v.getField "dispatchId" with
      | some (.str s) => s
      | _ => ""
    match v.getField "actions" with
    | some (.arr l) =>
      if event == "approved_actions.dispatch" && dispatchId ≠ "" then
        some (some (dispatchId, l))
      else some none
    | _ => some none

/-- Abstract runner store state threaded through `handleDispatch` (run rows
are created only inside action execution). -/
structure HandleResult (St R : Type) where
  httpStatus : Nat
  results : List R
  state : St
deriving DecidableEq, Repr

/-- Embedding of `handleDispatch`: read the raw body, verify the signature
(401 with no further work on failure), decode the payload (500 on a JSON
parse throw, 400 on an invalid payload), then execute the batch.
`execBatch` stands for `executeDispatchActions` together with its effects
on the run store. -/
def handleDispatch (hmac : String → String → String) (webhookSecret : String)
    (h : DispatchHeaders) (rawBody : String)
    (execBatch : List Json → St → List R × St) (st : St) : HandleResult St R :=
  if !verifyDispatchSignature hmac webhookSecret h rawBody then
    ⟨401, [], st⟩
  else
    match parseDispatchBody rawBody with
    | none => ⟨500, [], st⟩
    | some none => ⟨400, [], st⟩
    | some (some (_, actions)) =>
      let (rs, st') := execBatch actions st
      ⟨200, rs, st'⟩

end Runner

/-! ## Background run lifecycle (`executeOpencodeServeAction` /
`handleCancelRun`)

The runner is single-threaded JavaScript: interleaving happens only
between synchronous blocks.  The three atomic blocks touching one run row
are modelled as events: `create` (the background branch of
`executeOpencodeServeAction` up to its first await: `createRun` with
status `queued`, registration of the abort controller, and the worker's
synchronous prefix that sets status `running`), `finish ok` (the worker's
continuation after the awaited upstream call: `cancelled` when the signal
was aborted, else `completed`/`failed`; it removes the controller and runs
once), and `cancel` (the body of `handleCancelRun`: set `cancelRequested`,
and when a controller is registered, abort it and write the terminal
`cancelled` state). -/

namespace RunLifecycle

/-- Run status (`queued | running | completed | failed | cancelled`). -/
inductive RunStatus where
  | queued : RunStatus
  | running : RunStatus
  | completed : RunStatus
  | failed : RunStatus
  | cancelled : RunStatus
deriving DecidableEq, Repr, Fintype

/-- Terminal statuses. -/
def RunStatus.isTerminal : RunStatus → Bool
  | .completed => true
  | .failed => true
  | .cancelled => true
  | _ => false

/-- State of one run row plus the in-process abort bookkeeping. -/
structure RunState where
  created : Bool
  status : RunStatus
  cancelRequested : Bool
  controllerPresent : Bool
  aborted : Bool
  workerFinished : Bool
deriving DecidableEq, Repr, Fintype

/-- Initial state: the run row does not exist yet. -/
def initRunState : RunState :=
  { created := false, status := .queued, cancelRequested := false,
    controllerPresent := false, aborted := false, workerFinished := false }

/-- Atomic events on one run (see the section comment). -/
inductive RunEvent where
  | create : RunEvent
  | finish (ok : Bool) : RunEvent
  | cancel : RunEvent
deriving DecidableEq, Repr, Fintype

/-- One atomic step. -/
def stepRun (s : RunState) (e : RunEvent) : RunState :=
  match e with
  | .create =>
    if s.created then s
    else
      { created := true, status := .running, cancelRequested := false,
        controllerPresent := true, aborted := false, workerFinished := false }
  | .finish ok =>
    if !s.created || s.workerFinished then s
    else if s.aborted then
      { s with status := .cancelled, controllerPresent := false,
               workerFinished := true }
    else
      { s with status := if ok then .completed else .failed,
               controllerPresent := false, workerFinished := true }
  | .cancel =>
    if !s.created then s
    else if s.controllerPresent then
      { s with cancelRequested := true, aborted := true, status := .cancelled,
               controllerPresent := false }
    else { s with cancelRequested := true }

/-- Run an event sequence from the initial state. -/
def runEvents (es : List RunEvent) : RunState :=
  es.foldl stepRun initRunState

/-- Status writes the event performs on the run row, in database write
order (the `create` block writes `queued` then immediately `running`; a
`finish` after an abort re-writes `cancelled`). -/
def eventStatusWrites (s : RunState) (e : RunEvent) : List RunStatus :=
  match e with
  | .create => if s.created then [] else [.queued, .running]
  | .finish ok =>
    if !s.created || s.workerFinished then []
    else if s.aborted then [.cancelled]
    else [if ok then .completed else .failed]
  | .cancel =>
    if !s.created then []
    else if s.controllerPresent then [.cancelled]
    else []

/-- One forward move of the lifecycle DAG
`queued → running → (completed | failed | cancelled)` (staying put is
allowed; terminal states only repeat themselves). -/
def statusStepOk (a b : RunStatus) : Bool :=
  a == b ||
  (a == .queued && (b == .running || b.isTerminal)) ||
  (a == .running && b.isTerminal)

/-- All writes in a list are successive forward moves from `a`. -/
def pathOk : RunStatus → List RunStatus → Bool
  | _, [] => true
  | a, b :: rest => statusStepOk a b && pathOk b rest

/-- Reachability invariant of one run: before creation the state is
initial; after creation the controller is registered exactly while the
worker is in flight and unaborted, an abort implies the terminal
`cancelled` status, a finished worker implies `completed`/`failed` (when
not aborted), and an in-flight unaborted worker implies `running`. -/
def runInv (s : RunState) : Bool :=
  if !s.created then s == initRunState
  else
    (s.controllerPresent == (!s.workerFinished && !s.aborted)) &&
    (if s.aborted then s.status == .cancelled
     else if s.workerFinished then
       s.status == .completed || s.status == .failed
     else s.status == .running)

end RunLifecycle

/-! ## Execution gate (`executeApprovedActions` in `approved-executor.ts`) -/

/-- Wire name of an action variant (`action.type`). -/
def Action.typeName : Action → String
  | .reply => "reply"
  | .question _ => "question"
  | .ssh _ _ _ _ _ => "ssh"
  | .obsidianWrite _ _ _ _ _ => "obsidian_write"
  | .webFetch _ _ _ _ _ _ => "web_fetch"
  | .imageToText _ _ _ _ _ => "image_to_text"
  | .voiceToText _ _ _ _ _ => "voice_to_text"
  | .opencodeServe _ _ _ _ _ _ => "opencode_serve"
  | .addonInstall _ _ _ _ => "addon_install"
  | .addonCreate _ _ _ _ _ => "addon_create"
  | .addonRun _ _ _ _ _ => "addon_run"

/-- Executable variants at the dispatcher
(`action.type === 'ssh' || action.type === 'web_fetch'`). -/
def Action.isExecutable : Action → Bool
  | .ssh _ _ _ _ _ => true
  | .webFetch _ _ _ _ _ _ => true
  | _ => false

/-- `action.target` for ssh actions. -/
def Action.sshTarget : Action → Option String
  | .ssh t _ _ _ _ => some t.name
  | _ => none

/-- The `command` column of a dispatcher result: the ssh command, or the
url for a web fetch. -/
def Action.commandColumn : Action → Option String
  | .ssh _ c _ _ _ => some c
  | .webFetch u _ _ _ _ _ => some u
  | _ => none

namespace Core

/-- Result status of one approved action at the dispatcher. -/
inductive ExecStatus where
  | executed : ExecStatus
  | blocked : ExecStatus
  | failed : ExecStatus
  | skipped : ExecStatus
deriving DecidableEq, Repr

/-- Embedding of the dispatcher's `ExecutionResult` record. -/
structure ExecutionResult where
  actionType : String
  target : Option String
  command : Option String
  status : ExecStatus
  output : String
deriving DecidableEq, Repr

/-- Result list (plus `exitCode` flags) returned by the runner for a
dispatch, as far as the dispatcher reads it. -/
structure RunnerActionResult where
  stdout : Option String
  stderr : Option String
  exitCode : Option Int
  durationMs : Option Int
deriving DecidableEq, Repr

/-- Outcome of `dispatchApprovedActions` as consumed by the caller. -/
structure DispatchOutcome where
  ok : Bool
  output : String
  actionResults : Option (List RunnerActionResult)
deriving DecidableEq, Repr

/-- Safety filters applied in the classification loop: an ssh command must
pass the readonly allowlist; a web fetch url must pass the web allowlist
and browser mode must carry approval. -/
def passesFilters : Action → Bool
  | .ssh _ c _ _ _ => isAllowedReadonlyCommand c
  | .webFetch u mode ra _ _ _ =>
    isAllowedWebUrl u && !(mode == .browser && !ra)
  | _ => false

/-- One classification step of the first loop of `executeApprovedActions`:
either an immediate result or admission to the dispatchable list. -/
def classifyAction (a : Action) : Sum ExecutionResult Action :=
  if !a.isExecutable then
    .inl ⟨a.typeName, none, none, .skipped,
      "Action type " ++ a.typeName ++ " is not executable by external runner in this step."⟩
  else
    match a with
    | .ssh t c _ _ _ =>
      if !isAllowedReadonlyCommand c then
        .inl ⟨"ssh", some t.name, some c, .blocked,
          "Command blocked by readonly allowlist policy."⟩
      else .inr a
    | .webFetch u mode ra _ _ _ =>
      if !isAllowedWebUrl u then
        .inl ⟨"web_fetch", none, none, .blocked,
          "URL blocked by web-fetch safety policy."⟩
      else if mode == .browser && !ra then
        .inl ⟨"web_fetch", none, none, .blocked,
          "Browser mode requires approval. Set requiresApproval=true."⟩
      else .inr a
    | _ => .inr a

/-- The classification loop: immediate results in declaration order and
the dispatchable actions in declaration order. -/
def classifyActions : List Action → List ExecutionResult × List Action
  | [] => ([], [])
  | a :: rest =>
    let (rs, ds) := classifyActions rest
    match classifyAction a with
    | .inl r => (r :: rs, ds)
    | .inr d => (rs, d :: ds)

/-- Skipped result for a dispatchable action when approved execution is
disabled. -/
def skippedDisabledResult (a : Action) : ExecutionResult :=
  ⟨a.typeName, a.sshTarget, a.commandColumn, .skipped,
    "Approved execution is disabled (ENABLE_APPROVED_EXECUTION=false)."⟩

/-- Skipped result for a dispatchable action when no webhook URL is
configured. -/
def skippedNoUrlResult (a : Action) : ExecutionResult :=
  ⟨a.typeName, a.sshTarget, a.commandColumn, .skipped,
    "No APPROVED_ACTION_WEBHOOK_URL configured. Action stayed queued/orchestrated only."⟩

/-- Blocked result of the `ENABLE_LOCAL_APPROVED_EXECUTION` branch. -/
def localBlockedResult (a : Action) : ExecutionResult :=
  ⟨a.typeName, a.sshTarget, a.commandColumn, .blocked,
    "Local execution is disabled in core app; route through webhook dispatcher."⟩

/-- Per-action output lines assembled from a runner action result (empty
strings are dropped by `.filter(Boolean)`). -/
def runnerOut (r : Option RunnerActionResult) : String :=
  let parts : List String :=
    [ match r.bind RunnerActionResult.exitCode with
      | some c => "exitCode=" ++ toString c
      | none => "",
      match r.bind RunnerActionResult.durationMs with
      | some d => "durationMs=" ++ toString d
      | none => "",
      match r.bind RunnerActionResult.stdout with
      | some s => if s = "" then "" else "stdout:\n" ++ s
      | none => "",
      match r.bind RunnerActionResult.stderr with
      | some s => if s = "" then "" else "stderr:\n" ++ s
      | none => "" ]
  String.intercalate "\n" (parts.filter (fun p => p ≠ ""))

/-- Post-dispatch result for the i-th dispatchable action. -/
def dispatchedResult (d : DispatchOutcome) (i : Nat) (a : Action) : ExecutionResult :=
  let runner := d.actionResults.bind (fun l => l.get? i)
  let out := runnerOut runner
  ⟨a.typeName, a.sshTarget, a.commandColumn,
    if d.ok then .executed else .failed,
    if out = "" then d.output else out⟩

/-- Embedding of `executeApprovedActions`.  `enableLocal` and
`enableApproved` are the configuration flags, `webhookConfigured` stands
for a non-empty `APPROVED_ACTION_WEBHOOK_URL`, and `dispatch` stands for
the awaited `dispatchApprovedActions` call on the dispatchable list.  The
boolean of the result records whether an outbound dispatch happened. -/
def executeApprovedActions (enableLocal enableApproved webhookConfigured : Bool)
    (dispatch : List Action → DispatchOutcome) (actions : List Action) :
    List ExecutionResult × Bool :=
  if enableLocal then (actions.map localBlockedResult, false)
  else
    let (results, dispatchable) := classifyActions actions
    if !enableApproved then
      (results ++ dispatchable.map skippedDisabledResult, false)
    else if dispatchable.length = 0 then (results, false)
    else if !webhookConfigured then
      (results ++ dispatchable.map skippedNoUrlResult, false)
    else
      let d := dispatch dispatchable
      (results ++
        (dispatchable.enum.map (fun ia => dispatchedResult d ia.1 ia.2)), true)

end Core

/-! ## Statement-level definitions for the claims -/

/-- Whether the trimmed command matches some pattern of the readonly
allowlist. -/
def matchesReadonlyPattern (s : String) : Bool :=
  ALLOWED_READONLY_COMMANDS.any (fun r => r.matchList s.data)

/-- The `requiresApproval` value an input object supplies, when it supplies
one as a boolean. -/
def suppliedRequiresApproval (v : Json) : Option Bool :=
  match v.getField "requiresApproval" with
  | some (.bool b) => some b
  | _ => none

/-- Whether the input's `mode` field is given as (trimmed) `browser`. -/
def modeGivenAsBrowser (v : Json) : Bool :=
  strFieldTrimmed v "mode" == "browser"

/-- `requiresApproval` of a validated action. -/
def Action.getRequiresApproval : Action → Option Bool
  | .reply => none
  | .question _ => none
  | .ssh _ _ ra _ _ => some ra
  | .obsidianWrite _ _ ra _ _ => some ra
  | .webFetch _ _ ra _ _ _ => some ra
  | .imageToText _ ra _ _ _ => some ra
  | .voiceToText _ ra _ _ _ => some ra
  | .opencodeServe _ ra _ _ _ _ => some ra
  | .addonInstall _ ra _ _ => some ra
  | .addonCreate _ _ ra _ _ => some ra
  | .addonRun _ _ ra _ _ => some ra

/-- `mode` of a validated web fetch action. -/
def Action.getWebFetchMode : Action → Option WebFetchMode
  | .webFetch _ m _ _ _ _ => some m
  | _ => none

/-- `url` of a validated web fetch action. -/
def Action.getWebFetchUrl : Action → Option String
  | .webFetch u _ _ _ _ _ => some u
  | _ => none

/-- A string is in canonical (validated) form: trimmed and non-empty. -/
def canonStr (s : String) : Bool := jsTrim s == s && s ≠ ""

/-- An optional string is canonical: absent, or trimmed and non-empty. -/
def canonOptStr : Option String → Bool
  | none => true
  | some s => canonStr s

/-- Hints are canonical exactly when the validators can produce them:
`executionMode` is `background` or absent, `parallelGroup` trimmed
non-empty or absent. -/
def Hints.canonical (h : Hints) : Bool :=
  (match h.executionMode with
   | some .foreground => false
   | _ => true) && canonOptStr h.parallelGroup

/-- An action is canonical exactly when it lies in the image of
`validateAction`: every trimmed-string field is trimmed and non-empty,
optional string fields are absent or trimmed non-empty, urls parse with an
http or https protocol, addon names match the addon pattern, opencode
timeouts lie in `[1, 600]`, and hints are canonical. -/
def Action.canonical : Action → Bool
  | .reply => true
  | .question q => canonStr q
  | .ssh _ c _ r h => canonStr c && canonStr r && h.canonical
  | .obsidianWrite p pa _ r h =>
    canonStr p && canonStr pa && canonStr r && h.canonical
  | .webFetch u _ _ r ex h =>
    canonStr u && urlProtocolOk u && canonStr r && canonOptStr ex && h.canonical
  | .imageToText u _ r pr h =>
    canonStr u && urlProtocolOk u && canonStr r && canonOptStr pr && h.canonical
  | .voiceToText u _ r lg h =>
    canonStr u && urlProtocolOk u && canonStr r && canonOptStr lg && h.canonical
  | .opencodeServe t _ r cwd timeout h =>
    canonStr t && canonStr r && canonOptStr cwd &&
    (match timeout with
     | none => true
     | some n => 1 ≤ n && n ≤ 600) && h.canonical
  | .addonInstall a _ r h => canonStr a && addonNameOk a && canonStr r && h.canonical
  | .addonCreate a p _ r h =>
    canonStr a && addonNameOk a && canonStr p && canonStr r && h.canonical
  | .addonRun a i _ r h =>
    canonStr a && addonNameOk a && canonOptStr i && canonStr r && h.canonical

/-- A plan is canonical when all its actions are. -/
def Plan.canonical (p : Plan) : Bool := p.actions.all Action.canonical

/-- The top-level value has no `actions` field holding an array. -/
def lacksActionsArray (v : Json) : Bool :=
  match v.getField "actions" with
  | some (.arr _) => false
  | _ => true

/-- Index trace of the writes `executeDispatchActions` performs into its
result array. -/
def Runner.dispatchWriteIndices (maxParallel : Nat) (actions : List Json) : List Nat :=
  ((Runner.dispatchWrites maxParallel (fun _ => Unit.unit) actions).flatten).map Prod.fst

/-- A tail is safe to follow an emitted number: it does not begin with a
digit, a decimal point or an exponent marker (statement helper for the
serializer round trip). -/
def numSafe : List Char → Bool
  | [] => true
  | c :: _ => !(c.isDigit || c == '.' || c == 'e' || c == 'E')

/-- The optional timeout member of a serialized opencode action (statement
helper naming the inline match of the serializer). -/
def timeoutMember : Option Int → List (String × Json)
  | some t => [("timeout", Json.num t)]
  | none => []

/-! # Theorems -/

/-! ## Support lemmas: trimming and metacharacters -/

theorem mem_dropWhile_of_mem {p : Char → Bool} {l : List Char} {c : Char}
    (hm : c ∈ l) (hp : p c = false) : c ∈ l.dropWhile p := by
  induction l with
  | nil => cases hm
  | cons a t ih =>
    by_cases ha : p a = true
    · rw [List.dropWhile_cons_of_pos ha]
      rcases List.mem_cons.mp hm with h | h
      · subst h; rw [ha] at hp; cases hp
      · exact ih h
    · rw [List.dropWhile_cons_of_neg ha]
      exact hm

theorem mem_jsTrimList_of_mem {l : List Char} {c : Char}
    (hm : c ∈ l) (hp : jsWhitespace c = false) : c ∈ jsTrimList l := by
  unfold jsTrimList
  rw [List.mem_reverse]
  apply mem_dropWhile_of_mem _ hp
  rw [List.mem_reverse]
  exact mem_dropWhile_of_mem hm hp

theorem blocked_not_whitespace {c : Char} (h : isBlockedMetaChar c = true) :
    jsWhitespace c = false := by
  simp only [isBlockedMetaChar, Bool.or_eq_true, beq_iff_eq] at h
  simp only [jsWhitespace, Bool.or_eq_false_iff, beq_eq_false_iff_ne, ne_eq,
    Bool.and_eq_false_iff, decide_eq_false_iff_not, not_le]
  omega

theorem hasBlockedMetaChar_of_trim {s : String}
    (h : hasBlockedMetaChar (jsTrim s) = false) : hasBlockedMetaChar s = false := by
  rw [Bool.eq_false_iff]
  intro habs
  rw [Bool.eq_false_iff] at h
  apply h
  simp only [hasBlockedMetaChar, List.any_eq_true] at habs ⊢
  obtain ⟨c, hc, hbc⟩ := habs
  exact ⟨c, mem_jsTrimList_of_mem hc (blocked_not_whitespace hbc), hbc⟩

/-! ## Claim C4 -/

/-- C4: the claim states that every command accepted by
`isAllowedReadonlyCommand` itself matches one of the fourteen anchored
read-only patterns.  That is false: the function matches the patterns
against the *trimmed* command, so `"  uptime"` is accepted although, as a
string, it matches none of the anchored patterns (each starts with a
non-space literal).  This counterexample evaluates both facts. -/
theorem c4_counterexample_untrimmed_command_accepted :
    isAllowedReadonlyCommand "  uptime" = true ∧
    matchesReadonlyPattern "  uptime" = false := by
  constructor
  · rfl
  · rfl

/-- C4 (amended): for every command accepted by `isAllowedReadonlyCommand`,
the *trimmed* command matches at least one of the closed set of read-only
command patterns, and the command contains no character from the blocked
metacharacter set (semicolon, ampersand, vertical bar, backquote, dollar,
angle brackets, braces, backslash). -/
theorem c4_readonly_allowlist_characterization (cmd : String)
    (h : isAllowedReadonlyCommand cmd = true) :
    matchesReadonlyPattern (jsTrim cmd) = true ∧
    hasBlockedMetaChar cmd = false := by
  unfold isAllowedReadonlyCommand at h
  simp only [] at h
  by_cases h1 : jsTrim cmd = ""
  · rw [if_pos h1] at h; cases h
  · rw [if_neg h1] at h
    by_cases h2 : hasBlockedMetaChar (jsTrim cmd) = true
    · rw [if_pos h2] at h; cases h
    · rw [if_neg h2] at h
      refine ⟨h, hasBlockedMetaChar_of_trim ?_⟩
      exact Bool.eq_false_iff.mpr h2

/-- C4 witness: the amended characterization at the concrete command
`uptime`. -/
theorem c4_readonly_allowlist_characterization_witness :
    matchesReadonlyPattern (jsTrim "uptime") = true ∧
    hasBlockedMetaChar "uptime" = false :=
  c4_readonly_allowlist_characterization "uptime" (by rfl)

/-! ## Claim C1 -/

/-- C1: the spec requires every url accepted by the web-fetch allowlist to
have a hostname outside the private IPv6 ranges, loopback included.  The
code is wrong on bracketed IPv6 literals: the platform URL parser reports
the hostname of `http://[::1]/` as `[::1]` *with brackets*, so the
`isPrivateIpv6` comparisons (`'::1'`, `fc`/`fd`/`fe80:` prefixes) never
fire, and both the core dispatcher's and the runner's `isAllowedWebUrl`
accept the IPv6 loopback url.  This theorem evaluates both embedded
functions at the failing input and records the parsed hostname. -/
theorem c1_webfetch_allowlist_bracketed_ipv6_bypass :
    Core.isAllowedWebUrl "http://[::1]/" = true ∧
    Runner.isAllowedWebUrl [] "http://[::1]/" = true ∧
    (urlParse "http://[::1]/").map URLParts.hostname = some "[::1]" ∧
    Core.isPrivateIpv6 "::1" = true := by
  refine ⟨by decide, by decide, by decide, by decide⟩

/-! ## Claim C10 -/

/-- C10: `parsePlanJson` accepts every JSON input whose top-level value is
an object or array lacking an `actions` array field as the empty plan
(arrays pass the `isObject` guard because `typeof [] === 'object'`), and
within that scope rejects exactly the inputs that fail to parse as JSON or
whose top-level value is not object-like. -/
theorem c10_parse_plan_json_non_actions_tolerance :
    parsePlanJson "\x7b\"foo\": 1\x7d" = some EMPTY_PLAN ∧
    parsePlanJson "[1, 2, 3]" = some EMPTY_PLAN ∧
    (∀ s v, jsonParse s = some v → isObjectLike v = true →
      lacksActionsArray v = true → parsePlanJson s = some EMPTY_PLAN) ∧
    (∀ s v, jsonParse s = some v → isObjectLike v = false →
      parsePlanJson s = none) ∧
    (∀ s, jsonParse s = none → parsePlanJson s = none) := by
  refine ⟨rfl, rfl, ?_, ?_, ?_⟩
  · intro s v hparse hobj hlack
    unfold lacksActionsArray at hlack
    simp only [parsePlanJson, hparse, hobj, Bool.not_true, Bool.false_eq_true,
      if_false]
    rcases hget : v.getField "actions" with _ | w
    · rfl
    · rw [hget] at hlack
      cases w <;> first
        | rfl
        | (exact absurd hlack (by simp))
  · intro s v hparse hobj
    simp only [parsePlanJson, hparse, hobj, Bool.not_false, if_true]
  · intro s hparse
    simp only [parsePlanJson, hparse]

/-- C10 witness: the universal conjunct applied at the concrete array input
`[1, 2, 3]`. -/
theorem c10_parse_plan_json_non_actions_tolerance_witness :
    parsePlanJson "[1, 2, 3]" = some EMPTY_PLAN :=
  c10_parse_plan_json_non_actions_tolerance.2.2.1 "[1, 2, 3]"
    (Json.arr [Json.num 1, Json.num 2, Json.num 3]) (by rfl) (by rfl) (by rfl)

/-! ## Claim C2 -/

theorem boolFieldOr_of_supplied_none {v : Json} {k : String} {d : Bool}
    (h : (match v.getField k with
          | some (.bool b) => some b
          | _ => none) = (none : Option Bool)) :
    boolFieldOr v k d = d := by
  unfold boolFieldOr
  rcases hg : v.getField k with _ | w
  · rfl
  · rw [hg] at h
    cases w <;> simp_all

theorem boolFieldOr_of_supplied_some {v : Json} {k : String} {d b : Bool}
    (h : (match v.getField k with
          | some (.bool b) => some b
          | _ => none) = some b) :
    boolFieldOr v k d = b := by
  unfold boolFieldOr
  rcases hg : v.getField k with _ | w
  · rw [hg] at h; cases h
  · rw [hg] at h
    cases w <;> simp_all

/-- C2: the claim states that when `requiresApproval` is not supplied, the
validated web fetch action defaults it to `true` for both modes.  The code
defaults it to `mode === 'browser'`, which is `false` for http mode: this
input supplies url and reason only, is accepted, and comes back with
`requiresApproval = false`. -/
theorem c2_counterexample_http_default_requires_approval_false :
    (validateWebFetchAction (Json.obj [("type", Json.str "web_fetch"),
        ("url", Json.str "http://example.com/"),
        ("reason", Json.str "check")])).bind Action.getRequiresApproval =
      some false ∧
    suppliedRequiresApproval (Json.obj [("type", Json.str "web_fetch"),
        ("url", Json.str "http://example.com/"),
        ("reason", Json.str "check")]) = none := by
  exact ⟨by decide, by decide⟩

/-- C2 (amended): for every web fetch action object accepted by the plan
validator, the trimmed url parses with protocol http or https; the mode
defaults to `http` when the trimmed `mode` field is not `browser` and is
`browser` when it is; when the input does not supply `requiresApproval` as
a boolean, the validated `requiresApproval` equals `mode = browser` (so
`true` for browser mode and `false` for http mode); a supplied boolean is
kept as given. -/
theorem c2_webfetch_validation (v : Json) (a : Action)
    (h : validateWebFetchAction v = some a) :
    (∃ u, a.getWebFetchUrl = some u ∧ urlProtocolOk u = true) ∧
    (modeGivenAsBrowser v = true → a.getWebFetchMode = some WebFetchMode.browser) ∧
    (modeGivenAsBrowser v = false → a.getWebFetchMode = some WebFetchMode.http) ∧
    (suppliedRequiresApproval v = none →
      a.getRequiresApproval = some (a.getWebFetchMode == some WebFetchMode.browser)) ∧
    (∀ b, suppliedRequiresApproval v = some b → a.getRequiresApproval = some b) := by
  unfold validateWebFetchAction at h
  simp only [] at h
  by_cases h1 : strFieldTrimmed v "url" = ""
  · rw [if_pos (by simp [h1])] at h; cases h
  by_cases h2 : strFieldTrimmed v "reason" = ""
  · rw [if_pos (by simp [h2])] at h; cases h
  rw [if_neg (by simp [h1, h2])] at h
  by_cases h3 : urlProtocolOk (strFieldTrimmed v "url") = true
  case neg =>
    rw [if_pos (by simp [Bool.eq_false_iff.mpr h3])] at h; cases h
  rw [if_neg (by simp [h3])] at h
  injection h with h
  subst h
  refine ⟨⟨strFieldTrimmed v "url", rfl, h3⟩, ?_, ?_, ?_, ?_⟩
  · intro hm
    unfold modeGivenAsBrowser at hm
    simp [Action.getWebFetchMode, hm]
  · intro hm
    unfold modeGivenAsBrowser at hm
    simp [Action.getWebFetchMode, hm]
  · intro hra
    unfold suppliedRequiresApproval at hra
    rw [boolFieldOr_of_supplied_none hra]
    by_cases hm : strFieldTrimmed v "mode" == "browser"
    · simp [Action.getRequiresApproval, Action.getWebFetchMode, hm]
    · simp [Action.getRequiresApproval, Action.getWebFetchMode,
        Bool.eq_false_iff.mpr hm]
  · intro b hra
    unfold suppliedRequiresApproval at hra
    rw [boolFieldOr_of_supplied_some hra]
    simp [Action.getRequiresApproval]

/-- C2 witness: the amended statement at a concrete browser-mode input that
does not supply `requiresApproval`. -/
theorem c2_webfetch_validation_witness :
    (∃ u, (Action.webFetch "https://news.site/" WebFetchMode.browser true "r"
        none ⟨none, none⟩).getWebFetchUrl = some u ∧ urlProtocolOk u = true) ∧
    (modeGivenAsBrowser (Json.obj [("type", Json.str "web_fetch"),
        ("url", Json.str "https://news.site/"), ("reason", Json.str "r"),
        ("mode", Json.str "browser")]) = true →
      (Action.webFetch "https://news.site/" WebFetchMode.browser true "r"
        none ⟨none, none⟩).getWebFetchMode = some WebFetchMode.browser) ∧
    (modeGivenAsBrowser (Json.obj [("type", Json.str "web_fetch"),
        ("url", Json.str "https://news.site/"), ("reason", Json.str "r"),
        ("mode", Json.str "browser")]) = false →
      (Action.webFetch "https://news.site/" WebFetchMode.browser true "r"
        none ⟨none, none⟩).getWebFetchMode = some WebFetchMode.http) ∧
    (suppliedRequiresApproval (Json.obj [("type", Json.str "web_fetch"),
        ("url", Json.str "https://news.site/"), ("reason", Json.str "r"),
        ("mode", Json.str "browser")]) = none →
      (Action.webFetch "https://news.site/" WebFetchMode.browser true "r"
        none ⟨none, none⟩).getRequiresApproval =
        some ((Action.webFetch "https://news.site/" WebFetchMode.browser true "r"
          none ⟨none, none⟩).getWebFetchMode == some WebFetchMode.browser)) ∧
    (∀ b, suppliedRequiresApproval (Json.obj [("type", Json.str "web_fetch"),
        ("url", Json.str "https://news.site/"), ("reason", Json.str "r"),
        ("mode", Json.str "browser")]) = some b →
      (Action.webFetch "https://news.site/" WebFetchMode.browser true "r"
        none ⟨none, none⟩).getRequiresApproval = some b) :=
  c2_webfetch_validation
    (Json.obj [("type", Json.str "web_fetch"),
      ("url", Json.str "https://news.site/"), ("reason", Json.str "r"),
      ("mode", Json.str "browser")])
    (Action.webFetch "https://news.site/" WebFetchMode.browser true "r"
      none ⟨none, none⟩)
    (by decide)

/-! ## Claim C9 -/

theorem classifyAction_inr_of_passes {a : Action}
    (hx : a.isExecutable = true) (hp : Core.passesFilters a = true) :
    Core.classifyAction a = Sum.inr a := by
  cases a
  case ssh t c ra reason hints =>
    simp only [Core.passesFilters] at hp
    simp [Core.classifyAction, Action.isExecutable, hp]
  case webFetch u mode ra reason ex hints =>
    simp only [Core.passesFilters, Bool.and_eq_true] at hp
    have h2 : (mode == WebFetchMode.browser && !ra) = false := by
      have := hp.2
      simp only [Bool.not_eq_true'] at this
      exact this
    simp [Core.classifyAction, Action.isExecutable, hp.1, h2]
  all_goals exact absurd hx (by simp [Action.isExecutable])

theorem classifyAction_inl_blocked_of_fails {a : Action}
    (hx : a.isExecutable = true) (hp : Core.passesFilters a = false) :
    ∃ r, Core.classifyAction a = Sum.inl r ∧
      r.status = Core.ExecStatus.blocked := by
  cases a
  case ssh t c ra reason hints =>
    simp only [Core.passesFilters] at hp
    refine ⟨⟨"ssh", some t.name, some c, Core.ExecStatus.blocked,
      "Command blocked by readonly allowlist policy."⟩, ?_, rfl⟩
    simp [Core.classifyAction, Action.isExecutable, hp]
  case webFetch u mode ra reason ex hints =>
    simp only [Core.passesFilters, Bool.and_eq_false_iff] at hp
    by_cases hu : Core.isAllowedWebUrl u = true
    · have hbm : (mode == WebFetchMode.browser && !ra) = true := by
        rcases hp with hp | hp
        · rw [hu] at hp; cases hp
        · simpa using hp
      refine ⟨⟨"web_fetch", none, none, Core.ExecStatus.blocked,
        "Browser mode requires approval. Set requiresApproval=true."⟩, ?_, rfl⟩
      simp [Core.classifyAction, Action.isExecutable, hu, hbm]
    · refine ⟨⟨"web_fetch", none, none, Core.ExecStatus.blocked,
        "URL blocked by web-fetch safety policy."⟩, ?_, rfl⟩
      simp [Core.classifyAction, Action.isExecutable,
        Bool.eq_false_iff.mpr hu]
  all_goals exact absurd hx (by simp [Action.isExecutable])

theorem classifyAction_inl_status {a : Action} {r : Core.ExecutionResult}
    (h : Core.classifyAction a = Sum.inl r) :
    r.status = Core.ExecStatus.skipped ∨ r.status = Core.ExecStatus.blocked := by
  unfold Core.classifyAction at h
  split at h
  · injection h with h
    exact Or.inl (by rw [← h])
  · split at h
    · split at h
      · injection h with h
        exact Or.inr (by rw [← h])
      · cases h
    · split at h
      · injection h with h
        exact Or.inr (by rw [← h])
      · split at h
        · injection h with h
          exact Or.inr (by rw [← h])
        · cases h
    · cases h

theorem classifyActions_mem_inr {actions : List Action} {a : Action}
    (hm : a ∈ actions) (hc : Core.classifyAction a = Sum.inr a) :
    a ∈ (Core.classifyActions actions).2 := by
  induction actions with
  | nil => cases hm
  | cons b rest ih =>
    rcases List.mem_cons.mp hm with h | h
    · subst h
      simp only [Core.classifyActions, hc]
      exact List.mem_cons_self _ _
    · rcases hcb : Core.classifyAction b with r | d <;>
        simp only [Core.classifyActions, hcb]
      · exact ih h
      · exact List.mem_cons_of_mem _ (ih h)

theorem classifyActions_mem_inl {actions : List Action} {a : Action}
    {r : Core.ExecutionResult}
    (hm : a ∈ actions) (hc : Core.classifyAction a = Sum.inl r) :
    r ∈ (Core.classifyActions actions).1 := by
  induction actions with
  | nil => cases hm
  | cons b rest ih =>
    rcases List.mem_cons.mp hm with h | h
    · subst h
      simp only [Core.classifyActions, hc]
      exact List.mem_cons_self _ _
    · rcases hcb : Core.classifyAction b with r' | d <;>
        simp only [Core.classifyActions, hcb]
      · exact List.mem_cons_of_mem _ (ih h)
      · exact ih h

theorem classifyActions_fst_status {actions : List Action}
    {r : Core.ExecutionResult} (hm : r ∈ (Core.classifyActions actions).1) :
    r.status = Core.ExecStatus.skipped ∨ r.status = Core.ExecStatus.blocked := by
  induction actions with
  | nil => cases hm
  | cons b rest ih =>
    rcases hcb : Core.classifyAction b with r' | d <;>
      rw [Core.classifyActions, hcb] at hm
    · rcases List.mem_cons.mp hm with h | h
      · subst h; exact classifyAction_inl_status hcb
      · exact ih h
    · exact ih hm

/-- C9: the claim states that with `ENABLE_APPROVED_EXECUTION = false`
every executable action comes back `skipped`, including ssh actions whose
command fails the read-only allowlist.  The code blocks such actions in
the classification loop *before* the flag is consulted: this evaluation
shows a non-allowlisted ssh command coming back `blocked`, not
`skipped`. -/
theorem c9_counterexample_blocked_not_skipped :
    Core.executeApprovedActions false false false (fun _ => ⟨true, "", none⟩)
      [Action.ssh Target.william "rm -rf /" true "r" ⟨none, none⟩] =
      ([⟨"ssh", some "william", some "rm -rf /", Core.ExecStatus.blocked,
        "Command blocked by readonly allowlist policy."⟩], false) ∧
    Core.ExecStatus.blocked ≠ Core.ExecStatus.skipped :=
  ⟨by decide, by decide⟩

/-- C9 (amended): with local execution disabled and
`ENABLE_APPROVED_EXECUTION = false`, `executeApprovedActions` performs no
outbound dispatch; every executable action that passes the safety filters
receives the disabled-execution `skipped` result; every executable action
that fails the safety filters receives its `blocked` classification
result; and every returned result is `skipped` or `blocked`. -/
theorem c9_disabled_execution_gate (webhookConfigured : Bool)
    (dispatch : List Action → Core.DispatchOutcome) (actions : List Action) :
    (Core.executeApprovedActions false false webhookConfigured dispatch actions).2
        = false ∧
    (∀ a ∈ actions, a.isExecutable = true → Core.passesFilters a = true →
      Core.skippedDisabledResult a ∈
        (Core.executeApprovedActions false false webhookConfigured dispatch actions).1) ∧
    (∀ a ∈ actions, a.isExecutable = true → Core.passesFilters a = false →
      ∃ r, Core.classifyAction a = Sum.inl r ∧
        r.status = Core.ExecStatus.blocked ∧
        r ∈ (Core.executeApprovedActions false false webhookConfigured dispatch actions).1) ∧
    (∀ r ∈ (Core.executeApprovedActions false false webhookConfigured dispatch actions).1,
      r.status = Core.ExecStatus.skipped ∨ r.status = Core.ExecStatus.blocked) := by
  have hout : Core.executeApprovedActions false false webhookConfigured dispatch actions =
      ((Core.classifyActions actions).1 ++
        (Core.classifyActions actions).2.map Core.skippedDisabledResult, false) := by
    simp [Core.executeApprovedActions]
  refine ⟨by rw [hout], ?_, ?_, ?_⟩
  · intro a hm hx hp
    rw [hout]
    exact List.mem_append_right _
      (List.mem_map_of_mem _
        (classifyActions_mem_inr hm (classifyAction_inr_of_passes hx hp)))
  · intro a hm hx hp
    obtain ⟨r, hc, hst⟩ := classifyAction_inl_blocked_of_fails hx hp
    refine ⟨r, hc, hst, ?_⟩
    rw [hout]
    exact List.mem_append_left _ (classifyActions_mem_inl hm hc)
  · intro r hm
    rw [hout] at hm
    rcases List.mem_append.mp hm with h | h
    · exact classifyActions_fst_status h
    · obtain ⟨a, _, hr⟩ := List.mem_map.mp h
      left
      rw [← hr]
      rfl

/-- C9 witness: the amended statement at a one-action list whose ssh
command passes the allowlist; the disabled-execution skipped result is in
the output. -/
theorem c9_disabled_execution_gate_witness :
    Core.skippedDisabledResult
        (Action.ssh Target.william "uptime" true "r" ⟨none, none⟩) ∈
      (Core.executeApprovedActions false false true (fun _ => ⟨true, "", none⟩)
        [Action.ssh Target.william "uptime" true "r" ⟨none, none⟩]).1 :=
  (c9_disabled_execution_gate true (fun _ => ⟨true, "", none⟩)
    [Action.ssh Target.william "uptime" true "r" ⟨none, none⟩]).2.1
    _ (List.mem_singleton.mpr rfl) (by decide) (by decide)

/-! ## Claim C7 -/

theorem string_eq_of_data_eq {s t : String} (h : s.data = t.data) : s = t :=
  congrArg String.mk h

theorem strStartsWith_decompose {s p : String}
    (h : strStartsWith s p = true) : s = p ++ strDrop s p.length := by
  unfold strStartsWith at h
  have hp : p.data <+: s.data := List.isPrefixOf_iff_prefix.mp h
  have h2 := List.prefix_iff_eq_append.mp hp
  apply string_eq_of_data_eq
  rw [String.data_append]
  have hd : (strDrop s p.length).data = s.data.drop p.data.length := rfl
  rw [hd]
  exact h2.symm

/-- C7: with a webhook secret configured, a dispatch request whose
timestamp header is absent, whose signature header is absent, or whose
signature differs from `sha256=` followed by the HMAC of `ts + "." + body`
is answered with status 401, with no action executed and the run store
unchanged. -/
theorem c7_dispatch_signature_gate {St R : Type}
    (hmac : String → String → String) (secret : String) (hsec : secret ≠ "")
    (h : Runner.DispatchHeaders) (rawBody : String)
    (execBatch : List Json → St → List R × St) (st : St)
    (hbad : h.signatureTs = none ∨ h.signature = none ∨
      (∀ sig, h.signature = some sig →
        sig ≠ "sha256=" ++
          Runner.buildSignature hmac (h.signatureTs.getD "") rawBody secret)) :
    Runner.handleDispatch hmac secret h rawBody execBatch st = ⟨401, [], st⟩ := by
  have hv : Runner.verifyDispatchSignature hmac secret h rawBody = false := by
    unfold Runner.verifyDispatchSignature
    rw [if_neg hsec]
    split
    · rfl
    case isFalse hcond =>
      rw [Bool.or_eq_true, not_or] at hcond
      obtain ⟨hts0, hpre0⟩ := hcond
      have hpre : strStartsWith (h.signature.getD "") "sha256=" = true := by
        rcases hb : strStartsWith (h.signature.getD "") "sha256=" with _ | _
        · exact absurd (by rw [hb]; rfl) hpre0
        · rfl
      rcases hsig : h.signature with _ | sig
      · rw [hsig] at hpre
        exact absurd hpre (by decide)
      · rcases hts : h.signatureTs with _ | ts
        · rw [hts] at hts0
          exact absurd (by decide) hts0
        · simp only [Option.getD_some]
          have hne : sig ≠ "sha256=" ++
              Runner.buildSignature hmac ts rawBody secret := by
            rcases hbad with hb | hb | hb
            · rw [hts] at hb; cases hb
            · rw [hsig] at hb; cases hb
            · have h3 := hb sig hsig
              rw [hts, Option.getD_some] at h3
              exact h3
          rw [beq_eq_false_iff_ne]
          intro heq
          apply hne
          have hdec := strStartsWith_decompose (by rw [hsig, Option.getD_some] at hpre; exact hpre)
          rw [show String.length "sha256=" = 7 from rfl] at hdec
          rw [hdec, heq]
  unfold Runner.handleDispatch
  rw [hv]
  rfl

/-- C7 witness: a rejected dispatch at concrete inputs (wrong signature
with a configured secret). -/
theorem c7_dispatch_signature_gate_witness :
    Runner.handleDispatch (fun _ _ => "deadbeef") "topsecret"
        ⟨some "1700", some "sha256=wrong"⟩ "body"
        (fun (_ : List Json) (st : Nat) => (([] : List Nat), st)) 0 =
      ⟨401, [], 0⟩ :=
  c7_dispatch_signature_gate (fun _ _ => "deadbeef") "topsecret"
    (by decide) ⟨some "1700", some "sha256=wrong"⟩ "body"
    (fun _ st => ([], st)) 0
    (Or.inr (Or.inr (by intro sig hs; injection hs with hs; rw [← hs]; decide)))

/-! ## Claim C8 -/

theorem runInv_init : RunLifecycle.runInv RunLifecycle.initRunState = true := by
  decide

theorem runInv_step : ∀ s e, RunLifecycle.runInv s = true →
    RunLifecycle.runInv (RunLifecycle.stepRun s e) = true := by
  decide

theorem runInv_foldl : ∀ (es : List RunLifecycle.RunEvent)
    (s : RunLifecycle.RunState), RunLifecycle.runInv s = true →
    RunLifecycle.runInv (es.foldl RunLifecycle.stepRun s) = true := by
  intro es
  induction es with
  | nil => intro s hs; exact hs
  | cons e rest ih =>
    intro s hs
    exact ih _ (runInv_step s e hs)

theorem runInv_reachable (es : List RunLifecycle.RunEvent) :
    RunLifecycle.runInv (RunLifecycle.runEvents es) = true :=
  runInv_foldl es _ runInv_init

theorem run_step_props : ∀ (s : RunLifecycle.RunState)
    (e : RunLifecycle.RunEvent), RunLifecycle.runInv s = true →
    RunLifecycle.statusStepOk s.status (RunLifecycle.stepRun s e).status = true ∧
    (s.status.isTerminal = true → (RunLifecycle.stepRun s e).status = s.status) ∧
    RunLifecycle.pathOk s.status (RunLifecycle.eventStatusWrites s e) = true ∧
    (e = RunLifecycle.RunEvent.cancel → s.created = true →
      s.status.isTerminal = false →
      (RunLifecycle.stepRun s e).status = RunLifecycle.RunStatus.cancelled ∧
      (RunLifecycle.stepRun s e).cancelRequested = true) := by
  decide

/-- C8: along every interleaving of the background worker's atomic blocks
and cancel requests, a run's status only moves forward along
`queued → running → (completed | failed | cancelled)`: every database
status write of the next event is a forward move, a terminal status never
changes, and a cancel request arriving at a created, non-terminal run sets
`cancelRequested` and moves the run to `cancelled` in the same atomic
block. -/
theorem c8_run_lifecycle_monotone (es : List RunLifecycle.RunEvent)
    (e : RunLifecycle.RunEvent) :
    RunLifecycle.statusStepOk (RunLifecycle.runEvents es).status
      (RunLifecycle.stepRun (RunLifecycle.runEvents es) e).status = true ∧
    ((RunLifecycle.runEvents es).status.isTerminal = true →
      (RunLifecycle.stepRun (RunLifecycle.runEvents es) e).status =
        (RunLifecycle.runEvents es).status) ∧
    RunLifecycle.pathOk (RunLifecycle.runEvents es).status
      (RunLifecycle.eventStatusWrites (RunLifecycle.runEvents es) e) = true ∧
    (e = RunLifecycle.RunEvent.cancel →
      (RunLifecycle.runEvents es).created = true →
      (RunLifecycle.runEvents es).status.isTerminal = false →
      (RunLifecycle.stepRun (RunLifecycle.runEvents es) e).status =
          RunLifecycle.RunStatus.cancelled ∧
      (RunLifecycle.stepRun (RunLifecycle.runEvents es) e).cancelRequested = true) :=
  run_step_props _ e (runInv_reachable es)

/-- C8 witness: a cancel arriving right after creation moves the run to
`cancelled` with `cancelRequested` set. -/
theorem c8_run_lifecycle_monotone_witness :
    (RunLifecycle.stepRun (RunLifecycle.runEvents [RunLifecycle.RunEvent.create])
        RunLifecycle.RunEvent.cancel).status = RunLifecycle.RunStatus.cancelled ∧
    (RunLifecycle.stepRun (RunLifecycle.runEvents [RunLifecycle.RunEvent.create])
        RunLifecycle.RunEvent.cancel).cancelRequested = true :=
  (c8_run_lifecycle_monotone [RunLifecycle.RunEvent.create]
    RunLifecycle.RunEvent.cancel).2.2.2 rfl (by decide) (by decide)

/-! ## Claim C3 -/

theorem decideActionProposal_cons (now id : String) (d : Journal.Decision)
    (rs : Option String) (r : Journal.ActionProposalRecord)
    (rest : List Journal.ActionProposalRecord) :
    Journal.decideActionProposal now id d rs (r :: rest) =
      if r.id = id then
        if r.status = .proposed then
          (Journal.decideRecord now d rs r :: rest,
            some (Journal.decideRecord now d rs r))
        else (r :: rest, none)
      else
        ((r :: (Journal.decideActionProposal now id d rs rest).1),
          (Journal.decideActionProposal now id d rs rest).2) := rfl

theorem decide_unchanged_of_missing {now id : String} {d : Journal.Decision}
    {rs : Option String} {q : List Journal.ActionProposalRecord}
    (h : q.find? (fun r => r.id == id) = none) :
    Journal.decideActionProposal now id d rs q = (q, none) := by
  induction q with
  | nil => rfl
  | cons r rest ih =>
    by_cases hb : (r.id == id) = true
    · rw [@List.find?_cons_of_pos _ (fun x => x.id == id) r rest hb] at h
      cases h
    · rw [@List.find?_cons_of_neg _ (fun x => x.id == id) r rest
        (by simpa using hb)] at h
      rw [decideActionProposal_cons, if_neg (by simpa using hb), ih h]

theorem decide_unchanged_of_decided {now id : String} {d : Journal.Decision}
    {rs : Option String} {q : List Journal.ActionProposalRecord}
    {r₀ : Journal.ActionProposalRecord}
    (h : q.find? (fun r => r.id == id) = some r₀)
    (hs : r₀.status ≠ .proposed) :
    Journal.decideActionProposal now id d rs q = (q, none) := by
  induction q with
  | nil => cases h
  | cons r rest ih =>
    by_cases hb : (r.id == id) = true
    · rw [@List.find?_cons_of_pos _ (fun x => x.id == id) r rest hb] at h
      injection h with h
      subst h
      rw [decideActionProposal_cons, if_pos (by simpa using hb), if_neg hs]
    · rw [@List.find?_cons_of_neg _ (fun x => x.id == id) r rest
        (by simpa using hb)] at h
      rw [decideActionProposal_cons, if_neg (by simpa using hb), ih h]

theorem decide_success {now id : String} {d : Journal.Decision}
    {rs : Option String} {q : List Journal.ActionProposalRecord}
    {r₀ : Journal.ActionProposalRecord}
    (h : q.find? (fun r => r.id == id) = some r₀)
    (hs : r₀.status = .proposed) :
    (Journal.decideActionProposal now id d rs q).2 =
      some (Journal.decideRecord now d rs r₀) := by
  induction q with
  | nil => cases h
  | cons r rest ih =>
    by_cases hb : (r.id == id) = true
    · rw [@List.find?_cons_of_pos _ (fun x => x.id == id) r rest hb] at h
      injection h with h
      subst h
      rw [decideActionProposal_cons, if_pos (by simpa using hb), if_pos hs]
    · rw [@List.find?_cons_of_neg _ (fun x => x.id == id) r rest
        (by simpa using hb)] at h
      rw [decideActionProposal_cons, if_neg (by simpa using hb)]
      exact ih h

theorem decide_evolution (now id : String) (d : Journal.Decision)
    (rs : Option String) (q : List Journal.ActionProposalRecord) :
    List.Forall₂ Journal.recEvolution q
      (Journal.decideActionProposal now id d rs q).1 := by
  induction q with
  | nil => exact List.Forall₂.nil
  | cons r rest ih =>
    rw [decideActionProposal_cons]
    by_cases h1 : r.id = id
    · by_cases h2 : r.status = Journal.ProposalStatus.proposed
      · rw [if_pos h1, if_pos h2]
        refine List.Forall₂.cons (Or.inr ?_) (List.forall₂_same.mpr ?_)
        · refine ⟨h2, ?_, rfl, rfl, rfl, rfl, rfl, rfl⟩
          cases d
          · exact Or.inl rfl
          · exact Or.inr rfl
        · intro x _
          exact Or.inl rfl
      · rw [if_pos h1, if_neg h2]
        exact List.forall₂_same.mpr (fun x _ => Or.inl rfl)
    · rw [if_neg h1]
      exact List.Forall₂.cons (Or.inl rfl) ih

theorem step_evolution (q : List Journal.ActionProposalRecord)
    (op : Journal.JournalOp) :
    List.Forall₂ Journal.recEvolution q
      ((Journal.stepJournal q op).1.take q.length) := by
  cases op with
  | enq newId createdAt input =>
    simp only [Journal.stepJournal, Journal.enqueueActionProposal]
    by_cases h : input.plan.actions.length = 0
    · rw [if_pos h]
      simp only [List.take_length]
      exact List.forall₂_same.mpr (fun x _ => Or.inl rfl)
    · rw [if_neg h]
      simp only [List.take_left]
      exact List.forall₂_same.mpr (fun x _ => Or.inl rfl)
  | dec now id d rs =>
    have hlen : (Journal.decideActionProposal now id d rs q).1.length =
        q.length := by
      induction q with
      | nil => rfl
      | cons r rest ih =>
        rw [decideActionProposal_cons]
        by_cases h1 : r.id = id
        · by_cases h2 : r.status = Journal.ProposalStatus.proposed <;>
            simp [h1, h2]
        · simp [h1, ih]
    simp only [Journal.stepJournal]
    rw [← hlen, List.take_length]
    exact decide_evolution now id d rs q

theorem step_actions_nonempty {q : List Journal.ActionProposalRecord}
    (hq : ∀ r ∈ q, r.actions ≠ []) (op : Journal.JournalOp) :
    ∀ r ∈ (Journal.stepJournal q op).1, r.actions ≠ [] := by
  cases op with
  | enq newId createdAt input =>
    simp only [Journal.stepJournal, Journal.enqueueActionProposal]
    by_cases h : input.plan.actions.length = 0
    · rw [if_pos h]; exact hq
    · rw [if_neg h]
      intro r hr
      rcases List.mem_append.mp hr with hm | hm
      · exact hq r hm
      · rcases List.mem_singleton.mp hm with rfl
        simpa [← List.length_eq_zero] using h
  | dec now id d rs =>
    simp only [Journal.stepJournal]
    induction q with
    | nil => intro r hr; cases hr
    | cons r rest ih =>
      rw [decideActionProposal_cons]
      by_cases h1 : r.id = id
      · by_cases h2 : r.status = Journal.ProposalStatus.proposed
        · rw [if_pos h1, if_pos h2]
          intro x hx
          rcases List.mem_cons.mp hx with rfl | hx
          · exact hq r (List.mem_cons_self _ _)
          · exact hq x (List.mem_cons_of_mem _ hx)
        · rw [if_pos h1, if_neg h2]
          exact hq
      · rw [if_neg h1]
        intro x hx
        rcases List.mem_cons.mp hx with rfl | hx
        · exact hq x (List.mem_cons_self _ _)
        · exact ih (fun y hy => hq y (List.mem_cons_of_mem _ hy)) x hx

theorem runJournal_actions_nonempty (ops : List Journal.JournalOp) :
    ∀ r ∈ Journal.runJournal ops, r.actions ≠ [] := by
  have key : ∀ (os : List Journal.JournalOp)
      (q : List Journal.ActionProposalRecord),
      (∀ r ∈ q, r.actions ≠ []) →
      ∀ r ∈ os.foldl (fun q op => (Journal.stepJournal q op).1) q,
        r.actions ≠ [] := by
    intro os
    induction os with
    | nil => intro q hq; exact hq
    | cons op rest ih =>
      intro q hq
      exact ih _ (step_actions_nonempty hq op)
  exact key ops [] (fun r hr => absurd hr (List.not_mem_nil r))

/-- C3: over every sequence of `enqueueActionProposal` and
`decideActionProposal` operations on the proposal journal: every stored
proposal has non-empty actions and a status in the closed set; enqueue of
a zero-action plan returns `null` and leaves the journal unchanged;
decide on a missing or already-decided proposal returns `null` and leaves
the journal unchanged; a successful decide flips the first matching
`proposed` record's status to the decision, sets `decidedAt`, and sets
`decisionReason` when a non-empty reason is supplied; and across any
single operation, a stored record is either untouched or was `proposed`
and changed only its decision fields, to `approved` or `denied`. -/
theorem c3_proposal_journal_invariants :
    (∀ ops : List Journal.JournalOp, ∀ r ∈ Journal.runJournal ops,
      r.actions ≠ [] ∧
      (r.status = Journal.ProposalStatus.proposed ∨
       r.status = Journal.ProposalStatus.approved ∨
       r.status = Journal.ProposalStatus.denied)) ∧
    (∀ (newId createdAt : String) (input : Journal.EnqueueInput)
      (q : List Journal.ActionProposalRecord),
      input.plan.actions = [] →
      Journal.enqueueActionProposal newId createdAt input q = (q, none)) ∧
    (∀ (now id : String) (d : Journal.Decision) (rs : Option String)
      (q : List Journal.ActionProposalRecord),
      q.find? (fun r => r.id == id) = none →
      Journal.decideActionProposal now id d rs q = (q, none)) ∧
    (∀ (now id : String) (d : Journal.Decision) (rs : Option String)
      (q : List Journal.ActionProposalRecord)
      (r₀ : Journal.ActionProposalRecord),
      q.find? (fun r => r.id == id) = some r₀ →
      r₀.status ≠ Journal.ProposalStatus.proposed →
      Journal.decideActionProposal now id d rs q = (q, none)) ∧
    (∀ (now id : String) (d : Journal.Decision) (rs : Option String)
      (q : List Journal.ActionProposalRecord)
      (r₀ : Journal.ActionProposalRecord),
      q.find? (fun r => r.id == id) = some r₀ →
      r₀.status = Journal.ProposalStatus.proposed →
      (Journal.decideActionProposal now id d rs q).2 =
        some (Journal.decideRecord now d rs r₀) ∧
      (Journal.decideRecord now d rs r₀).status = d.toStatus ∧
      (Journal.decideRecord now d rs r₀).decidedAt = some now ∧
      (∀ s, rs = some s → s ≠ "" →
        (Journal.decideRecord now d rs r₀).decisionReason = some s)) ∧
    (∀ (q : List Journal.ActionProposalRecord) (op : Journal.JournalOp),
      List.Forall₂ Journal.recEvolution q
        ((Journal.stepJournal q op).1.take q.length)) := by
  refine ⟨?_, ?_, ?_, ?_, ?_, step_evolution⟩
  · intro ops r hr
    refine ⟨runJournal_actions_nonempty ops r hr, ?_⟩
    cases hst : r.status
    · exact Or.inl rfl
    · exact Or.inr (Or.inl rfl)
    · exact Or.inr (Or.inr rfl)
  · intro newId createdAt input q h
    unfold Journal.enqueueActionProposal
    rw [if_pos (by rw [h]; rfl)]
  · intro now id d rs q h
    exact decide_unchanged_of_missing h
  · intro now id d rs q r₀ h hs
    exact decide_unchanged_of_decided h hs
  · intro now id d rs q r₀ h hs
    refine ⟨decide_success h hs, rfl, rfl, ?_⟩
    intro s hrs hsne
    subst hrs
    unfold Journal.decideRecord
    simp only []
    rw [if_neg hsne]

/-- C3 witness: the successful-decide conjunct at a concrete one-record
journal. -/
theorem c3_proposal_journal_invariants_witness :
    (Journal.decideActionProposal "t1" "ap-1" Journal.Decision.approved
        (some "ok")
        [⟨"ap-1", "t0", Journal.ProposalStatus.proposed, "main", "chat",
          none, [Action.reply], none, none⟩]).2 =
      some (Journal.decideRecord "t1" Journal.Decision.approved (some "ok")
        ⟨"ap-1", "t0", Journal.ProposalStatus.proposed, "main", "chat",
          none, [Action.reply], none, none⟩) ∧
    (Journal.decideRecord "t1" Journal.Decision.approved (some "ok")
        ⟨"ap-1", "t0", Journal.ProposalStatus.proposed, "main", "chat",
          none, [Action.reply], none, none⟩).status =
      Journal.Decision.approved.toStatus ∧
    (Journal.decideRecord "t1" Journal.Decision.approved (some "ok")
        ⟨"ap-1", "t0", Journal.ProposalStatus.proposed, "main", "chat",
          none, [Action.reply], none, none⟩).decidedAt = some "t1" ∧
    (∀ s, (some "ok" : Option String) = some s → s ≠ "" →
      (Journal.decideRecord "t1" Journal.Decision.approved (some "ok")
        ⟨"ap-1", "t0", Journal.ProposalStatus.proposed, "main", "chat",
          none, [Action.reply], none, none⟩).decisionReason = some s) :=
  c3_proposal_journal_invariants.2.2.2.2.1 "t1" "ap-1"
    Journal.Decision.approved (some "ok")
    [⟨"ap-1", "t0", Journal.ProposalStatus.proposed, "main", "chat",
      none, [Action.reply], none, none⟩]
    ⟨"ap-1", "t0", Journal.ProposalStatus.proposed, "main", "chat",
      none, [Action.reply], none, none⟩
    (by decide) rfl

/-! ## Claim C6 -/

theorem chunksAux_flatten {α : Type} {k : Nat} (hk : 1 ≤ k) :
    ∀ (fuel : Nat) (l : List α), l.length ≤ fuel →
      (Runner.chunksAux k fuel l).flatten = l := by
  intro fuel
  induction fuel with
  | zero =>
    intro l hl
    have hnil : l = [] := List.length_eq_zero.mp (Nat.le_zero.mp hl)
    subst hnil; rfl
  | succ fuel ih =>
    intro l hl
    cases l with
    | nil => rfl
    | cons a t =>
      show (List.take k (a :: t) :: Runner.chunksAux k fuel (List.drop k (a :: t))).flatten = a :: t
      have hdl : (List.drop k (a :: t)).length ≤ fuel := by
        rw [List.length_drop]
        simp only [List.length_cons] at hl ⊢
        omega
      rw [List.flatten_cons, ih _ hdl]
      exact List.take_append_drop k (a :: t)

theorem chunks_flatten {α : Type} {k : Nat} (hk : 1 ≤ k) (l : List α) :
    (Runner.chunks k l).flatten = l :=
  chunksAux_flatten hk l.length l (Nat.le_refl _)

theorem groupInsert_perm (m : List (String × List (Nat × Json))) (key : String)
    (it : Nat × Json) :
    (((Runner.groupInsert m key it).map Prod.snd).flatten).Perm
      ((m.map Prod.snd).flatten ++ [it]) := by
  induction m with
  | nil => simp [Runner.groupInsert]
  | cons p rest ih =>
    obtain ⟨k, l⟩ := p
    by_cases hk : k = key
    · simp only [Runner.groupInsert, if_pos hk, List.map_cons, List.flatten_cons]
      rw [List.append_assoc, List.append_assoc]
      exact (@List.perm_append_comm _ [it] _).append_left l
    · simp only [Runner.groupInsert, if_neg hk, List.map_cons, List.flatten_cons]
      rw [List.append_assoc]
      exact ih.append_left l

theorem buildGroupMap_perm_aux (items : List (Nat × Json)) :
    ∀ m : List (String × List (Nat × Json)),
      ((((items.foldl (fun m it =>
          if Runner.isGroupedAction it.2 then
            Runner.groupInsert m (Runner.groupKeyOf it.2) it
          else m) m)).map Prod.snd).flatten).Perm
        ((m.map Prod.snd).flatten ++
          items.filter (fun it => Runner.isGroupedAction it.2)) := by
  induction items with
  | nil => intro m; simp
  | cons it rest ih =>
    intro m
    rw [List.foldl_cons]
    by_cases hg : Runner.isGroupedAction it.2 = true
    · rw [if_pos hg,
        @List.filter_cons_of_pos _ (fun x => Runner.isGroupedAction x.2) it rest hg]
      refine (ih _).trans ?_
      refine ((groupInsert_perm m (Runner.groupKeyOf it.2) it).append_right _).trans ?_
      rw [List.append_assoc]
      exact List.Perm.append_left _ (by rfl)
    · rw [if_neg hg,
        @List.filter_cons_of_neg _ (fun x => Runner.isGroupedAction x.2) it rest hg]
      exact ih m

theorem dispatch_items_perm (actions : List Json) :
    ((actions.enum.filter (fun ia => !Runner.isGroupedAction ia.2)) ++
      ((Runner.buildGroupMap actions.enum).map Prod.snd).flatten).Perm
      actions.enum := by
  have h1 := buildGroupMap_perm_aux actions.enum []
  have h2 : (((Runner.buildGroupMap actions.enum).map Prod.snd).flatten).Perm
      (actions.enum.filter (fun it => Runner.isGroupedAction it.2)) := by
    simpa [Runner.buildGroupMap] using h1
  refine (h2.append_left _).trans ?_
  have h3 := List.filter_append_perm
    (fun ia => !Runner.isGroupedAction ia.2) actions.enum
  refine List.Perm.trans ?_ h3
  apply List.Perm.append_left
  apply List.Perm.of_eq
  apply List.filter_congr
  intro x _
  simp

theorem applyWrites_cons {R : Type} (w : Nat × R) (ws : List (Nat × R))
    (res : List (Option R)) :
    Runner.applyWrites (w :: ws) res =
      Runner.applyWrites ws (res.set w.1 (some w.2)) := rfl

theorem applyWrites_append {R : Type} (a b : List (Nat × R))
    (res : List (Option R)) :
    Runner.applyWrites (a ++ b) res =
      Runner.applyWrites b (Runner.applyWrites a res) :=
  List.foldl_append _ _ a b

theorem applyWrites_length {R : Type} (ws : List (Nat × R)) :
    ∀ res : List (Option R), (Runner.applyWrites ws res).length = res.length := by
  induction ws with
  | nil => intro res; rfl
  | cons w rest ih =>
    intro res
    rw [applyWrites_cons, ih, List.length_set]

theorem applyWrites_getElem?_not_mem {R : Type} {ws : List (Nat × R)} {i : Nat}
    (h : i ∉ ws.map Prod.fst) :
    ∀ res : List (Option R), (Runner.applyWrites ws res)[i]? = res[i]? := by
  induction ws with
  | nil => intro res; rfl
  | cons w rest ih =>
    intro res
    rw [List.map_cons, List.mem_cons, not_or] at h
    rw [applyWrites_cons, ih h.2, List.getElem?_set_ne (Ne.symm h.1)]

theorem applyWrites_getElem?_of_mem {R : Type} {ws : List (Nat × R)} {i : Nat}
    {v : R} (hnd : (ws.map Prod.fst).Nodup) (hm : (i, v) ∈ ws) :
    ∀ res : List (Option R), i < res.length →
      (Runner.applyWrites ws res)[i]? = some (some v) := by
  induction ws with
  | nil => cases hm
  | cons w rest ih =>
    intro res hi
    rw [List.map_cons, List.nodup_cons] at hnd
    rcases List.mem_cons.mp hm with heq | hmem
    · have hw1 : w.1 = i := by rw [← heq]
      have hw2 : w.2 = v := by rw [← heq]
      rw [applyWrites_cons, hw1, hw2]
      rw [applyWrites_getElem?_not_mem (by rw [hw1] at hnd; exact hnd.1)]
      exact List.getElem?_set_self hi
    · have : i ∈ rest.map Prod.fst :=
        List.mem_map.mpr ⟨(i, v), hmem, rfl⟩
      rw [applyWrites_cons]
      exact ih hnd.2 hmem _ (by rw [List.length_set]; exact hi)

theorem foldl_applyWrites_flatten {R : Type} (wss : List (List (Nat × R))) :
    ∀ res : List (Option R),
      wss.foldl (fun r ws => Runner.applyWrites ws r) res =
        Runner.applyWrites wss.flatten res := by
  induction wss with
  | nil => intro res; rfl
  | cons ws rest ih =>
    intro res
    rw [List.foldl_cons, List.flatten_cons, applyWrites_append, ih]

theorem dispatchWrites_flatten {R : Type} (mp : Nat) (exec : Json → R)
    (actions : List Json) :
    (Runner.dispatchWrites mp exec actions).flatten =
      ((actions.enum.filter (fun ia => !Runner.isGroupedAction ia.2)) ++
        ((Runner.buildGroupMap actions.enum).map Prod.snd).flatten).map
        (fun ia => (ia.1, exec ia.2)) := by
  unfold Runner.dispatchWrites
  simp only [List.singleton_append, List.flatten_cons]
  rw [List.map_append]
  congr 1
  rw [← List.map_flatten]
  rw [chunks_flatten (Nat.le_max_left 1 mp)]

theorem executeDispatchActions_eq {R : Type} (mp : Nat) (exec : Json → R)
    (actions : List Json) :
    Runner.executeDispatchActions mp exec actions =
      Runner.applyWrites
        (((actions.enum.filter (fun ia => !Runner.isGroupedAction ia.2)) ++
          ((Runner.buildGroupMap actions.enum).map Prod.snd).flatten).map
          (fun ia => (ia.1, exec ia.2)))
        (List.replicate actions.length none) := by
  unfold Runner.executeDispatchActions
  rw [foldl_applyWrites_flatten, dispatchWrites_flatten]

theorem dispatch_write_indices_perm {R : Type} (exec : Json → R)
    (actions : List Json) :
    ((((actions.enum.filter (fun ia => !Runner.isGroupedAction ia.2)) ++
        ((Runner.buildGroupMap actions.enum).map Prod.snd).flatten).map
        (fun ia => (ia.1, exec ia.2))).map Prod.fst).Perm
      (List.range actions.length) := by
  rw [List.map_map]
  have hfst : (Prod.fst ∘ fun ia : Nat × Json => (ia.1, exec ia.2)) =
      Prod.fst := by
    funext ia; rfl
  rw [hfst]
  have := (dispatch_items_perm actions).map Prod.fst
  rw [List.enum_map_fst] at this
  exact this

/-- C6: for every dispatch batch — any mix of grouped and ungrouped
actions, any `max_parallel ≥ 1` — the result array of
`executeDispatchActions` has exactly the length of the input, each index
is written exactly once (the write-index trace covers every position once),
and the result at index `i` is the execution result of the i-th input
action. -/
theorem c6_dispatch_results_positional {R : Type} (maxParallel : Nat)
    (exec : Json → R) (actions : List Json) (hmp : 1 ≤ maxParallel) :
    (Runner.executeDispatchActions maxParallel exec actions).length =
        actions.length ∧
    (∀ i, i < actions.length →
      (Runner.executeDispatchActions maxParallel exec actions)[i]? =
        some (some (exec (actions.getD i Json.null)))) ∧
    (∀ i, (Runner.dispatchWriteIndices maxParallel actions).count i =
      if i < actions.length then 1 else 0) := by
  refine ⟨?_, ?_, ?_⟩
  · rw [executeDispatchActions_eq, applyWrites_length, List.length_replicate]
  · intro i hi
    rw [executeDispatchActions_eq]
    have hnd : ((((actions.enum.filter (fun ia => !Runner.isGroupedAction ia.2)) ++
        ((Runner.buildGroupMap actions.enum).map Prod.snd).flatten).map
        (fun ia => (ia.1, exec ia.2))).map Prod.fst).Nodup :=
      ((dispatch_write_indices_perm exec actions).symm.nodup_iff).mp
        (List.nodup_range _)
    have hmem : (i, actions.getD i Json.null) ∈ actions.enum := by
      have hlt : i < actions.enum.length := by
        rw [List.enum_length]; exact hi
      have henum := List.getElem_enum actions i hlt
      rw [List.getD_eq_getElem actions Json.null hi]
      rw [← henum]
      exact List.getElem_mem hlt
    have hmem2 : (i, actions.getD i Json.null) ∈
        ((actions.enum.filter (fun ia => !Runner.isGroupedAction ia.2)) ++
          ((Runner.buildGroupMap actions.enum).map Prod.snd).flatten) :=
      ((dispatch_items_perm actions).mem_iff).mpr hmem
    have hmemw : (i, exec (actions.getD i Json.null)) ∈
        (((actions.enum.filter (fun ia => !Runner.isGroupedAction ia.2)) ++
          ((Runner.buildGroupMap actions.enum).map Prod.snd).flatten).map
          (fun ia => (ia.1, exec ia.2))) :=
      List.mem_map.mpr ⟨_, hmem2, rfl⟩
    exact applyWrites_getElem?_of_mem hnd hmemw _
      (by rw [List.length_replicate]; exact hi)
  · intro i
    have hperm : ((Runner.dispatchWriteIndices maxParallel actions)).Perm
        (List.range actions.length) := by
      unfold Runner.dispatchWriteIndices
      rw [dispatchWrites_flatten]
      exact dispatch_write_indices_perm (fun _ => Unit.unit) actions
    rw [hperm.count_eq]
    by_cases hi : i < actions.length
    · rw [if_pos hi]
      exact List.count_eq_one_of_mem (List.nodup_range _)
        (List.mem_range.mpr hi)
    · rw [if_neg hi]
      exact List.count_eq_zero.mpr (fun hmem =>
        hi (List.mem_range.mp hmem))

/-- C6 witness: the positional guarantee at a concrete three-action batch
(two grouped actions, one ungrouped) with `max_parallel = 2`. -/
theorem c6_dispatch_results_positional_witness :
    1 ≤ 2 ∧
    ((Runner.executeDispatchActions 2 (fun _ => (7 : Nat))
      [Json.obj [("type", Json.str "ssh")],
       Json.obj [("type", Json.str "web_fetch"), ("parallelGroup", Json.str "g1")],
       Json.obj [("type", Json.str "web_fetch"), ("parallelGroup", Json.str "g1")]]).length = 3 ∧
    (∀ i, i < 3 →
      (Runner.executeDispatchActions 2 (fun _ => (7 : Nat))
        [Json.obj [("type", Json.str "ssh")],
         Json.obj [("type", Json.str "web_fetch"), ("parallelGroup", Json.str "g1")],
         Json.obj [("type", Json.str "web_fetch"), ("parallelGroup", Json.str "g1")]])[i]? =
        some (some 7)) ∧
    (∀ i, (Runner.dispatchWriteIndices 2
        [Json.obj [("type", Json.str "ssh")],
         Json.obj [("type", Json.str "web_fetch"), ("parallelGroup", Json.str "g1")],
         Json.obj [("type", Json.str "web_fetch"), ("parallelGroup", Json.str "g1")]]).count i =
      if i < 3 then 1 else 0)) := by
  constructor
  · decide
  · have h := c6_dispatch_results_positional 2 (fun _ => (7 : Nat))
      [Json.obj [("type", Json.str "ssh")],
       Json.obj [("type", Json.str "web_fetch"), ("parallelGroup", Json.str "g1")],
       Json.obj [("type", Json.str "web_fetch"), ("parallelGroup", Json.str "g1")]]
      (by decide)
    refine ⟨h.1, ?_, h.2.2⟩
    intro i hi
    have := h.2.1 i hi
    exact this


/-! ## Claim C5: plan serialization round trip

Support development: the JSON string/number/value round trip through the
pretty serializer, the validator round trip on canonical actions, the
fenced-block extraction of `formatPlanBlock` output, and the assembled
`parsePlanFromText` round trip. -/

theorem hexVal_hexDigitChar {k : Nat} (h : k < 16) :
    hexVal (hexDigitChar k) = some k := by
  interval_cases k <;> decide

theorem parseStringBody_u (n : Nat) (hn : n < 32) (r : List Char) :
    parseStringBody ('\\' :: 'u' :: (hex4 n ++ r)) =
      (parseStringBody r).map (fun p => (Char.ofNat n :: p.1, p.2)) := by
  have e1 : hexVal (hexDigitChar (n / 4096 % 16)) = some (n / 4096 % 16) :=
    hexVal_hexDigitChar (Nat.mod_lt _ (by omega))
  have e2 : hexVal (hexDigitChar (n / 256 % 16)) = some (n / 256 % 16) :=
    hexVal_hexDigitChar (Nat.mod_lt _ (by omega))
  have e3 : hexVal (hexDigitChar (n / 16 % 16)) = some (n / 16 % 16) :=
    hexVal_hexDigitChar (Nat.mod_lt _ (by omega))
  have e4 : hexVal (hexDigitChar (n % 16)) = some (n % 16) :=
    hexVal_hexDigitChar (Nat.mod_lt _ (by omega))
  have hval : ((n / 4096 % 16 * 16 + n / 256 % 16) * 16 + n / 16 % 16) * 16 + n % 16 = n := by
    omega
  have hcu : charFromCodeUnit n = Char.ofNat n := by
    unfold charFromCodeUnit
    have : (0xd800 ≤ n && n ≤ 0xdfff) = false := by
      simp only [Bool.and_eq_false_iff, decide_eq_false_iff_not, not_le]
      left
      omega
    rw [this]
    rfl
  simp only [hex4, List.cons_append, parseStringBody, e1, e2, e3, e4, hval, hcu]
  rfl

theorem parseStringBody_quote (r : List Char) : parseStringBody ('"' :: r) = some ([], r) := by
  rw [parseStringBody.eq_def]
  simp

theorem parseStringBody_esc {e dec : Char} (h : escapeCodeOf e = some dec)
    (hu : ¬e = 'u') (X : List Char) :
    parseStringBody ('\\' :: e :: X) =
      (parseStringBody X).map (fun p => (dec :: p.1, p.2)) := by
  rw [parseStringBody.eq_def]
  simp [hu, h]

theorem parseStringBody_plain {c : Char} (h1 : ¬c = '"') (h2 : ¬c = '\\')
    (h8 : ¬c.toNat < 32) (X : List Char) :
    parseStringBody (c :: X) = (parseStringBody X).map (fun p => (c :: p.1, p.2)) := by
  rw [parseStringBody.eq_def]
  simp [h1, h2, h8]

theorem parseStringBody_escape (s : List Char) (rest : List Char) :
    parseStringBody ((s.map escapeChar).flatten ++ '"' :: rest) = some (s, rest) := by
  induction s with
  | nil => simpa using parseStringBody_quote rest
  | cons c cs ih =>
    simp only [List.map_cons, List.flatten_cons, List.append_assoc]
    by_cases h1 : c = '"'
    · subst h1
      rw [show escapeChar '"' = ['\\', '"'] from rfl]
      rw [List.cons_append, List.cons_append, List.nil_append,
        parseStringBody_esc (show escapeCodeOf '"' = some '"' from rfl) (by decide), ih]
      rfl
    · by_cases h2 : c = '\\'
      · subst h2
        rw [show escapeChar '\\' = ['\\', '\\'] from rfl]
        rw [List.cons_append, List.cons_append, List.nil_append,
          parseStringBody_esc (show escapeCodeOf '\\' = some '\\' from rfl) (by decide), ih]
        rfl
      · by_cases h3 : c.toNat = 8
        · have hec : escapeChar c = ['\\', 'b'] := by simp [escapeChar, h1, h2, h3]
          have hcb : Char.ofNat 8 = c := by rw [← h3, Char.ofNat_toNat]
          rw [hec, List.cons_append, List.cons_append, List.nil_append,
            parseStringBody_esc (show escapeCodeOf 'b' = some (Char.ofNat 8) from rfl)
              (by decide), ih, hcb]
          rfl
        · by_cases h4 : c.toNat = 9
          · have hec : escapeChar c = ['\\', 't'] := by simp [escapeChar, h1, h2, h3, h4]
            have hcb : Char.ofNat 9 = c := by rw [← h4, Char.ofNat_toNat]
            rw [hec, List.cons_append, List.cons_append, List.nil_append,
              parseStringBody_esc (show escapeCodeOf 't' = some (Char.ofNat 9) from rfl)
                (by decide), ih, hcb]
            rfl
          · by_cases h5 : c.toNat = 10
            · have hec : escapeChar c = ['\\', 'n'] := by simp [escapeChar, h1, h2, h3, h4, h5]
              have hcb : Char.ofNat 10 = c := by rw [← h5, Char.ofNat_toNat]
              rw [hec, List.cons_append, List.cons_append, List.nil_append,
                parseStringBody_esc (show escapeCodeOf 'n' = some (Char.ofNat 10) from rfl)
                  (by decide), ih, hcb]
              rfl
            · by_cases h6 : c.toNat = 12
              · have hec : escapeChar c = ['\\', 'f'] := by
                  simp [escapeChar, h1, h2, h3, h4, h5, h6]
                have hcb : Char.ofNat 12 = c := by rw [← h6, Char.ofNat_toNat]
                rw [hec, List.cons_append, List.cons_append, List.nil_append,
                  parseStringBody_esc (show escapeCodeOf 'f' = some (Char.ofNat 12) from rfl)
                    (by decide), ih, hcb]
                rfl
              · by_cases h7 : c.toNat = 13
                · have hec : escapeChar c = ['\\', 'r'] := by
                    simp [escapeChar, h1, h2, h3, h4, h5, h6, h7]
                  have hcb : Char.ofNat 13 = c := by rw [← h7, Char.ofNat_toNat]
                  rw [hec, List.cons_append, List.cons_append, List.nil_append,
                    parseStringBody_esc (show escapeCodeOf 'r' = some (Char.ofNat 13) from rfl)
                      (by decide), ih, hcb]
                  rfl
                · by_cases h8 : c.toNat < 32
                  · have hec : escapeChar c = '\\' :: 'u' :: hex4 c.toNat := by
                      simp [escapeChar, h1, h2, h3, h4, h5, h6, h7, h8]
                    rw [hec, List.cons_append, List.cons_append,
                      parseStringBody_u c.toNat h8, ih, Char.ofNat_toNat]
                    rfl
                  · have hec : escapeChar c = [c] := by
                      simp [escapeChar, h1, h2, h3, h4, h5, h6, h7, h8]
                    rw [hec, List.singleton_append, parseStringBody_plain h1 h2 h8, ih]
                    rfl

theorem natToChars_ne_nil (n : Nat) : natToChars n ≠ [] := by
  rw [natToChars.eq_def]
  split
  · simp
  · simp

theorem charToNat_ofNat {n : Nat} (h : n < 55296) : (Char.ofNat n).toNat = n := by
  have hv : n.isValidChar := Or.inl h
  simp only [Char.ofNat, hv, dif_pos, Char.ofNatAux, Char.toNat]
  simp [UInt32.toNat, UInt32.ofNatCore]

theorem isDigit_eq (c : Char) :
    c.isDigit = (decide (48 ≤ c.toNat) && decide (c.toNat ≤ 57)) := by
  simp only [Char.isDigit, Char.toNat]
  congr 1

theorem isDigit_ofNat_digit {n : Nat} (h : n < 10) :
    (Char.ofNat (48 + n)).isDigit = true := by
  rw [isDigit_eq, charToNat_ofNat (by omega)]
  simp only [Bool.and_eq_true, decide_eq_true_eq]
  omega

theorem natToChars_all_digit (n : Nat) : ∀ c ∈ natToChars n, c.isDigit = true := by
  induction n using Nat.strong_induction_on with
  | _ n ih =>
    rw [natToChars.eq_def]
    split
    · rename_i h
      intro c hc
      simp only [List.mem_singleton] at hc
      subst hc
      exact isDigit_ofNat_digit h
    · rename_i h
      intro c hc
      rcases List.mem_append.mp hc with hm | hm
      · exact ih (n / 10) (Nat.div_lt_self (by omega) (by omega)) c hm
      · simp only [List.mem_singleton] at hm
        subst hm
        exact isDigit_ofNat_digit (Nat.mod_lt _ (by omega))

theorem digitsVal_append_digit (l : List Char) (c : Char) :
    digitsVal (l ++ [c]) = digitsVal l * 10 + (c.toNat - 48) := by
  simp [digitsVal, List.foldl_append]

theorem digitsVal_natToChars (n : Nat) : digitsVal (natToChars n) = n := by
  induction n using Nat.strong_induction_on with
  | _ n ih =>
    rw [natToChars.eq_def]
    split
    · rename_i h
      simp only [digitsVal, List.foldl_cons, List.foldl_nil]
      rw [charToNat_ofNat (by omega)]
      omega
    · rename_i h
      rw [digitsVal_append_digit, ih (n / 10) (Nat.div_lt_self (by omega) (by omega)),
        charToNat_ofNat (by omega)]
      omega

theorem natToChars_headI_zero {n : Nat} (h : (natToChars n).headI = '0') : n = 0 := by
  induction n using Nat.strong_induction_on with
  | _ n ih =>
    rw [natToChars.eq_def] at h
    split at h
    · rename_i hlt
      simp only [List.headI] at h
      have := congrArg Char.toNat h
      rw [charToNat_ofNat (by omega)] at this
      simp only [show ('0' : Char).toNat = 48 from rfl] at this
      omega
    · rename_i hlt
      obtain ⟨a, t, hat⟩ : ∃ a t, natToChars (n / 10) = a :: t := by
        cases hq : natToChars (n / 10) with
        | nil => exact absurd hq (natToChars_ne_nil (n / 10))
        | cons a t => exact ⟨a, t, rfl⟩
      rw [hat] at h
      simp only [List.cons_append, List.headI] at h
      have h0 : n / 10 = 0 :=
        ih (n / 10) (Nat.div_lt_self (by omega) (by omega)) (by rw [hat]; simpa using h)
      omega

theorem takeWhile_all_append {p : Char → Bool} {xs : List Char} (ys : List Char)
    (h : ∀ c ∈ xs, p c = true) :
    (xs ++ ys).takeWhile p = xs ++ ys.takeWhile p := by
  induction xs with
  | nil => simp
  | cons a t ih =>
    have ha : p a = true := h a (List.mem_cons_self a t)
    simp only [List.cons_append, List.takeWhile_cons, ha, if_true]
    rw [ih (fun c hc => h c (List.mem_cons_of_mem a hc))]

theorem dropWhile_all_append {p : Char → Bool} {xs : List Char} (ys : List Char)
    (h : ∀ c ∈ xs, p c = true) :
    (xs ++ ys).dropWhile p = ys.dropWhile p := by
  induction xs with
  | nil => simp
  | cons a t ih =>
    have ha : p a = true := h a (List.mem_cons_self a t)
    simp only [List.cons_append, List.dropWhile_cons, ha, if_true]
    exact ih (fun c hc => h c (List.mem_cons_of_mem a hc))

theorem parseNatNum_natToChars (m : Nat) (rest : List Char)
    (hsafe : numSafe rest = true) :
    parseNatNum (natToChars m ++ rest) = some (m, rest) := by
  have hdigits := natToChars_all_digit m
  have hrest_take : rest.takeWhile Char.isDigit = [] := by
    cases rest with
    | nil => rfl
    | cons c t =>
      simp only [numSafe, Bool.not_eq_true', Bool.or_eq_false_iff] at hsafe
      simp [List.takeWhile_cons, hsafe.1.1.1]
  have hrest_drop : rest.dropWhile Char.isDigit = rest := by
    cases rest with
    | nil => rfl
    | cons c t =>
      simp only [numSafe, Bool.not_eq_true', Bool.or_eq_false_iff] at hsafe
      simp [List.dropWhile_cons, hsafe.1.1.1]
  unfold parseNatNum
  rw [takeWhile_all_append rest hdigits, dropWhile_all_append rest hdigits,
    hrest_take, hrest_drop, List.append_nil]
  rw [if_neg (by simpa using natToChars_ne_nil m)]
  have hlead : ¬(1 < (natToChars m).length ∧ (natToChars m).headI == '0') := by
    rintro ⟨hlen, hz⟩
    have h0 : m = 0 := natToChars_headI_zero (by simpa using hz)
    subst h0
    rw [natToChars.eq_def] at hlen
    simp at hlen
  rw [if_neg (by
    simp only [Bool.and_eq_true, decide_eq_true_eq, not_and]
    intro hlen hz
    exact absurd ⟨hlen, hz⟩ hlead)]
  have hdv := digitsVal_natToChars m
  cases hr : rest with
  | nil => simp [hdv]
  | cons c t =>
    subst hr
    simp only [numSafe, Bool.not_eq_true', Bool.or_eq_false_iff] at hsafe
    obtain ⟨⟨⟨hd, hdot⟩, he⟩, hE⟩ := hsafe
    have hcdot : ¬c = '.' := by simpa using hdot
    have hce : ¬c = 'e' := by simpa using he
    have hcE : ¬c = 'E' := by simpa using hE
    cases c with
    | mk v hvalid =>
      split
      · rename_i heq
        exact absurd (List.cons.inj heq).1 hcdot
      · rename_i heq
        exact absurd (List.cons.inj heq).1 hce
      · rename_i heq
        exact absurd (List.cons.inj heq).1 hcE
      · simp [hdv]

theorem char_ne_of_toNat_ne {a b : Char} (h : a.toNat ≠ b.toNat) : a ≠ b :=
  fun e => h (congrArg Char.toNat e)

theorem isDigit_toNat {a : Char} (h : a.isDigit = true) :
    48 ≤ a.toNat ∧ a.toNat ≤ 57 := by
  rw [isDigit_eq] at h
  simpa using h

theorem jsonWs_false_of_digit {a : Char} (h : a.isDigit = true) : jsonWs a = false := by
  obtain ⟨h1, h2⟩ := isDigit_toNat h
  simp only [jsonWs, Bool.or_eq_false_iff, beq_eq_false_iff_ne]
  refine ⟨⟨⟨char_ne_of_toNat_ne ?_, char_ne_of_toNat_ne ?_⟩, char_ne_of_toNat_ne ?_⟩, ?_⟩ <;>
    simp <;> omega

theorem parseNumber_intToChars (n : Int) (rest : List Char)
    (hsafe : numSafe rest = true) :
    parseNumber (intToChars n ++ rest) = some (n, rest) := by
  by_cases hneg : n < 0
  · rw [intToChars, if_pos hneg, List.cons_append]
    rw [show parseNumber ('-' :: (natToChars n.natAbs ++ rest)) =
      (parseNatNum (natToChars n.natAbs ++ rest)).map (fun p => (-(p.1 : Int), p.2)) from by
        simp [parseNumber]]
    rw [parseNatNum_natToChars n.natAbs rest hsafe]
    have hn : -((n.natAbs : Int)) = n := by omega
    simp only [Option.map_some']
    rw [hn]
  · rw [intToChars, if_neg hneg]
    obtain ⟨a, t, hat⟩ : ∃ a t, natToChars n.natAbs = a :: t := by
      cases hq : natToChars n.natAbs with
      | nil => exact absurd hq (natToChars_ne_nil _)
      | cons a t => exact ⟨a, t, rfl⟩
    have ha : a.isDigit = true := natToChars_all_digit n.natAbs a (by rw [hat]; simp)
    have hane : ¬(a = '-') := by
      obtain ⟨h1, _⟩ := isDigit_toNat ha
      exact char_ne_of_toNat_ne (by simp; omega)
    rw [hat, List.cons_append]
    rw [show parseNumber (a :: (t ++ rest)) =
      if a == '-' then (parseNatNum (t ++ rest)).map (fun p => (-(p.1 : Int), p.2))
      else (parseNatNum (a :: (t ++ rest))).map (fun p => ((p.1 : Int), p.2)) from by
        simp [parseNumber]]
    rw [if_neg (by simpa using hane)]
    rw [show a :: (t ++ rest) = (a :: t) ++ rest from rfl, ← hat,
      parseNatNum_natToChars n.natAbs rest hsafe]
    have hn : ((n.natAbs : Int)) = n := by omega
    simp only [Option.map_some']
    rw [hn]

theorem skipJsonWs_append {pre : List Char} (l : List Char)
    (h : ∀ c ∈ pre, jsonWs c = true) : skipJsonWs (pre ++ l) = skipJsonWs l :=
  dropWhile_all_append l h

theorem parseValue_ws_drop (fuel : Nat) {pre : List Char} (l : List Char)
    (h : ∀ c ∈ pre, jsonWs c = true) :
    parseValue fuel (pre ++ l) = parseValue fuel l := by
  cases fuel with
  | zero => rw [parseValue.eq_def, parseValue.eq_def]
  | succ f =>
    rw [parseValue.eq_def]
    conv_rhs => rw [parseValue.eq_def]
    simp only []
    rw [skipJsonWs_append l h]

theorem parseElems_ws_drop (fuel : Nat) {pre : List Char} (l : List Char)
    (h : ∀ c ∈ pre, jsonWs c = true) :
    parseElems fuel (pre ++ l) = parseElems fuel l := by
  cases fuel with
  | zero => rw [parseElems.eq_def, parseElems.eq_def]
  | succ f =>
    rw [parseElems.eq_def]
    conv_rhs => rw [parseElems.eq_def]
    simp only []
    rw [parseValue_ws_drop f l h]

theorem parseMembers_ws_drop (fuel : Nat) {pre : List Char} (l : List Char)
    (h : ∀ c ∈ pre, jsonWs c = true) :
    parseMembers fuel (pre ++ l) = parseMembers fuel l := by
  cases fuel with
  | zero => rw [parseMembers.eq_def, parseMembers.eq_def]
  | succ f =>
    rw [parseMembers.eq_def]
    conv_rhs => rw [parseMembers.eq_def]
    simp only []
    rw [skipJsonWs_append l h]

theorem emitValue_head (ind : Nat) (v : Json) :
    ∃ c t, emitValue ind v = c :: t ∧ jsonWs c = false ∧ c ≠ ']' ∧ c ≠ '}' := by
  cases v with
  | null => exact ⟨'n', ['u', 'l', 'l'], by simp [emitValue], by decide, by decide, by decide⟩
  | bool b =>
    cases b with
    | true => exact ⟨'t', ['r', 'u', 'e'], by simp [emitValue], by decide, by decide, by decide⟩
    | false =>
      exact ⟨'f', ['a', 'l', 's', 'e'], by simp [emitValue], by decide, by decide, by decide⟩
  | num n =>
    by_cases hneg : n < 0
    · exact ⟨'-', natToChars n.natAbs, by simp [emitValue, intToChars, hneg],
        by decide, by decide, by decide⟩
    · obtain ⟨a, t, hat⟩ : ∃ a t, natToChars n.natAbs = a :: t := by
        cases hq : natToChars n.natAbs with
        | nil => exact absurd hq (natToChars_ne_nil _)
        | cons a t => exact ⟨a, t, rfl⟩
      have ha : a.isDigit = true := natToChars_all_digit n.natAbs a (by rw [hat]; simp)
      obtain ⟨h1, h2⟩ := isDigit_toNat ha
      exact ⟨a, t, by simp [emitValue, intToChars, hneg, hat],
        jsonWs_false_of_digit ha,
        char_ne_of_toNat_ne (by simp; omega),
        char_ne_of_toNat_ne (by simp; omega)⟩
  | str s =>
    exact ⟨'"', (s.data.map escapeChar).flatten ++ ['"'],
      by simp [emitValue, quoteString], by decide, by decide, by decide⟩
  | arr elems =>
    cases elems with
    | nil => exact ⟨'[', [']'], by simp [emitValue], by decide, by decide, by decide⟩
    | cons v vs =>
      exact ⟨'[', '\n' :: emitElems (ind + 2) v vs ++
          ('\n' :: List.replicate ind ' ' ++ [']']),
        by simp [emitValue], by decide, by decide, by decide⟩
  | obj members =>
    cases members with
    | nil => exact ⟨'{', ['}'], by simp [emitValue], by decide, by decide, by decide⟩
    | cons m ms =>
      obtain ⟨k, jv⟩ := m
      exact ⟨'{', '\n' :: emitMembers (ind + 2) k jv ms ++
          ('\n' :: List.replicate ind ' ' ++ ['}']),
        by simp [emitValue], by decide, by decide, by decide⟩

theorem emitValue_length_pos (ind : Nat) (v : Json) : 1 ≤ (emitValue ind v).length := by
  obtain ⟨c, t, he, -, -, -⟩ := emitValue_head ind v
  rw [he]
  simp

theorem parseValue_num_head (f : Nat) {c : Char} (cs : List Char)
    (h : c = '-' ∨ c.isDigit = true) :
    parseValue (f + 1) (c :: cs) =
      (parseNumber (c :: cs)).map (fun p => (Json.num p.1, p.2)) := by
  have hrange : c.toNat = 45 ∨ (48 ≤ c.toNat ∧ c.toNat ≤ 57) := by
    rcases h with h | h
    · subst h
      left
      rfl
    · exact Or.inr (isDigit_toNat h)
  have hws : jsonWs c = false := by
    simp only [jsonWs, Bool.or_eq_false_iff, beq_eq_false_iff_ne]
    refine ⟨⟨⟨char_ne_of_toNat_ne ?_, char_ne_of_toNat_ne ?_⟩, char_ne_of_toNat_ne ?_⟩, ?_⟩ <;>
      simp <;> omega
  rw [parseValue.eq_def]
  simp only []
  rw [show skipJsonWs (c :: cs) = c :: cs from by
    simp [skipJsonWs, List.dropWhile_cons, hws]]
  split
  · rename_i heq
    have := (List.cons.inj heq).1
    subst this
    simp at hrange
  · rename_i heq
    have := (List.cons.inj heq).1
    subst this
    simp at hrange
  · rename_i heq
    have := (List.cons.inj heq).1
    subst this
    simp at hrange
  · rename_i heq
    have := (List.cons.inj heq).1
    subst this
    simp at hrange
  · rename_i heq
    have := (List.cons.inj heq).1
    subst this
    simp at hrange
  · rename_i heq
    have := (List.cons.inj heq).1
    subst this
    simp at hrange
  · rename_i c2 r2 heq
    obtain ⟨hc, hr⟩ := List.cons.inj heq
    subst hc
    subst hr
    rw [if_pos (by
      rcases h with h | h
      · simp [h]
      · simp [h])]
  · rename_i heq
    exact absurd heq (List.cons_ne_nil _ _)

theorem jsonWs_toNat {a : Char} (h : jsonWs a = true) :
    a.toNat = 32 ∨ a.toNat = 9 ∨ a.toNat = 10 ∨ a.toNat = 13 := by
  simp only [jsonWs, Bool.or_eq_true, beq_iff_eq] at h
  rcases h with ((h | h) | h) | h
  · subst h; left; rfl
  · subst h; right; left; rfl
  · subst h; right; right; left; rfl
  · right; right; right; exact h

theorem numSafe_of_head_toNat {a : Char} (t : List Char)
    (h : a.toNat < 48 ∨ 57 < a.toNat)
    (hdot : a.toNat ≠ 46) (he : a.toNat ≠ 101) (hE : a.toNat ≠ 69) :
    numSafe (a :: t) = true := by
  simp only [numSafe, Bool.not_eq_true', Bool.or_eq_false_iff]
  refine ⟨⟨⟨?_, ?_⟩, ?_⟩, ?_⟩
  · rw [isDigit_eq]
    simp only [Bool.and_eq_false_iff, decide_eq_false_iff_not, not_le]
    omega
  · exact beq_eq_false_iff_ne.mpr (char_ne_of_toNat_ne (by simpa using hdot))
  · exact beq_eq_false_iff_ne.mpr (char_ne_of_toNat_ne (by simpa using he))
  · exact beq_eq_false_iff_ne.mpr (char_ne_of_toNat_ne (by simpa using hE))

theorem numSafe_of_skip {suffix : List Char} {c : Char} {r : List Char}
    (h : skipJsonWs suffix = c :: r)
    (hc : c.toNat = 93 ∨ c.toNat = 125) : numSafe suffix = true := by
  cases suffix with
  | nil => simp [skipJsonWs] at h
  | cons a t =>
    by_cases hwa : jsonWs a = true
    · rcases jsonWs_toNat hwa with ha | ha | ha | ha <;>
        exact numSafe_of_head_toNat t (by omega) (by omega) (by omega) (by omega)
    · have hskip : skipJsonWs (a :: t) = a :: t := by
        simp [skipJsonWs, List.dropWhile_cons, hwa]
      rw [hskip] at h
      have ha := (List.cons.inj h).1
      subst ha
      exact numSafe_of_head_toNat t (by omega) (by omega) (by omega) (by omega)

theorem ws_of_mem_nl_replicate {n : Nat} :
    ∀ c ∈ '\n' :: List.replicate n ' ', jsonWs c = true := by
  intro c hc
  rcases List.mem_cons.mp hc with h | h
  · subst h; decide
  · rw [List.eq_of_mem_replicate h]; decide

theorem ws_of_mem_replicate {n : Nat} :
    ∀ c ∈ List.replicate n ' ', jsonWs c = true := by
  intro c hc
  rw [List.eq_of_mem_replicate hc]; decide

theorem ws_of_mem_nl : ∀ c ∈ ['\n'], jsonWs c = true := by
  intro c hc
  rcases List.mem_singleton.mp hc with h
  subst h; decide

theorem ws_of_mem_sp : ∀ c ∈ [' '], jsonWs c = true := by
  intro c hc
  rcases List.mem_singleton.mp hc with h
  subst h; decide

theorem skipJsonWs_cons_not_ws {c : Char} (l : List Char) (h : jsonWs c = false) :
    skipJsonWs (c :: l) = c :: l := by
  simp [skipJsonWs, List.dropWhile_cons, h]

theorem parseValue_lit_null (f : Nat) (rest : List Char) :
    parseValue (f + 1) ('n' :: 'u' :: 'l' :: 'l' :: rest) = some (.null, rest) := by
  rw [parseValue.eq_def]
  simp only []
  rw [skipJsonWs_cons_not_ws _ (by decide)]
  rfl

theorem parseValue_lit_true (f : Nat) (rest : List Char) :
    parseValue (f + 1) ('t' :: 'r' :: 'u' :: 'e' :: rest) = some (.bool true, rest) := by
  rw [parseValue.eq_def]
  simp only []
  rw [skipJsonWs_cons_not_ws _ (by decide)]
  rfl

theorem parseValue_lit_false (f : Nat) (rest : List Char) :
    parseValue (f + 1) ('f' :: 'a' :: 'l' :: 's' :: 'e' :: rest) = some (.bool false, rest) := by
  rw [parseValue.eq_def]
  simp only []
  rw [skipJsonWs_cons_not_ws _ (by decide)]
  rfl

theorem parseValue_str_head (f : Nat) (r : List Char) :
    parseValue (f + 1) ('"' :: r) =
      (parseStringBody r).map (fun p => (Json.str ⟨p.1⟩, p.2)) := by
  rw [parseValue.eq_def]
  simp only []
  rw [skipJsonWs_cons_not_ws _ (by decide)]
  rfl

theorem parseValue_arr_head (f : Nat) (r : List Char) :
    parseValue (f + 1) ('[' :: r) =
      (match skipJsonWs r with
       | ']' :: r2 => some (Json.arr [], r2)
       | _ => (parseElems f r).map (fun p => (Json.arr p.1, p.2))) := by
  rw [parseValue.eq_def]
  simp only []
  rw [skipJsonWs_cons_not_ws _ (by decide)]
  split
  · rename_i heq
    exact absurd (List.cons.inj heq).1 (by decide)
  · rename_i heq
    exact absurd (List.cons.inj heq).1 (by decide)
  · rename_i heq
    exact absurd (List.cons.inj heq).1 (by decide)
  · rename_i heq
    exact absurd (List.cons.inj heq).1 (by decide)
  · rename_i r1 heq
    obtain ⟨-, hr⟩ := List.cons.inj heq
    rw [← hr]
  · rename_i heq
    exact absurd (List.cons.inj heq).1 (by decide)
  · rename_i h1 h2 h3 h4 h5 h6 heq
    obtain ⟨hc, hr⟩ := List.cons.inj heq
    first
    | exact (h1 _ hc.symm hr.symm).elim
    | exact (h2 _ hc.symm hr.symm).elim
    | exact (h3 _ hc.symm hr.symm).elim
    | exact (h4 _ hc.symm hr.symm).elim
    | exact (h5 _ hc.symm hr.symm).elim
    | exact (h6 _ hc.symm hr.symm).elim
    | exact (h1 hc.symm).elim
    | exact (h2 hc.symm).elim
    | exact (h3 hc.symm).elim
    | exact (h4 hc.symm).elim
    | exact (h5 hc.symm).elim
    | exact (h6 hc.symm).elim
  · rename_i heq
    exact absurd heq (List.cons_ne_nil _ _)

theorem parseValue_obj_head (f : Nat) (r : List Char) :
    parseValue (f + 1) ('{' :: r) =
      (match skipJsonWs r with
       | '}' :: r2 => some (Json.obj [], r2)
       | _ => (parseMembers f r).map (fun p => (Json.obj p.1, p.2))) := by
  rw [parseValue.eq_def]
  simp only []
  rw [skipJsonWs_cons_not_ws _ (by decide)]
  split
  · rename_i heq
    exact absurd (List.cons.inj heq).1 (by decide)
  · rename_i heq
    exact absurd (List.cons.inj heq).1 (by decide)
  · rename_i heq
    exact absurd (List.cons.inj heq).1 (by decide)
  · rename_i heq
    exact absurd (List.cons.inj heq).1 (by decide)
  · rename_i heq
    exact absurd (List.cons.inj heq).1 (by decide)
  · rename_i r1 heq
    obtain ⟨-, hr⟩ := List.cons.inj heq
    rw [← hr]
  · rename_i h1 h2 h3 h4 h5 h6 heq
    obtain ⟨hc, hr⟩ := List.cons.inj heq
    first
    | exact (h1 _ hc.symm hr.symm).elim
    | exact (h2 _ hc.symm hr.symm).elim
    | exact (h3 _ hc.symm hr.symm).elim
    | exact (h4 _ hc.symm hr.symm).elim
    | exact (h5 _ hc.symm hr.symm).elim
    | exact (h6 _ hc.symm hr.symm).elim
    | exact (h1 hc.symm).elim
    | exact (h2 hc.symm).elim
    | exact (h3 hc.symm).elim
    | exact (h4 hc.symm).elim
    | exact (h5 hc.symm).elim
    | exact (h6 hc.symm).elim
  · rename_i heq
    exact absurd heq (List.cons_ne_nil _ _)

theorem parseValue_arr_nil (f : Nat) {r r2 : List Char} (h : skipJsonWs r = ']' :: r2) :
    parseValue (f + 1) ('[' :: r) = some (.arr [], r2) := by
  rw [parseValue_arr_head, h]
  rfl

theorem parseValue_arr_cons (f : Nat) {r : List Char} {c0 : Char} {Z : List Char}
    (h : skipJsonWs r = c0 :: Z) (hne : c0 ≠ ']') :
    parseValue (f + 1) ('[' :: r) =
      (parseElems f r).map (fun p => (Json.arr p.1, p.2)) := by
  rw [parseValue_arr_head, h]
  split
  · rename_i heq
    exact absurd (List.cons.inj heq).1 hne
  · rfl

theorem parseValue_obj_nil (f : Nat) {r r2 : List Char} (h : skipJsonWs r = '}' :: r2) :
    parseValue (f + 1) ('{' :: r) = some (.obj [], r2) := by
  rw [parseValue_obj_head, h]
  rfl

theorem parseValue_obj_cons (f : Nat) {r : List Char} {c0 : Char} {Z : List Char}
    (h : skipJsonWs r = c0 :: Z) (hne : c0 ≠ '}') :
    parseValue (f + 1) ('{' :: r) =
      (parseMembers f r).map (fun p => (Json.obj p.1, p.2)) := by
  rw [parseValue_obj_head, h]
  split
  · rename_i heq
    exact absurd (List.cons.inj heq).1 hne
  · rfl


theorem parseValue_intToChars (f : Nat) (n : Int) (rest : List Char)
    (hsafe : numSafe rest = true) :
    parseValue (f + 1) (intToChars n ++ rest) = some (.num n, rest) := by
  obtain ⟨c, cs, hc, hprop⟩ :
      ∃ c cs, intToChars n = c :: cs ∧ (c = '-' ∨ c.isDigit = true) := by
    by_cases hneg : n < 0
    · exact ⟨'-', natToChars n.natAbs, by rw [intToChars, if_pos hneg], Or.inl rfl⟩
    · obtain ⟨a, t, hat⟩ : ∃ a t, natToChars n.natAbs = a :: t := by
        cases hq : natToChars n.natAbs with
        | nil => exact absurd hq (natToChars_ne_nil _)
        | cons a t => exact ⟨a, t, rfl⟩
      exact ⟨a, t, by rw [intToChars, if_neg hneg, hat],
        Or.inr (natToChars_all_digit n.natAbs a (by rw [hat]; simp))⟩
  rw [hc, List.cons_append, parseValue_num_head f _ hprop, ← List.cons_append, ← hc,
    parseNumber_intToChars n rest hsafe]
  rfl

theorem parseMembers_succ_eq (f : Nat) {l r : List Char} (hskip : skipJsonWs l = '"' :: r) :
    parseMembers (f + 1) l =
      (match parseStringBody r with
       | none => none
       | some (k, rest) =>
         match skipJsonWs rest with
         | ':' :: r2 =>
           (match parseValue f r2 with
            | none => none
            | some (v, rest2) =>
              match skipJsonWs rest2 with
              | ',' :: r3 => (parseMembers f r3).map (fun p => ((⟨k⟩, v) :: p.1, p.2))
              | '}' :: r3 => some ([(⟨k⟩, v)], r3)
              | _ => none)
         | _ => none) := by
  rw [parseMembers.eq_def]
  simp only []
  rw [hskip]
  rfl

theorem parseElems_succ_comma (f : Nat) {l : List Char} {v : Json} {X : List Char}
    (h : parseValue f l = some (v, ',' :: X)) :
    parseElems (f + 1) l = (parseElems f X).map (fun p => (v :: p.1, p.2)) := by
  rw [parseElems.eq_def]
  simp only []
  rw [h]
  rfl

theorem parseElems_succ_close (f : Nat) {l : List Char} {v : Json} {suffix rest2 : List Char}
    (h : parseValue f l = some (v, suffix)) (hsuf : skipJsonWs suffix = ']' :: rest2) :
    parseElems (f + 1) l = some ([v], rest2) := by
  rw [parseElems.eq_def]
  simp only []
  rw [h]
  dsimp only
  rw [hsuf]
  rfl

theorem parseMembers_succ_colon (f : Nat) {l r kd rest r2 : List Char}
    (hskip : skipJsonWs l = '"' :: r)
    (hbody : parseStringBody r = some (kd, rest))
    (hcolon : skipJsonWs rest = ':' :: r2) :
    parseMembers (f + 1) l =
      (match parseValue f r2 with
       | none => none
       | some (v, rest2) =>
         match skipJsonWs rest2 with
         | ',' :: r3 => (parseMembers f r3).map (fun p => ((⟨kd⟩, v) :: p.1, p.2))
         | '}' :: r3 => some ([(⟨kd⟩, v)], r3)
         | _ => none) := by
  rw [parseMembers_succ_eq f hskip, hbody]
  dsimp only
  rw [hcolon]
  rfl

theorem parseMembers_succ_val (f : Nat) {l r kd rest r2 rest2 : List Char} {jv : Json}
    (hskip : skipJsonWs l = '"' :: r)
    (hbody : parseStringBody r = some (kd, rest))
    (hcolon : skipJsonWs rest = ':' :: r2)
    (hval : parseValue f r2 = some (jv, rest2)) :
    parseMembers (f + 1) l =
      (match skipJsonWs rest2 with
       | ',' :: r3 => (parseMembers f r3).map (fun p => ((⟨kd⟩, jv) :: p.1, p.2))
       | '}' :: r3 => some ([(⟨kd⟩, jv)], r3)
       | _ => none) := by
  rw [parseMembers_succ_colon f hskip hbody hcolon, hval]

theorem parseMembers_full_comma (f : Nat) {l r kd rest r2 rest2 r3 : List Char} {jv : Json}
    (hskip : skipJsonWs l = '"' :: r)
    (hbody : parseStringBody r = some (kd, rest))
    (hcolon : skipJsonWs rest = ':' :: r2)
    (hval : parseValue f r2 = some (jv, rest2))
    (hnext : skipJsonWs rest2 = ',' :: r3) :
    parseMembers (f + 1) l =
      (parseMembers f r3).map (fun p => ((⟨kd⟩, jv) :: p.1, p.2)) := by
  rw [parseMembers_succ_val f hskip hbody hcolon hval, hnext]
  rfl

theorem parseMembers_full_close (f : Nat) {l r kd rest r2 rest2 r3 : List Char} {jv : Json}
    (hskip : skipJsonWs l = '"' :: r)
    (hbody : parseStringBody r = some (kd, rest))
    (hcolon : skipJsonWs rest = ':' :: r2)
    (hval : parseValue f r2 = some (jv, rest2))
    (hnext : skipJsonWs rest2 = '}' :: r3) :
    parseMembers (f + 1) l = some ([(⟨kd⟩, jv)], r3) := by
  rw [parseMembers_succ_val f hskip hbody hcolon hval, hnext]
  rfl

theorem emitValue_arr_cons_eq (ind : Nat) (v : Json) (vs : List Json) :
    emitValue ind (Json.arr (v :: vs)) =
      '[' :: '\n' :: (emitElems (ind + 2) v vs ++
        ('\n' :: (List.replicate ind ' ' ++ [']']))) := by
  simp [emitValue]

theorem emitValue_obj_cons_eq (ind : Nat) (k : String) (jv : Json)
    (ms : List (String × Json)) :
    emitValue ind (Json.obj ((k, jv) :: ms)) =
      '{' :: '\n' :: (emitMembers (ind + 2) k jv ms ++
        ('\n' :: (List.replicate ind ' ' ++ ['}']))) := by
  simp [emitValue]

theorem emitElems_nil_eq (ind : Nat) (v : Json) :
    emitElems ind v [] = List.replicate ind ' ' ++ emitValue ind v := by
  rw [emitElems.eq_def]
  simp

theorem emitElems_cons_eq (ind : Nat) (v w : Json) (ws : List Json) :
    emitElems ind v (w :: ws) =
      List.replicate ind ' ' ++ (emitValue ind v ++ (',' :: '\n' :: emitElems ind w ws)) := by
  rw [emitElems.eq_def]
  simp

theorem emitMembers_nil_eq (ind : Nat) (k : String) (jv : Json) :
    emitMembers ind k jv [] =
      List.replicate ind ' ' ++ (quoteString k ++ (':' :: ' ' :: emitValue ind jv)) := by
  rw [emitMembers.eq_def]
  simp

theorem emitMembers_cons_eq (ind : Nat) (k : String) (jv : Json) (k2 : String) (jv2 : Json)
    (ms2 : List (String × Json)) :
    emitMembers ind k jv ((k2, jv2) :: ms2) =
      List.replicate ind ' ' ++ (quoteString k ++ (':' :: ' ' :: (emitValue ind jv ++
        (',' :: '\n' :: emitMembers ind k2 jv2 ms2)))) := by
  rw [emitMembers.eq_def]
  simp

theorem quoteString_len (s : String) :
    (quoteString s).length = (s.data.map escapeChar).flatten.length + 2 := by
  simp [quoteString]

theorem skip_nl_emitElems (ind : Nat) (v : Json) (vs : List Json) (X : List Char) :
    ∃ c0 Z, skipJsonWs ('\n' :: (emitElems ind v vs ++ X)) = c0 :: Z ∧
      c0 ≠ ']' ∧ c0 ≠ '}' := by
  obtain ⟨c0, t0, he0, hws0, hne1, hne2⟩ := emitValue_head ind v
  cases vs with
  | nil =>
    refine ⟨c0, t0 ++ X, ?_, hne1, hne2⟩
    rw [emitElems_nil_eq]
    rw [show ('\n' :: ((List.replicate ind ' ' ++ emitValue ind v) ++ X)) =
      ('\n' :: List.replicate ind ' ') ++ (emitValue ind v ++ X) from by simp]
    rw [skipJsonWs_append _ ws_of_mem_nl_replicate, he0, List.cons_append]
    exact skipJsonWs_cons_not_ws _ hws0
  | cons w ws =>
    refine ⟨c0, t0 ++ ((',' :: '\n' :: emitElems ind w ws) ++ X), ?_, hne1, hne2⟩
    rw [emitElems_cons_eq]
    rw [show ('\n' :: ((List.replicate ind ' ' ++ (emitValue ind v ++
        (',' :: '\n' :: emitElems ind w ws))) ++ X)) =
      ('\n' :: List.replicate ind ' ') ++ (emitValue ind v ++
        ((',' :: '\n' :: emitElems ind w ws) ++ X)) from by simp]
    rw [skipJsonWs_append _ ws_of_mem_nl_replicate, he0, List.cons_append]
    exact skipJsonWs_cons_not_ws _ hws0

theorem skip_nl_emitMembers (ind : Nat) (k : String) (jv : Json)
    (ms : List (String × Json)) (X : List Char) :
    ∃ Z, skipJsonWs ('\n' :: (emitMembers ind k jv ms ++ X)) = '"' :: Z := by
  cases ms with
  | nil =>
    refine ⟨((k.data.map escapeChar).flatten ++ ['"']) ++
      ((':' :: ' ' :: emitValue ind jv) ++ X), ?_⟩
    rw [emitMembers_nil_eq]
    rw [show ('\n' :: ((List.replicate ind ' ' ++ (quoteString k ++
        (':' :: ' ' :: emitValue ind jv))) ++ X)) =
      ('\n' :: List.replicate ind ' ') ++ (quoteString k ++
        ((':' :: ' ' :: emitValue ind jv) ++ X)) from by simp]
    rw [skipJsonWs_append _ ws_of_mem_nl_replicate]
    rw [show quoteString k ++ ((':' :: ' ' :: emitValue ind jv) ++ X) =
      '"' :: (((k.data.map escapeChar).flatten ++ ['"']) ++
        ((':' :: ' ' :: emitValue ind jv) ++ X)) from by simp [quoteString]]
    exact skipJsonWs_cons_not_ws _ (by decide)
  | cons m2 ms2 =>
    obtain ⟨k2, jv2⟩ := m2
    refine ⟨((k.data.map escapeChar).flatten ++ ['"']) ++
      ((':' :: ' ' :: (emitValue ind jv ++
        (',' :: '\n' :: emitMembers ind k2 jv2 ms2))) ++ X), ?_⟩
    rw [emitMembers_cons_eq]
    rw [show ('\n' :: ((List.replicate ind ' ' ++ (quoteString k ++ (':' :: ' ' ::
        (emitValue ind jv ++ (',' :: '\n' :: emitMembers ind k2 jv2 ms2))))) ++ X)) =
      ('\n' :: List.replicate ind ' ') ++ (quoteString k ++
        ((':' :: ' ' :: (emitValue ind jv ++
          (',' :: '\n' :: emitMembers ind k2 jv2 ms2))) ++ X)) from by simp]
    rw [skipJsonWs_append _ ws_of_mem_nl_replicate]
    rw [show quoteString k ++ ((':' :: ' ' :: (emitValue ind jv ++
        (',' :: '\n' :: emitMembers ind k2 jv2 ms2))) ++ X) =
      '"' :: (((k.data.map escapeChar).flatten ++ ['"']) ++
        ((':' :: ' ' :: (emitValue ind jv ++
          (',' :: '\n' :: emitMembers ind k2 jv2 ms2))) ++ X)) from by simp [quoteString]]
    exact skipJsonWs_cons_not_ws _ (by decide)


theorem parse_emit_roundTrip (fuel : Nat) :
    (∀ v ind rest, (emitValue ind v).length < fuel → numSafe rest = true →
      parseValue fuel (emitValue ind v ++ rest) = some (v, rest)) ∧
    (∀ ind v vs suffix rest2, 1 ≤ ind → skipJsonWs suffix = ']' :: rest2 →
      (emitElems ind v vs).length < fuel →
      parseElems fuel (emitElems ind v vs ++ suffix) = some (v :: vs, rest2)) ∧
    (∀ ind k jv ms suffix rest2, 1 ≤ ind → skipJsonWs suffix = '}' :: rest2 →
      (emitMembers ind k jv ms).length < fuel →
      parseMembers fuel (emitMembers ind k jv ms ++ suffix) = some ((k, jv) :: ms, rest2)) := by
  induction fuel using Nat.strong_induction_on with
  | _ fuel ih =>
    refine ⟨?_, ?_, ?_⟩
    · -- parseValue component
      intro v ind rest hlen hsafe
      cases fuel with
      | zero => exact absurd hlen (Nat.not_lt_zero _)
      | succ f =>
        cases v with
        | null =>
          rw [show emitValue ind Json.null = ['n', 'u', 'l', 'l'] from by simp [emitValue]]
          exact parseValue_lit_null f rest
        | bool b =>
          cases b with
          | true =>
            rw [show emitValue ind (Json.bool true) = ['t', 'r', 'u', 'e'] from by
              simp [emitValue]]
            exact parseValue_lit_true f rest
          | false =>
            rw [show emitValue ind (Json.bool false) = ['f', 'a', 'l', 's', 'e'] from by
              simp [emitValue]]
            exact parseValue_lit_false f rest
        | num n =>
          rw [show emitValue ind (Json.num n) = intToChars n from by simp [emitValue]]
          exact parseValue_intToChars f n rest hsafe
        | str s =>
          rw [show emitValue ind (Json.str s) = quoteString s from by simp [emitValue]]
          rw [show quoteString s ++ rest =
            '"' :: ((s.data.map escapeChar).flatten ++ '"' :: rest) from by
              simp [quoteString]]
          rw [parseValue_str_head, parseStringBody_escape]
          rfl
        | arr elems =>
          cases elems with
          | nil =>
            rw [show emitValue ind (Json.arr []) = ['[', ']'] from by simp [emitValue]]
            exact parseValue_arr_nil f
              (show skipJsonWs (']' :: rest) = ']' :: rest from
                skipJsonWs_cons_not_ws _ (by decide))
          | cons v vs =>
            rw [emitValue_arr_cons_eq] at hlen ⊢
            rw [show ('[' :: '\n' :: (emitElems (ind + 2) v vs ++
                ('\n' :: (List.replicate ind ' ' ++ [']'])))) ++ rest =
              '[' :: ('\n' :: (emitElems (ind + 2) v vs ++
                ('\n' :: (List.replicate ind ' ' ++ ']' :: rest)))) from by simp]
            have hskipS : skipJsonWs ('\n' :: (List.replicate ind ' ' ++ ']' :: rest)) =
                ']' :: rest := by
              rw [show ('\n' :: (List.replicate ind ' ' ++ ']' :: rest)) =
                ('\n' :: List.replicate ind ' ') ++ ']' :: rest from by simp]
              rw [skipJsonWs_append _ ws_of_mem_nl_replicate]
              exact skipJsonWs_cons_not_ws _ (by decide)
            obtain ⟨c0, Z, hskipr, hne0, -⟩ :=
              skip_nl_emitElems (ind + 2) v vs ('\n' :: (List.replicate ind ' ' ++ ']' :: rest))
            rw [parseValue_arr_cons f hskipr hne0]
            rw [show ('\n' :: (emitElems (ind + 2) v vs ++
                ('\n' :: (List.replicate ind ' ' ++ ']' :: rest)))) =
              ['\n'] ++ (emitElems (ind + 2) v vs ++
                ('\n' :: (List.replicate ind ' ' ++ ']' :: rest))) from rfl]
            rw [parseElems_ws_drop f _ ws_of_mem_nl]
            have hlenE : (emitElems (ind + 2) v vs).length < f := by
              simp only [List.length_cons, List.length_append, List.length_replicate] at hlen
              omega
            rw [(ih f (by omega)).2.1 (ind + 2) v vs _ rest (by omega) hskipS hlenE]
            rfl
        | obj members =>
          cases members with
          | nil =>
            rw [show emitValue ind (Json.obj []) = ['{', '}'] from by simp [emitValue]]
            exact parseValue_obj_nil f
              (show skipJsonWs ('}' :: rest) = '}' :: rest from
                skipJsonWs_cons_not_ws _ (by decide))
          | cons m ms =>
            obtain ⟨k, jv⟩ := m
            rw [emitValue_obj_cons_eq] at hlen ⊢
            rw [show ('{' :: '\n' :: (emitMembers (ind + 2) k jv ms ++
                ('\n' :: (List.replicate ind ' ' ++ ['}'])))) ++ rest =
              '{' :: ('\n' :: (emitMembers (ind + 2) k jv ms ++
                ('\n' :: (List.replicate ind ' ' ++ '}' :: rest)))) from by simp]
            have hskipS : skipJsonWs ('\n' :: (List.replicate ind ' ' ++ '}' :: rest)) =
                '}' :: rest := by
              rw [show ('\n' :: (List.replicate ind ' ' ++ '}' :: rest)) =
                ('\n' :: List.replicate ind ' ') ++ '}' :: rest from by simp]
              rw [skipJsonWs_append _ ws_of_mem_nl_replicate]
              exact skipJsonWs_cons_not_ws _ (by decide)
            obtain ⟨Z, hskipr⟩ :=
              skip_nl_emitMembers (ind + 2) k jv ms
                ('\n' :: (List.replicate ind ' ' ++ '}' :: rest))
            rw [parseValue_obj_cons f hskipr (by decide)]
            rw [show ('\n' :: (emitMembers (ind + 2) k jv ms ++
                ('\n' :: (List.replicate ind ' ' ++ '}' :: rest)))) =
              ['\n'] ++ (emitMembers (ind + 2) k jv ms ++
                ('\n' :: (List.replicate ind ' ' ++ '}' :: rest))) from rfl]
            rw [parseMembers_ws_drop f _ ws_of_mem_nl]
            have hlenM : (emitMembers (ind + 2) k jv ms).length < f := by
              simp only [List.length_cons, List.length_append, List.length_replicate] at hlen
              omega
            rw [(ih f (by omega)).2.2 (ind + 2) k jv ms _ rest (by omega) hskipS hlenM]
            rfl
    · -- parseElems component
      intro ind v vs suffix rest2 hind hsuf hlen
      cases fuel with
      | zero => exact absurd hlen (Nat.not_lt_zero _)
      | succ f =>
        cases vs with
        | nil =>
          rw [emitElems_nil_eq] at hlen ⊢
          have hlenV : (emitValue ind v).length < f := by
            simp only [List.length_append, List.length_replicate] at hlen
            omega
          have hnum : numSafe suffix = true := numSafe_of_skip hsuf (Or.inl (by decide))
          rw [show (List.replicate ind ' ' ++ emitValue ind v) ++ suffix =
            List.replicate ind ' ' ++ (emitValue ind v ++ suffix) from by simp]
          have hval : parseValue f (List.replicate ind ' ' ++ (emitValue ind v ++ suffix)) =
              some (v, suffix) := by
            rw [parseValue_ws_drop f _ ws_of_mem_replicate]
            exact (ih f (by omega)).1 v ind suffix hlenV hnum
          rw [parseElems_succ_close f hval hsuf]
        | cons w ws =>
          rw [emitElems_cons_eq] at hlen ⊢
          have hposV := emitValue_length_pos ind v
          have hlenV : (emitValue ind v).length < f := by
            simp only [List.length_append, List.length_cons, List.length_replicate] at hlen
            omega
          have hlenE2 : (emitElems ind w ws).length < f := by
            simp only [List.length_append, List.length_cons, List.length_replicate] at hlen
            omega
          rw [show (List.replicate ind ' ' ++ (emitValue ind v ++
              (',' :: '\n' :: emitElems ind w ws))) ++ suffix =
            List.replicate ind ' ' ++ (emitValue ind v ++
              (',' :: ('\n' :: (emitElems ind w ws ++ suffix)))) from by simp]
          have hval : parseValue f (List.replicate ind ' ' ++ (emitValue ind v ++
              (',' :: ('\n' :: (emitElems ind w ws ++ suffix))))) =
              some (v, ',' :: ('\n' :: (emitElems ind w ws ++ suffix))) := by
            rw [parseValue_ws_drop f _ ws_of_mem_replicate]
            exact (ih f (by omega)).1 v ind _ hlenV (by rfl)
          rw [parseElems_succ_comma f hval]
          rw [show ('\n' :: (emitElems ind w ws ++ suffix)) =
            ['\n'] ++ (emitElems ind w ws ++ suffix) from rfl]
          rw [parseElems_ws_drop f _ ws_of_mem_nl]
          rw [(ih f (by omega)).2.1 ind w ws suffix rest2 hind hsuf hlenE2]
          rfl
    · -- parseMembers component
      intro ind k jv ms suffix rest2 hind hsuf hlen
      cases fuel with
      | zero => exact absurd hlen (Nat.not_lt_zero _)
      | succ f =>
        have hq := quoteString_len k
        cases ms with
        | nil =>
          rw [emitMembers_nil_eq] at hlen ⊢
          have hlenV : (emitValue ind jv).length < f := by
            rw [List.length_append, List.length_append, hq] at hlen
            simp only [List.length_cons, List.length_replicate] at hlen
            omega
          have hnum : numSafe suffix = true := numSafe_of_skip hsuf (Or.inr (by decide))
          rw [show (List.replicate ind ' ' ++ (quoteString k ++
              (':' :: ' ' :: emitValue ind jv))) ++ suffix =
            List.replicate ind ' ' ++ ('"' :: (((k.data.map escapeChar).flatten ++
              '"' :: (':' :: (' ' :: (emitValue ind jv ++ suffix)))))) from by
                simp [quoteString]]
          have hskipl : skipJsonWs (List.replicate ind ' ' ++ ('"' ::
              (((k.data.map escapeChar).flatten ++
                '"' :: (':' :: (' ' :: (emitValue ind jv ++ suffix))))))) =
              '"' :: (((k.data.map escapeChar).flatten ++
                '"' :: (':' :: (' ' :: (emitValue ind jv ++ suffix))))) := by
            rw [skipJsonWs_append _ ws_of_mem_replicate]
            exact skipJsonWs_cons_not_ws _ (by decide)
          have hbody := parseStringBody_escape k.data
            (':' :: (' ' :: (emitValue ind jv ++ suffix)))
          have hcolon : skipJsonWs (':' :: (' ' :: (emitValue ind jv ++ suffix))) =
              ':' :: (' ' :: (emitValue ind jv ++ suffix)) :=
            skipJsonWs_cons_not_ws _ (by decide)
          have hval : parseValue f (' ' :: (emitValue ind jv ++ suffix)) =
              some (jv, suffix) := by
            rw [show (' ' :: (emitValue ind jv ++ suffix)) =
              [' '] ++ (emitValue ind jv ++ suffix) from rfl]
            rw [parseValue_ws_drop f _ ws_of_mem_sp]
            exact (ih f (by omega)).1 jv ind suffix hlenV hnum
          rw [parseMembers_full_close f hskipl hbody hcolon hval hsuf]
        | cons m2 ms2 =>
          obtain ⟨k2, jv2⟩ := m2
          rw [emitMembers_cons_eq] at hlen ⊢
          have hposV := emitValue_length_pos ind jv
          have hlenV : (emitValue ind jv).length < f := by
            simp only [List.length_append, List.length_cons, List.length_replicate, hq] at hlen
            omega
          have hlenM2 : (emitMembers ind k2 jv2 ms2).length < f := by
            simp only [List.length_append, List.length_cons, List.length_replicate, hq] at hlen
            omega
          rw [show (List.replicate ind ' ' ++ (quoteString k ++ (':' :: ' ' ::
              (emitValue ind jv ++ (',' :: '\n' :: emitMembers ind k2 jv2 ms2))))) ++ suffix =
            List.replicate ind ' ' ++ ('"' :: (((k.data.map escapeChar).flatten ++
              '"' :: (':' :: (' ' :: (emitValue ind jv ++ (',' ::
                ('\n' :: (emitMembers ind k2 jv2 ms2 ++ suffix))))))))) from by
                  simp [quoteString]]
          have hskipl : skipJsonWs (List.replicate ind ' ' ++ ('"' ::
              (((k.data.map escapeChar).flatten ++
                '"' :: (':' :: (' ' :: (emitValue ind jv ++ (',' ::
                  ('\n' :: (emitMembers ind k2 jv2 ms2 ++ suffix)))))))))) =
              '"' :: (((k.data.map escapeChar).flatten ++
                '"' :: (':' :: (' ' :: (emitValue ind jv ++ (',' ::
                  ('\n' :: (emitMembers ind k2 jv2 ms2 ++ suffix)))))))) := by
            rw [skipJsonWs_append _ ws_of_mem_replicate]
            exact skipJsonWs_cons_not_ws _ (by decide)
          have hbody := parseStringBody_escape k.data
            (':' :: (' ' :: (emitValue ind jv ++ (',' ::
              ('\n' :: (emitMembers ind k2 jv2 ms2 ++ suffix))))))
          have hcolon : skipJsonWs (':' :: (' ' :: (emitValue ind jv ++ (',' ::
              ('\n' :: (emitMembers ind k2 jv2 ms2 ++ suffix)))))) =
              ':' :: (' ' :: (emitValue ind jv ++ (',' ::
                ('\n' :: (emitMembers ind k2 jv2 ms2 ++ suffix))))) :=
            skipJsonWs_cons_not_ws _ (by decide)
          have hval : parseValue f (' ' :: (emitValue ind jv ++ (',' ::
              ('\n' :: (emitMembers ind k2 jv2 ms2 ++ suffix))))) =
              some (jv, ',' :: ('\n' :: (emitMembers ind k2 jv2 ms2 ++ suffix))) := by
            rw [show (' ' :: (emitValue ind jv ++ (',' ::
              ('\n' :: (emitMembers ind k2 jv2 ms2 ++ suffix))))) =
              [' '] ++ (emitValue ind jv ++ (',' ::
                ('\n' :: (emitMembers ind k2 jv2 ms2 ++ suffix)))) from rfl]
            rw [parseValue_ws_drop f _ ws_of_mem_sp]
            exact (ih f (by omega)).1 jv ind _ hlenV (by rfl)
          have hnext : skipJsonWs (',' :: ('\n' :: (emitMembers ind k2 jv2 ms2 ++ suffix))) =
              ',' :: ('\n' :: (emitMembers ind k2 jv2 ms2 ++ suffix)) :=
            skipJsonWs_cons_not_ws _ (by decide)
          rw [parseMembers_full_comma f hskipl hbody hcolon hval hnext]
          rw [show ('\n' :: (emitMembers ind k2 jv2 ms2 ++ suffix)) =
            ['\n'] ++ (emitMembers ind k2 jv2 ms2 ++ suffix) from rfl]
          rw [parseMembers_ws_drop f _ ws_of_mem_nl]
          rw [(ih f (by omega)).2.2 ind k2 jv2 ms2 suffix rest2 hind hsuf hlenM2]
          rfl

theorem jsonParse_stringify (v : Json) : jsonParse (jsonStringifyPretty v) = some v := by
  have h := (parse_emit_roundTrip ((emitValue 0 v).length + 1)).1 v 0 [] (by omega) (by rfl)
  rw [List.append_nil] at h
  unfold jsonParse jsonStringifyPretty
  rw [show (String.mk (emitValue 0 v)).length = (emitValue 0 v).length from rfl]
  rw [show (String.mk (emitValue 0 v)).data = emitValue 0 v from rfl]
  rw [h]
  rfl

theorem foldl_lookup (k : String) (ms : List (String × Json)) (acc : Option Json) :
    List.foldl (fun acc m => if m.1 == k then some m.2 else acc) acc ms =
      match lookupLast ms k with
      | some r => some r
      | none => acc := by
  induction ms generalizing acc with
  | nil => simp [lookupLast]
  | cons m rest ih =>
    rw [List.foldl_cons, ih]
    rw [show lookupLast (m :: rest) k =
      List.foldl (fun acc m => if m.1 == k then some m.2 else acc)
        (if m.1 == k then some m.2 else none) rest from rfl]
    rw [ih]
    cases hl : lookupLast rest k with
    | some r => rfl
    | none =>
      by_cases hm : m.1 == k
      · rw [if_pos hm, if_pos hm]
      · rw [if_neg hm, if_neg hm]

theorem lookupLast_cons_match (m : String × Json) (ms : List (String × Json)) (k : String) :
    lookupLast (m :: ms) k =
      match lookupLast ms k with
      | some r => some r
      | none => if m.1 == k then some m.2 else none := by
  rw [show lookupLast (m :: ms) k =
    List.foldl (fun acc m => if m.1 == k then some m.2 else acc)
      (if m.1 == k then some m.2 else none) ms from rfl]
  exact foldl_lookup k ms _

theorem lookupLast_append (l1 l2 : List (String × Json)) (k : String) :
    lookupLast (l1 ++ l2) k =
      match lookupLast l2 k with
      | some r => some r
      | none => lookupLast l1 k := by
  unfold lookupLast
  rw [List.foldl_append]
  exact foldl_lookup k l2 _

theorem lookupLast_eq_none {l : List (String × Json)} {k : String}
    (h : ∀ m ∈ l, m.1 ≠ k) : lookupLast l k = none := by
  induction l with
  | nil => rfl
  | cons m rest ih =>
    rw [lookupLast_cons_match, ih (fun x hx => h x (List.mem_cons_of_mem m hx))]
    rw [if_neg (by simpa using h m (List.mem_cons_self m rest))]

theorem hintsMembers_keys (h : Hints) :
    ∀ m ∈ hintsMembers h, m.1 = "executionMode" ∨ m.1 = "parallelGroup" := by
  obtain ⟨em, pg⟩ := h
  rcases em with _ | em
  · rcases pg with _ | g
    · intro m hm
      simp [hintsMembers] at hm
    · intro m hm
      simp [hintsMembers] at hm
      simp [hm]
  · rcases em with _ | _ <;> rcases pg with _ | g <;>
      (intro m hm
       simp [hintsMembers] at hm
       first
       | (rcases hm with hm | hm <;> simp [hm])
       | simp [hm])

theorem optStrMember_keys (k : String) (v : Option String) :
    ∀ m ∈ optStrMember k v, m.1 = k := by
  cases v with
  | none => intro m hm; simp [optStrMember] at hm
  | some s =>
    intro m hm
    simp [optStrMember] at hm
    simp [hm]

theorem getField_obj (ms : List (String × Json)) (k : String) :
    Json.getField (.obj ms) k = lookupLast ms k := rfl

theorem getField_base_hints (base : List (String × Json)) (hm : Hints) (k : String)
    (hk1 : k ≠ "executionMode") (hk2 : k ≠ "parallelGroup") :
    Json.getField (.obj (base ++ hintsMembers hm)) k = lookupLast base k := by
  rw [getField_obj, lookupLast_append,
    lookupLast_eq_none (fun m hmem => by
      rcases hintsMembers_keys hm m hmem with h | h
      · rw [h]; exact fun he => hk1 he.symm
      · rw [h]; exact fun he => hk2 he.symm)]

example (x1 x2 x3 : Json) :
    lookupLast [("type", x1), ("command", x2), ("reason", x3)] "command" = some x2 := by
  simp [lookupLast_cons_match, lookupLast]

theorem lookupLast_nil (k : String) : lookupLast [] k = none := rfl

theorem getField_hints_em {base : List (String × Json)}
    (hbase : ∀ m ∈ base, m.1 ≠ "executionMode") (em : Option ExecutionMode)
    (pg : Option String) :
    (Json.obj (base ++ hintsMembers ⟨em, pg⟩)).getField "executionMode" =
      (match em with
       | some .background => some (Json.str "background")
       | some .foreground => some (Json.str "foreground")
       | none => none) := by
  rw [getField_obj, lookupLast_append]
  have hb := lookupLast_eq_none hbase
  rcases em with _ | em
  · rcases pg with _ | g <;>
      simp [hintsMembers, lookupLast_cons_match, lookupLast_nil, hb]
  · rcases em with _ | _ <;> rcases pg with _ | g <;>
      simp [hintsMembers, lookupLast_cons_match, lookupLast_nil, hb]

theorem getField_hints_pg {base : List (String × Json)}
    (hbase : ∀ m ∈ base, m.1 ≠ "parallelGroup") (em : Option ExecutionMode)
    (pg : Option String) :
    (Json.obj (base ++ hintsMembers ⟨em, pg⟩)).getField "parallelGroup" =
      (match pg with
       | some g => some (Json.str g)
       | none => none) := by
  rw [getField_obj, lookupLast_append]
  have hb := lookupLast_eq_none hbase
  rcases em with _ | em
  · rcases pg with _ | g <;>
      simp [hintsMembers, lookupLast_cons_match, lookupLast_nil, hb]
  · rcases em with _ | _ <;> rcases pg with _ | g <;>
      simp [hintsMembers, lookupLast_cons_match, lookupLast_nil, hb]

theorem parseExecutionHints_canonical (base : List (String × Json)) (h : Hints)
    (hbase : ∀ m ∈ base, m.1 ≠ "executionMode" ∧ m.1 ≠ "parallelGroup")
    (hcan : h.canonical = true) :
    parseExecutionHints (.obj (base ++ hintsMembers h)) = h := by
  obtain ⟨em, pg⟩ := h
  have hf1 := @getField_hints_em base (fun m hm => (hbase m hm).1) em pg
  have hf2 := @getField_hints_pg base (fun m hm => (hbase m hm).2) em pg
  unfold parseExecutionHints strFieldTrimmed
  rw [hf1, hf2]
  rcases em with _ | em
  · rcases pg with _ | g
    · rfl
    · simp only [Hints.canonical, canonOptStr, canonStr, Bool.and_eq_true, beq_iff_eq,
        decide_eq_true_eq] at hcan
      obtain ⟨-, htrim, hne⟩ := hcan
      simp [htrim, hne]
  · rcases em with _ | _
    · simp [Hints.canonical] at hcan
    · rcases pg with _ | g
      · rfl
      · simp only [Hints.canonical, canonOptStr, canonStr, Bool.and_eq_true, beq_iff_eq,
          decide_eq_true_eq] at hcan
        obtain ⟨-, htrim, hne⟩ := hcan
        simp [htrim, hne]

theorem validate_ssh_json (t : Target) (c : String) (ra : Bool) (r : String) (h : Hints)
    (hcan : (Action.ssh t c ra r h).canonical = true) :
    validateAction (actionToJson (.ssh t c ra r h)) = some (.ssh t c ra r h) := by
  simp only [Action.canonical, canonStr, Bool.and_eq_true, beq_iff_eq,
    decide_eq_true_eq] at hcan
  obtain ⟨⟨⟨htc, hcne⟩, htr, hrne⟩, hH⟩ := hcan
  have hbase : ∀ m ∈ [(("type" : String), Json.str "ssh"), ("command", Json.str c),
      ("target", Json.str t.name), ("requiresApproval", Json.bool ra),
      ("reason", Json.str r)], m.1 ≠ "executionMode" ∧ m.1 ≠ "parallelGroup" := by
    intro m hm
    simp only [List.mem_cons, List.not_mem_nil, or_false] at hm
    rcases hm with h | h | h | h | h <;> subst h <;> exact ⟨by simp, by simp⟩
  have hgf : ∀ k : String, k ≠ "executionMode" → k ≠ "parallelGroup" →
      (actionToJson (.ssh t c ra r h)).getField k =
        lookupLast [(("type" : String), Json.str "ssh"), ("command", Json.str c),
          ("target", Json.str t.name), ("requiresApproval", Json.bool ra),
          ("reason", Json.str r)] k := by
    intro k hk1 hk2
    exact getField_base_hints _ h k hk1 hk2
  have hft : (actionToJson (.ssh t c ra r h)).getField "type" = some (.str "ssh") := by
    rw [hgf "type" (by decide) (by decide)]
    simp [lookupLast_cons_match, lookupLast_nil]
  have hfc : (actionToJson (.ssh t c ra r h)).getField "command" = some (.str c) := by
    rw [hgf "command" (by decide) (by decide)]
    simp [lookupLast_cons_match, lookupLast_nil]
  have hftg : (actionToJson (.ssh t c ra r h)).getField "target" = some (.str t.name) := by
    rw [hgf "target" (by decide) (by decide)]
    simp [lookupLast_cons_match, lookupLast_nil]
  have hfra : (actionToJson (.ssh t c ra r h)).getField "requiresApproval" =
      some (.bool ra) := by
    rw [hgf "requiresApproval" (by decide) (by decide)]
    simp [lookupLast_cons_match, lookupLast_nil]
  have hfr : (actionToJson (.ssh t c ra r h)).getField "reason" = some (.str r) := by
    rw [hgf "reason" (by decide) (by decide)]
    simp [lookupLast_cons_match, lookupLast_nil]
  have hhints : parseExecutionHints (actionToJson (.ssh t c ra r h)) = h :=
    parseExecutionHints_canonical _ h hbase hH
  rw [validateAction]
  rw [show isObjectLike (actionToJson (.ssh t c ra r h)) = true from rfl]
  rw [hft]
  simp only [Bool.not_true, Bool.false_eq_true, if_false]
  rw [if_neg (by decide), if_neg (by decide), if_pos (by decide)]
  rw [validateSshAction]
  simp only [strFieldTrimmed, boolFieldOr, hfc, hftg, hfra, hfr, htc, htr]
  rw [if_neg (by simp [hcne, hrne])]
  cases t with
  | william =>
    rw [if_pos (by decide)]
    rw [hhints]
  | willyUbuntu =>
    rw [show (Target.willyUbuntu.name == "william") = false from by decide]
    simp only [Bool.false_eq_true, if_false]
    rw [if_pos (by decide)]
    rw [hhints]

theorem validate_reply_json : validateAction (actionToJson .reply) = some .reply := by
  rfl

theorem validate_question_json (q : String)
    (hcan : (Action.question q).canonical = true) :
    validateAction (actionToJson (.question q)) = some (.question q) := by
  simp only [Action.canonical, canonStr, Bool.and_eq_true, beq_iff_eq,
    decide_eq_true_eq] at hcan
  obtain ⟨htq, hqne⟩ := hcan
  have hft : (actionToJson (.question q)).getField "type" = some (.str "question") := by
    rw [show actionToJson (.question q) =
      .obj [("type", .str "question"), ("question", .str q)] from rfl, getField_obj]
    simp [lookupLast_cons_match, lookupLast_nil]
  have hfq : (actionToJson (.question q)).getField "question" = some (.str q) := by
    rw [show actionToJson (.question q) =
      .obj [("type", .str "question"), ("question", .str q)] from rfl, getField_obj]
    simp [lookupLast_cons_match, lookupLast_nil]
  rw [validateAction]
  rw [show isObjectLike (actionToJson (.question q)) = true from rfl]
  rw [hft]
  simp only [Bool.not_true, Bool.false_eq_true, if_false]
  rw [if_neg (by decide), if_pos (by decide)]
  rw [validateQuestionAction]
  simp only [strFieldTrimmed, hfq, htq]
  rw [if_neg hqne]

theorem validate_obsidian_json (p pa : String) (ra : Bool) (r : String) (h : Hints)
    (hcan : (Action.obsidianWrite p pa ra r h).canonical = true) :
    validateAction (actionToJson (.obsidianWrite p pa ra r h)) =
      some (.obsidianWrite p pa ra r h) := by
  simp only [Action.canonical, canonStr, Bool.and_eq_true, beq_iff_eq,
    decide_eq_true_eq] at hcan
  obtain ⟨⟨⟨⟨htp, hpne⟩, htpa, hpane⟩, htr, hrne⟩, hH⟩ := hcan
  have hbase : ∀ m ∈ [(("type" : String), Json.str "obsidian_write"), ("path", Json.str p),
      ("patch", Json.str pa), ("requiresApproval", Json.bool ra),
      ("reason", Json.str r)], m.1 ≠ "executionMode" ∧ m.1 ≠ "parallelGroup" := by
    intro m hm
    simp only [List.mem_cons, List.not_mem_nil, or_false] at hm
    rcases hm with h | h | h | h | h <;> subst h <;> exact ⟨by simp, by simp⟩
  have hgf : ∀ k : String, k ≠ "executionMode" → k ≠ "parallelGroup" →
      (actionToJson (.obsidianWrite p pa ra r h)).getField k =
        lookupLast [(("type" : String), Json.str "obsidian_write"), ("path", Json.str p),
          ("patch", Json.str pa), ("requiresApproval", Json.bool ra),
          ("reason", Json.str r)] k := by
    intro k hk1 hk2
    exact getField_base_hints _ h k hk1 hk2
  have hft := hgf "type" (by decide) (by decide)
  have hfp := hgf "path" (by decide) (by decide)
  have hfpa := hgf "patch" (by decide) (by decide)
  have hfra := hgf "requiresApproval" (by decide) (by decide)
  have hfr := hgf "reason" (by decide) (by decide)
  rw [show lookupLast [(("type" : String), Json.str "obsidian_write"), ("path", Json.str p),
    ("patch", Json.str pa), ("requiresApproval", Json.bool ra), ("reason", Json.str r)]
      "type" = some (.str "obsidian_write") from by
        simp [lookupLast_cons_match, lookupLast_nil]] at hft
  rw [show lookupLast [(("type" : String), Json.str "obsidian_write"), ("path", Json.str p),
    ("patch", Json.str pa), ("requiresApproval", Json.bool ra), ("reason", Json.str r)]
      "path" = some (.str p) from by
        simp [lookupLast_cons_match, lookupLast_nil]] at hfp
  rw [show lookupLast [(("type" : String), Json.str "obsidian_write"), ("path", Json.str p),
    ("patch", Json.str pa), ("requiresApproval", Json.bool ra), ("reason", Json.str r)]
      "patch" = some (.str pa) from by
        simp [lookupLast_cons_match, lookupLast_nil]] at hfpa
  rw [show lookupLast [(("type" : String), Json.str "obsidian_write"), ("path", Json.str p),
    ("patch", Json.str pa), ("requiresApproval", Json.bool ra), ("reason", Json.str r)]
      "requiresApproval" = some (.bool ra) from by
        simp [lookupLast_cons_match, lookupLast_nil]] at hfra
  rw [show lookupLast [(("type" : String), Json.str "obsidian_write"), ("path", Json.str p),
    ("patch", Json.str pa), ("requiresApproval", Json.bool ra), ("reason", Json.str r)]
      "reason" = some (.str r) from by
        simp [lookupLast_cons_match, lookupLast_nil]] at hfr
  have hhints : parseExecutionHints (actionToJson (.obsidianWrite p pa ra r h)) = h :=
    parseExecutionHints_canonical _ h hbase hH
  rw [validateAction]
  rw [show isObjectLike (actionToJson (.obsidianWrite p pa ra r h)) = true from rfl]
  rw [hft]
  simp only [Bool.not_true, Bool.false_eq_true, if_false]
  rw [if_neg (by decide), if_neg (by decide), if_neg (by decide), if_pos (by decide)]
  rw [validateObsidianWriteAction]
  simp only [strFieldTrimmed, boolFieldOr, hfp, hfpa, hfra, hfr, htp, htpa, htr]
  rw [if_neg (by simp [hpne, hpane, hrne])]
  rw [hhints]

theorem validate_webfetch_json (u : String) (mo : WebFetchMode) (ra : Bool) (r : String)
    (ex : Option String) (h : Hints)
    (hcan : (Action.webFetch u mo ra r ex h).canonical = true) :
    validateAction (actionToJson (.webFetch u mo ra r ex h)) =
      some (.webFetch u mo ra r ex h) := by
  simp only [Action.canonical, canonStr, Bool.and_eq_true, beq_iff_eq,
    decide_eq_true_eq] at hcan
  obtain ⟨⟨⟨⟨⟨htu, hune⟩, hproto⟩, htr, hrne⟩, hex⟩, hH⟩ := hcan
  have hbase : ∀ m ∈ [(("type" : String), Json.str "web_fetch"), ("url", Json.str u),
      ("mode", Json.str mo.name), ("requiresApproval", Json.bool ra),
      ("reason", Json.str r)] ++ optStrMember "extract" ex,
      m.1 ≠ "executionMode" ∧ m.1 ≠ "parallelGroup" := by
    intro m hm
    rcases List.mem_append.mp hm with hm | hm
    · simp only [List.mem_cons, List.not_mem_nil, or_false] at hm
      rcases hm with h | h | h | h | h <;> subst h <;> exact ⟨by simp, by simp⟩
    · have := optStrMember_keys "extract" ex m hm
      rw [this]
      exact ⟨by simp, by simp⟩
  have hgf : ∀ k : String, k ≠ "executionMode" → k ≠ "parallelGroup" →
      (actionToJson (.webFetch u mo ra r ex h)).getField k =
        lookupLast ([(("type" : String), Json.str "web_fetch"), ("url", Json.str u),
          ("mode", Json.str mo.name), ("requiresApproval", Json.bool ra),
          ("reason", Json.str r)] ++ optStrMember "extract" ex) k := by
    intro k hk1 hk2
    exact getField_base_hints _ h k hk1 hk2
  have hoptne : ∀ k : String, k ≠ "extract" →
      lookupLast (optStrMember "extract" ex) k = none := by
    intro k hk
    exact lookupLast_eq_none (fun m hm => by
      rw [optStrMember_keys "extract" ex m hm]
      exact fun he => hk he.symm)
  have hft : (actionToJson (.webFetch u mo ra r ex h)).getField "type" =
      some (.str "web_fetch") := by
    rw [hgf "type" (by decide) (by decide), lookupLast_append, hoptne "type" (by decide)]
    simp [lookupLast_cons_match, lookupLast_nil]
  have hfu : (actionToJson (.webFetch u mo ra r ex h)).getField "url" = some (.str u) := by
    rw [hgf "url" (by decide) (by decide), lookupLast_append, hoptne "url" (by decide)]
    simp [lookupLast_cons_match, lookupLast_nil]
  have hfm : (actionToJson (.webFetch u mo ra r ex h)).getField "mode" =
      some (.str mo.name) := by
    rw [hgf "mode" (by decide) (by decide), lookupLast_append, hoptne "mode" (by decide)]
    simp [lookupLast_cons_match, lookupLast_nil]
  have hfra : (actionToJson (.webFetch u mo ra r ex h)).getField "requiresApproval" =
      some (.bool ra) := by
    rw [hgf "requiresApproval" (by decide) (by decide), lookupLast_append,
      hoptne "requiresApproval" (by decide)]
    simp [lookupLast_cons_match, lookupLast_nil]
  have hfr : (actionToJson (.webFetch u mo ra r ex h)).getField "reason" =
      some (.str r) := by
    rw [hgf "reason" (by decide) (by decide), lookupLast_append, hoptne "reason" (by decide)]
    simp [lookupLast_cons_match, lookupLast_nil]
  have hfex : (actionToJson (.webFetch u mo ra r ex h)).getField "extract" =
      (match ex with
       | some e => some (Json.str e)
       | none => none) := by
    rw [hgf "extract" (by decide) (by decide), lookupLast_append]
    cases ex with
    | none => simp [optStrMember, lookupLast_nil, lookupLast_cons_match]
    | some e => simp [optStrMember, lookupLast_cons_match, lookupLast_nil]
  have hhints : parseExecutionHints (actionToJson (.webFetch u mo ra r ex h)) = h :=
    parseExecutionHints_canonical _ h hbase hH
  have hmodetrim : jsTrim mo.name = mo.name := by
    cases mo <;> decide
  rw [validateAction]
  rw [show isObjectLike (actionToJson (.webFetch u mo ra r ex h)) = true from rfl]
  rw [hft]
  simp only [Bool.not_true, Bool.false_eq_true, if_false]
  rw [if_neg (by decide), if_neg (by decide), if_neg (by decide), if_neg (by decide),
    if_pos (by decide)]
  rw [validateWebFetchAction]
  simp only [strFieldTrimmed, boolFieldOr, optStrFieldTrimmed, hfu, hfm, hfra, hfr, hfex,
    htu, htr, hmodetrim]
  have hmode : (if (mo.name == "browser") = true then WebFetchMode.browser
      else WebFetchMode.http) = mo := by
    cases mo <;> decide
  rw [hmode]
  rw [if_neg (by simp [hune, hrne])]
  rw [show urlProtocolOk u = true from hproto, if_neg (by decide)]
  rw [hhints]
  cases ex with
  | none => rfl
  | some e =>
    have hex2 : jsTrim e = e ∧ e ≠ "" := by
      simp only [canonOptStr, canonStr, Bool.and_eq_true, beq_iff_eq,
        decide_eq_true_eq] at hex
      exact hex
    simp only [Option.some.injEq, Action.webFetch.injEq, true_and]
    simp [hex2.1, hex2.2]

theorem validate_imagetotext_json (u : String) (ra : Bool) (r : String)
    (pr : Option String) (h : Hints)
    (hcan : (Action.imageToText u ra r pr h).canonical = true) :
    validateAction (actionToJson (.imageToText u ra r pr h)) =
      some (.imageToText u ra r pr h) := by
  simp only [Action.canonical, canonStr, Bool.and_eq_true, beq_iff_eq,
    decide_eq_true_eq] at hcan
  obtain ⟨⟨⟨⟨⟨htu, hune⟩, hproto⟩, htr, hrne⟩, hpr⟩, hH⟩ := hcan
  have hbase : ∀ m ∈ [(("type" : String), Json.str "image_to_text"),
      ("imageUrl", Json.str u), ("reason", Json.str r),
      ("requiresApproval", Json.bool ra)] ++ optStrMember "prompt" pr,
      m.1 ≠ "executionMode" ∧ m.1 ≠ "parallelGroup" := by
    intro m hm
    rcases List.mem_append.mp hm with hm | hm
    · simp only [List.mem_cons, List.not_mem_nil, or_false] at hm
      rcases hm with h | h | h | h <;> subst h <;> exact ⟨by simp, by simp⟩
    · have := optStrMember_keys "prompt" pr m hm
      rw [this]
      exact ⟨by simp, by simp⟩
  have hgf : ∀ k : String, k ≠ "executionMode" → k ≠ "parallelGroup" →
      (actionToJson (.imageToText u ra r pr h)).getField k =
        lookupLast ([(("type" : String), Json.str "image_to_text"),
          ("imageUrl", Json.str u), ("reason", Json.str r),
          ("requiresApproval", Json.bool ra)] ++ optStrMember "prompt" pr) k := by
    intro k hk1 hk2
    exact getField_base_hints _ h k hk1 hk2
  have hoptne : ∀ k : String, k ≠ "prompt" →
      lookupLast (optStrMember "prompt" pr) k = none := by
    intro k hk
    exact lookupLast_eq_none (fun m hm => by
      rw [optStrMember_keys "prompt" pr m hm]
      exact fun he => hk he.symm)
  have hft : (actionToJson (.imageToText u ra r pr h)).getField "type" =
      some (.str "image_to_text") := by
    rw [hgf "type" (by decide) (by decide), lookupLast_append, hoptne "type" (by decide)]
    simp [lookupLast_cons_match, lookupLast_nil]
  have hfu : (actionToJson (.imageToText u ra r pr h)).getField "imageUrl" =
      some (.str u) := by
    rw [hgf "imageUrl" (by decide) (by decide), lookupLast_append,
      hoptne "imageUrl" (by decide)]
    simp [lookupLast_cons_match, lookupLast_nil]
  have hfra : (actionToJson (.imageToText u ra r pr h)).getField "requiresApproval" =
      some (.bool ra) := by
    rw [hgf "requiresApproval" (by decide) (by decide), lookupLast_append,
      hoptne "requiresApproval" (by decide)]
    simp [lookupLast_cons_match, lookupLast_nil]
  have hfr : (actionToJson (.imageToText u ra r pr h)).getField "reason" =
      some (.str r) := by
    rw [hgf "reason" (by decide) (by decide), lookupLast_append, hoptne "reason" (by decide)]
    simp [lookupLast_cons_match, lookupLast_nil]
  have hfpr : (actionToJson (.imageToText u ra r pr h)).getField "prompt" =
      (match pr with
       | some e => some (Json.str e)
       | none => none) := by
    rw [hgf "prompt" (by decide) (by decide), lookupLast_append]
    cases pr with
    | none => simp [optStrMember, lookupLast_nil, lookupLast_cons_match]
    | some e => simp [optStrMember, lookupLast_cons_match, lookupLast_nil]
  have hhints : parseExecutionHints (actionToJson (.imageToText u ra r pr h)) = h :=
    parseExecutionHints_canonical _ h hbase hH
  rw [validateAction]
  rw [show isObjectLike (actionToJson (.imageToText u ra r pr h)) = true from rfl]
  rw [hft]
  simp only [Bool.not_true, Bool.false_eq_true, if_false]
  rw [if_neg (by decide), if_neg (by decide), if_neg (by decide), if_neg (by decide),
    if_neg (by decide), if_pos (by decide)]
  rw [validateImageToTextAction]
  simp only [strFieldTrimmed, boolFieldOr, optStrFieldTrimmed, hfu, hfra, hfr, hfpr,
    htu, htr]
  rw [if_neg (by simp [hune, hrne])]
  rw [show urlProtocolOk u = true from hproto, if_neg (by decide)]
  rw [hhints]
  cases pr with
  | none => rfl
  | some e =>
    have hpr2 : jsTrim e = e ∧ e ≠ "" := by
      simp only [canonOptStr, canonStr, Bool.and_eq_true, beq_iff_eq,
        decide_eq_true_eq] at hpr
      exact hpr
    simp only [Option.some.injEq, Action.imageToText.injEq, true_and]
    simp [hpr2.1, hpr2.2]

theorem validate_voicetotext_json (u : String) (ra : Bool) (r : String)
    (lg : Option String) (h : Hints)
    (hcan : (Action.voiceToText u ra r lg h).canonical = true) :
    validateAction (actionToJson (.voiceToText u ra r lg h)) =
      some (.voiceToText u ra r lg h) := by
  simp only [Action.canonical, canonStr, Bool.and_eq_true, beq_iff_eq,
    decide_eq_true_eq] at hcan
  obtain ⟨⟨⟨⟨⟨htu, hune⟩, hproto⟩, htr, hrne⟩, hlg⟩, hH⟩ := hcan
  have hbase : ∀ m ∈ [(("type" : String), Json.str "voice_to_text"),
      ("audioUrl", Json.str u), ("reason", Json.str r),
      ("requiresApproval", Json.bool ra)] ++ optStrMember "language" lg,
      m.1 ≠ "executionMode" ∧ m.1 ≠ "parallelGroup" := by
    intro m hm
    rcases List.mem_append.mp hm with hm | hm
    · simp only [List.mem_cons, List.not_mem_nil, or_false] at hm
      rcases hm with h | h | h | h <;> subst h <;> exact ⟨by simp, by simp⟩
    · have := optStrMember_keys "language" lg m hm
      rw [this]
      exact ⟨by simp, by simp⟩
  have hgf : ∀ k : String, k ≠ "executionMode" → k ≠ "parallelGroup" →
      (actionToJson (.voiceToText u ra r lg h)).getField k =
        lookupLast ([(("type" : String), Json.str "voice_to_text"),
          ("audioUrl", Json.str u), ("reason", Json.str r),
          ("requiresApproval", Json.bool ra)] ++ optStrMember "language" lg) k := by
    intro k hk1 hk2
    exact getField_base_hints _ h k hk1 hk2
  have hoptne : ∀ k : String, k ≠ "language" →
      lookupLast (optStrMember "language" lg) k = none := by
    intro k hk
    exact lookupLast_eq_none (fun m hm => by
      rw [optStrMember_keys "language" lg m hm]
      exact fun he => hk he.symm)
  have hft : (actionToJson (.voiceToText u ra r lg h)).getField "type" =
      some (.str "voice_to_text") := by
    rw [hgf "type" (by decide) (by decide), lookupLast_append, hoptne "type" (by decide)]
    simp [lookupLast_cons_match, lookupLast_nil]
  have hfu : (actionToJson (.voiceToText u ra r lg h)).getField "audioUrl" =
      some (.str u) := by
    rw [hgf "audioUrl" (by decide) (by decide), lookupLast_append,
      hoptne "audioUrl" (by decide)]
    simp [lookupLast_cons_match, lookupLast_nil]
  have hfra : (actionToJson (.voiceToText u ra r lg h)).getField "requiresApproval" =
      some (.bool ra) := by
    rw [hgf "requiresApproval" (by decide) (by decide), lookupLast_append,
      hoptne "requiresApproval" (by decide)]
    simp [lookupLast_cons_match, lookupLast_nil]
  have hfr : (actionToJson (.voiceToText u ra r lg h)).getField "reason" =
      some (.str r) := by
    rw [hgf "reason" (by decide) (by decide), lookupLast_append, hoptne "reason" (by decide)]
    simp [lookupLast_cons_match, lookupLast_nil]
  have hflg : (actionToJson (.voiceToText u ra r lg h)).getField "language" =
      (match lg with
       | some e => some (Json.str e)
       | none => none) := by
    rw [hgf "language" (by decide) (by decide), lookupLast_append]
    cases lg with
    | none => simp [optStrMember, lookupLast_nil, lookupLast_cons_match]
    | some e => simp [optStrMember, lookupLast_cons_match, lookupLast_nil]
  have hhints : parseExecutionHints (actionToJson (.voiceToText u ra r lg h)) = h :=
    parseExecutionHints_canonical _ h hbase hH
  rw [validateAction]
  rw [show isObjectLike (actionToJson (.voiceToText u ra r lg h)) = true from rfl]
  rw [hft]
  simp only [Bool.not_true, Bool.false_eq_true, if_false]
  rw [if_neg (by decide), if_neg (by decide), if_neg (by decide), if_neg (by decide),
    if_neg (by decide), if_neg (by decide), if_pos (by decide)]
  rw [validateVoiceToTextAction]
  simp only [strFieldTrimmed, boolFieldOr, optStrFieldTrimmed, hfu, hfra, hfr, hflg,
    htu, htr]
  rw [if_neg (by simp [hune, hrne])]
  rw [show urlProtocolOk u = true from hproto, if_neg (by decide)]
  rw [hhints]
  cases lg with
  | none => rfl
  | some e =>
    have hlg2 : jsTrim e = e ∧ e ≠ "" := by
      simp only [canonOptStr, canonStr, Bool.and_eq_true, beq_iff_eq,
        decide_eq_true_eq] at hlg
      exact hlg
    simp only [Option.some.injEq, Action.voiceToText.injEq, true_and]
    simp [hlg2.1, hlg2.2]

theorem validate_opencode_json (t : String) (ra : Bool) (r : String)
    (cwd : Option String) (timeout : Option Int) (h : Hints)
    (hcan : (Action.opencodeServe t ra r cwd timeout h).canonical = true) :
    validateAction (actionToJson (.opencodeServe t ra r cwd timeout h)) =
      some (.opencodeServe t ra r cwd timeout h) := by
  have hATJ : actionToJson (.opencodeServe t ra r cwd timeout h) =
      .obj (([(("type" : String), Json.str "opencode_serve"), ("task", Json.str t),
        ("reason", Json.str r), ("requiresApproval", Json.bool ra)] ++
        optStrMember "cwd" cwd ++ timeoutMember timeout) ++ hintsMembers h) := by
    cases timeout <;> rfl
  have hbase : ∀ m ∈ [(("type" : String), Json.str "opencode_serve"),
      ("task", Json.str t), ("reason", Json.str r),
      ("requiresApproval", Json.bool ra)] ++ optStrMember "cwd" cwd ++
      timeoutMember timeout, m.1 ≠ "executionMode" ∧ m.1 ≠ "parallelGroup" := by
    intro m hm
    rcases List.mem_append.mp hm with hm | hm
    · rcases List.mem_append.mp hm with hm | hm
      · simp only [List.mem_cons, List.not_mem_nil, or_false] at hm
        rcases hm with h | h | h | h <;> subst h <;> exact ⟨by simp, by simp⟩
      · have := optStrMember_keys "cwd" cwd m hm
        rw [this]
        exact ⟨by simp, by simp⟩
    · cases timeout with
      | none => simp [timeoutMember] at hm
      | some n =>
        simp only [timeoutMember, List.mem_singleton] at hm
        subst hm
        exact ⟨by simp, by simp⟩
  have hoptne : ∀ k : String, k ≠ "cwd" →
      lookupLast (optStrMember "cwd" cwd) k = none := by
    intro k hk
    exact lookupLast_eq_none (fun m hm => by
      rw [optStrMember_keys "cwd" cwd m hm]
      exact fun he => hk he.symm)
  have htone : ∀ k : String, k ≠ "timeout" →
      lookupLast (timeoutMember timeout) k = none := by
    intro k hk
    cases timeout with
    | none => rfl
    | some n =>
      rw [show timeoutMember (some n) = [(("timeout" : String), Json.num n)] from rfl,
        lookupLast_cons_match, lookupLast_nil]
      simp only []
      rw [if_neg (by simpa using fun he => hk he.symm)]
  have hgf : ∀ k : String, k ≠ "executionMode" → k ≠ "parallelGroup" →
      (actionToJson (.opencodeServe t ra r cwd timeout h)).getField k =
        lookupLast ([(("type" : String), Json.str "opencode_serve"),
          ("task", Json.str t), ("reason", Json.str r),
          ("requiresApproval", Json.bool ra)] ++ optStrMember "cwd" cwd ++
          timeoutMember timeout) k := by
    intro k hk1 hk2
    rw [hATJ]
    exact getField_base_hints _ h k hk1 hk2
  have hft : (actionToJson (.opencodeServe t ra r cwd timeout h)).getField "type" =
      some (.str "opencode_serve") := by
    rw [hgf "type" (by decide) (by decide), lookupLast_append, htone "type" (by decide),
      lookupLast_append, hoptne "type" (by decide)]
    simp [lookupLast_cons_match, lookupLast_nil]
  have hftk : (actionToJson (.opencodeServe t ra r cwd timeout h)).getField "task" =
      some (.str t) := by
    rw [hgf "task" (by decide) (by decide), lookupLast_append, htone "task" (by decide),
      lookupLast_append, hoptne "task" (by decide)]
    simp [lookupLast_cons_match, lookupLast_nil]
  have hfra : (actionToJson (.opencodeServe t ra r cwd timeout h)).getField
      "requiresApproval" = some (.bool ra) := by
    rw [hgf "requiresApproval" (by decide) (by decide), lookupLast_append,
      htone "requiresApproval" (by decide), lookupLast_append,
      hoptne "requiresApproval" (by decide)]
    simp [lookupLast_cons_match, lookupLast_nil]
  have hfr : (actionToJson (.opencodeServe t ra r cwd timeout h)).getField "reason" =
      some (.str r) := by
    rw [hgf "reason" (by decide) (by decide), lookupLast_append, htone "reason" (by decide),
      lookupLast_append, hoptne "reason" (by decide)]
    simp [lookupLast_cons_match, lookupLast_nil]
  have hfcwd : (actionToJson (.opencodeServe t ra r cwd timeout h)).getField "cwd" =
      (match cwd with
       | some e => some (Json.str e)
       | none => none) := by
    rw [hgf "cwd" (by decide) (by decide), lookupLast_append, htone "cwd" (by decide),
      lookupLast_append]
    cases cwd with
    | none => simp [optStrMember, lookupLast_nil, lookupLast_cons_match]
    | some e => simp [optStrMember, lookupLast_cons_match, lookupLast_nil]
  have hfto : (actionToJson (.opencodeServe t ra r cwd timeout h)).getField "timeout" =
      (timeoutMember timeout).head?.map Prod.snd := by
    rw [hgf "timeout" (by decide) (by decide), lookupLast_append]
    cases timeout with
    | none =>
      rw [show lookupLast (timeoutMember none) "timeout" = none from rfl]
      rw [lookupLast_append, hoptne "timeout" (by decide)]
      simp [lookupLast_cons_match, lookupLast_nil, timeoutMember]
    | some n =>
      rw [show timeoutMember (some n) = [(("timeout" : String), Json.num n)] from rfl,
        lookupLast_cons_match, lookupLast_nil]
      simp [timeoutMember]
  simp only [Action.canonical, Bool.and_eq_true] at hcan
  obtain ⟨⟨⟨⟨hct, hcr⟩, hcwd⟩, hto⟩, hH⟩ := hcan
  have hts : jsTrim t = t ∧ t ≠ "" := by
    simp only [canonStr, Bool.and_eq_true, beq_iff_eq, decide_eq_true_eq] at hct
    exact hct
  have hrs : jsTrim r = r ∧ r ≠ "" := by
    simp only [canonStr, Bool.and_eq_true, beq_iff_eq, decide_eq_true_eq] at hcr
    exact hcr
  obtain ⟨htt, htne⟩ := hts
  obtain ⟨htr, hrne⟩ := hrs
  have hhints : parseExecutionHints (actionToJson (.opencodeServe t ra r cwd timeout h)) =
      h := by
    rw [hATJ]
    exact parseExecutionHints_canonical _ h hbase hH
  rw [validateAction]
  rw [show isObjectLike (actionToJson (.opencodeServe t ra r cwd timeout h)) = true from by
    rw [hATJ]
    rfl]
  rw [hft]
  simp only [Bool.not_true, Bool.false_eq_true, if_false]
  rw [if_neg (by decide), if_neg (by decide), if_neg (by decide), if_neg (by decide),
    if_neg (by decide), if_neg (by decide), if_neg (by decide), if_pos (by decide)]
  rw [validateOpencodeServeAction]
  simp only [strFieldTrimmed, boolFieldOr, optStrFieldTrimmed, hftk, hfra, hfr, hfcwd,
    hfto, htt, htr]
  rw [if_neg (by simp [htne, hrne])]
  rw [hhints]
  cases timeout with
  | none =>
    cases cwd with
    | none => rfl
    | some e =>
      have hcwd2 : jsTrim e = e ∧ e ≠ "" := by
        simp only [canonOptStr, canonStr, Bool.and_eq_true, beq_iff_eq,
          decide_eq_true_eq] at hcwd
        exact hcwd
      simp only [Option.some.injEq, Action.opencodeServe.injEq, true_and]
      simp [hcwd2.1, hcwd2.2, timeoutMember]
  | some n =>
    have hn : 1 ≤ n ∧ n ≤ 600 := by
      simp only [decide_eq_true_eq, Bool.and_eq_true] at hto
      exact hto
    have hminmax : max 1 (min 600 n) = n := by omega
    cases cwd with
    | none =>
      simp only [Option.some.injEq, Action.opencodeServe.injEq, true_and]
      simp [timeoutMember, hminmax]
    | some e =>
      have hcwd2 : jsTrim e = e ∧ e ≠ "" := by
        simp only [canonOptStr, canonStr, Bool.and_eq_true, beq_iff_eq,
          decide_eq_true_eq] at hcwd
        exact hcwd
      simp only [Option.some.injEq, Action.opencodeServe.injEq, true_and]
      simp [hcwd2.1, hcwd2.2, timeoutMember, hminmax]

theorem validate_addoninstall_json (a : String) (ra : Bool) (r : String) (h : Hints)
    (hcan : (Action.addonInstall a ra r h).canonical = true) :
    validateAction (actionToJson (.addonInstall a ra r h)) =
      some (.addonInstall a ra r h) := by
  simp only [Action.canonical, Bool.and_eq_true] at hcan
  obtain ⟨⟨⟨hca, hname⟩, hcr⟩, hH⟩ := hcan
  have has : jsTrim a = a ∧ a ≠ "" := by
    simp only [canonStr, Bool.and_eq_true, beq_iff_eq, decide_eq_true_eq] at hca
    exact hca
  have hrs : jsTrim r = r ∧ r ≠ "" := by
    simp only [canonStr, Bool.and_eq_true, beq_iff_eq, decide_eq_true_eq] at hcr
    exact hcr
  have hbase : ∀ m ∈ [(("type" : String), Json.str "addon_install"),
      ("addon", Json.str a), ("reason", Json.str r),
      ("requiresApproval", Json.bool ra)], m.1 ≠ "executionMode" ∧ m.1 ≠ "parallelGroup" := by
    intro m hm
    simp only [List.mem_cons, List.not_mem_nil, or_false] at hm
    rcases hm with h | h | h | h <;> subst h <;> exact ⟨by simp, by simp⟩
  have hgf : ∀ k : String, k ≠ "executionMode" → k ≠ "parallelGroup" →
      (actionToJson (.addonInstall a ra r h)).getField k =
        lookupLast [(("type" : String), Json.str "addon_install"),
          ("addon", Json.str a), ("reason", Json.str r),
          ("requiresApproval", Json.bool ra)] k := by
    intro k hk1 hk2
    exact getField_base_hints _ h k hk1 hk2
  have hft : (actionToJson (.addonInstall a ra r h)).getField "type" =
      some (.str "addon_install") := by
    rw [hgf "type" (by decide) (by decide)]
    simp [lookupLast_cons_match, lookupLast_nil]
  have hfa : (actionToJson (.addonInstall a ra r h)).getField "addon" = some (.str a) := by
    rw [hgf "addon" (by decide) (by decide)]
    simp [lookupLast_cons_match, lookupLast_nil]
  have hfra : (actionToJson (.addonInstall a ra r h)).getField "requiresApproval" =
      some (.bool ra) := by
    rw [hgf "requiresApproval" (by decide) (by decide)]
    simp [lookupLast_cons_match, lookupLast_nil]
  have hfr : (actionToJson (.addonInstall a ra r h)).getField "reason" =
      some (.str r) := by
    rw [hgf "reason" (by decide) (by decide)]
    simp [lookupLast_cons_match, lookupLast_nil]
  have hhints : parseExecutionHints (actionToJson (.addonInstall a ra r h)) = h :=
    parseExecutionHints_canonical _ h hbase hH
  rw [validateAction]
  rw [show isObjectLike (actionToJson (.addonInstall a ra r h)) = true from rfl]
  rw [hft]
  simp only [Bool.not_true, Bool.false_eq_true, if_false]
  rw [if_neg (by decide), if_neg (by decide), if_neg (by decide), if_neg (by decide),
    if_neg (by decide), if_neg (by decide), if_neg (by decide), if_neg (by decide),
    if_pos (by decide)]
  rw [validateAddonInstallAction]
  simp only [strFieldTrimmed, boolFieldOr, hfa, hfra, hfr, has.1, hrs.1]
  rw [if_neg (by simp [has.2, hrs.2, hname])]
  rw [hhints]

theorem validate_addoncreate_json (a p : String) (ra : Bool) (r : String) (h : Hints)
    (hcan : (Action.addonCreate a p ra r h).canonical = true) :
    validateAction (actionToJson (.addonCreate a p ra r h)) =
      some (.addonCreate a p ra r h) := by
  simp only [Action.canonical, Bool.and_eq_true] at hcan
  obtain ⟨⟨⟨⟨hca, hname⟩, hcp⟩, hcr⟩, hH⟩ := hcan
  have has : jsTrim a = a ∧ a ≠ "" := by
    simp only [canonStr, Bool.and_eq_true, beq_iff_eq, decide_eq_true_eq] at hca
    exact hca
  have hps : jsTrim p = p ∧ p ≠ "" := by
    simp only [canonStr, Bool.and_eq_true, beq_iff_eq, decide_eq_true_eq] at hcp
    exact hcp
  have hrs : jsTrim r = r ∧ r ≠ "" := by
    simp only [canonStr, Bool.and_eq_true, beq_iff_eq, decide_eq_true_eq] at hcr
    exact hcr
  have hbase : ∀ m ∈ [(("type" : String), Json.str "addon_create"),
      ("addon", Json.str a), ("purpose", Json.str p), ("reason", Json.str r),
      ("requiresApproval", Json.bool ra)], m.1 ≠ "executionMode" ∧ m.1 ≠ "parallelGroup" := by
    intro m hm
    simp only [List.mem_cons, List.not_mem_nil, or_false] at hm
    rcases hm with h | h | h | h | h <;> subst h <;> exact ⟨by simp, by simp⟩
  have hgf : ∀ k : String, k ≠ "executionMode" → k ≠ "parallelGroup" →
      (actionToJson (.addonCreate a p ra r h)).getField k =
        lookupLast [(("type" : String), Json.str "addon_create"),
          ("addon", Json.str a), ("purpose", Json.str p), ("reason", Json.str r),
          ("requiresApproval", Json.bool ra)] k := by
    intro k hk1 hk2
    exact getField_base_hints _ h k hk1 hk2
  have hft : (actionToJson (.addonCreate a p ra r h)).getField "type" =
      some (.str "addon_create") := by
    rw [hgf "type" (by decide) (by decide)]
    simp [lookupLast_cons_match, lookupLast_nil]
  have hfa : (actionToJson (.addonCreate a p ra r h)).getField "addon" = some (.str a) := by
    rw [hgf "addon" (by decide) (by decide)]
    simp [lookupLast_cons_match, lookupLast_nil]
  have hfp : (actionToJson (.addonCreate a p ra r h)).getField "purpose" =
      some (.str p) := by
    rw [hgf "purpose" (by decide) (by decide)]
    simp [lookupLast_cons_match, lookupLast_nil]
  have hfra : (actionToJson (.addonCreate a p ra r h)).getField "requiresApproval" =
      some (.bool ra) := by
    rw [hgf "requiresApproval" (by decide) (by decide)]
    simp [lookupLast_cons_match, lookupLast_nil]
  have hfr : (actionToJson (.addonCreate a p ra r h)).getField "reason" =
      some (.str r) := by
    rw [hgf "reason" (by decide) (by decide)]
    simp [lookupLast_cons_match, lookupLast_nil]
  have hhints : parseExecutionHints (actionToJson (.addonCreate a p ra r h)) = h :=
    parseExecutionHints_canonical _ h hbase hH
  rw [validateAction]
  rw [show isObjectLike (actionToJson (.addonCreate a p ra r h)) = true from rfl]
  rw [hft]
  simp only [Bool.not_true, Bool.false_eq_true, if_false]
  rw [if_neg (by decide), if_neg (by decide), if_neg (by decide), if_neg (by decide),
    if_neg (by decide), if_neg (by decide), if_neg (by decide), if_neg (by decide),
    if_neg (by decide), if_pos (by decide)]
  rw [validateAddonCreateAction]
  simp only [strFieldTrimmed, boolFieldOr, hfa, hfp, hfra, hfr, has.1, hps.1, hrs.1]
  rw [if_neg (by simp [has.2, hps.2, hrs.2, hname])]
  rw [hhints]

theorem validate_addonrun_json (a : String) (inp : Option String) (ra : Bool)
    (r : String) (h : Hints)
    (hcan : (Action.addonRun a inp ra r h).canonical = true) :
    validateAction (actionToJson (.addonRun a inp ra r h)) =
      some (.addonRun a inp ra r h) := by
  simp only [Action.canonical, Bool.and_eq_true] at hcan
  obtain ⟨⟨⟨⟨hca, hname⟩, hinp⟩, hcr⟩, hH⟩ := hcan
  have has : jsTrim a = a ∧ a ≠ "" := by
    simp only [canonStr, Bool.and_eq_true, beq_iff_eq, decide_eq_true_eq] at hca
    exact hca
  have hrs : jsTrim r = r ∧ r ≠ "" := by
    simp only [canonStr, Bool.and_eq_true, beq_iff_eq, decide_eq_true_eq] at hcr
    exact hcr
  have hbase : ∀ m ∈ ([(("type" : String), Json.str "addon_run"),
      ("addon", Json.str a)] ++ optStrMember "input" inp) ++
      [(("reason" : String), Json.str r), ("requiresApproval", Json.bool ra)],
      m.1 ≠ "executionMode" ∧ m.1 ≠ "parallelGroup" := by
    intro m hm
    rcases List.mem_append.mp hm with hm | hm
    · rcases List.mem_append.mp hm with hm | hm
      · simp only [List.mem_cons, List.not_mem_nil, or_false] at hm
        rcases hm with h | h <;> subst h <;> exact ⟨by simp, by simp⟩
      · have := optStrMember_keys "input" inp m hm
        rw [this]
        exact ⟨by simp, by simp⟩
    · simp only [List.mem_cons, List.not_mem_nil, or_false] at hm
      rcases hm with h | h <;> subst h <;> exact ⟨by simp, by simp⟩
  have hgf : ∀ k : String, k ≠ "executionMode" → k ≠ "parallelGroup" →
      (actionToJson (.addonRun a inp ra r h)).getField k =
        lookupLast (([(("type" : String), Json.str "addon_run"),
          ("addon", Json.str a)] ++ optStrMember "input" inp) ++
          [(("reason" : String), Json.str r),
           ("requiresApproval", Json.bool ra)]) k := by
    intro k hk1 hk2
    exact getField_base_hints _ h k hk1 hk2
  have hoptne : ∀ k : String, k ≠ "input" →
      lookupLast (optStrMember "input" inp) k = none := by
    intro k hk
    exact lookupLast_eq_none (fun m hm => by
      rw [optStrMember_keys "input" inp m hm]
      exact fun he => hk he.symm)
  have hft : (actionToJson (.addonRun a inp ra r h)).getField "type" =
      some (.str "addon_run") := by
    rw [hgf "type" (by decide) (by decide), lookupLast_append]
    rw [show lookupLast [(("reason" : String), Json.str r),
      ("requiresApproval", Json.bool ra)] "type" = none from by
        simp [lookupLast_cons_match, lookupLast_nil]]
    rw [lookupLast_append, hoptne "type" (by decide)]
    simp [lookupLast_cons_match, lookupLast_nil]
  have hfa : (actionToJson (.addonRun a inp ra r h)).getField "addon" = some (.str a) := by
    rw [hgf "addon" (by decide) (by decide), lookupLast_append]
    rw [show lookupLast [(("reason" : String), Json.str r),
      ("requiresApproval", Json.bool ra)] "addon" = none from by
        simp [lookupLast_cons_match, lookupLast_nil]]
    rw [lookupLast_append, hoptne "addon" (by decide)]
    simp [lookupLast_cons_match, lookupLast_nil]
  have hfra : (actionToJson (.addonRun a inp ra r h)).getField "requiresApproval" =
      some (.bool ra) := by
    rw [hgf "requiresApproval" (by decide) (by decide), lookupLast_append]
    rw [show lookupLast [(("reason" : String), Json.str r),
      ("requiresApproval", Json.bool ra)] "requiresApproval" = some (.bool ra) from by
        simp [lookupLast_cons_match, lookupLast_nil]]
  have hfr : (actionToJson (.addonRun a inp ra r h)).getField "reason" =
      some (.str r) := by
    rw [hgf "reason" (by decide) (by decide), lookupLast_append]
    rw [show lookupLast [(("reason" : String), Json.str r),
      ("requiresApproval", Json.bool ra)] "reason" = some (.str r) from by
        simp [lookupLast_cons_match, lookupLast_nil]]
  have hfin : (actionToJson (.addonRun a inp ra r h)).getField "input" =
      (match inp with
       | some e => some (Json.str e)
       | none => none) := by
    rw [hgf "input" (by decide) (by decide), lookupLast_append]
    rw [show lookupLast [(("reason" : String), Json.str r),
      ("requiresApproval", Json.bool ra)] "input" = none from by
        simp [lookupLast_cons_match, lookupLast_nil]]
    rw [lookupLast_append]
    cases inp with
    | none => simp [optStrMember, lookupLast_nil, lookupLast_cons_match]
    | some e => simp [optStrMember, lookupLast_cons_match, lookupLast_nil]
  have hhints : parseExecutionHints (actionToJson (.addonRun a inp ra r h)) = h :=
    parseExecutionHints_canonical _ h hbase hH
  rw [validateAction]
  rw [show isObjectLike (actionToJson (.addonRun a inp ra r h)) = true from rfl]
  rw [hft]
  simp only [Bool.not_true, Bool.false_eq_true, if_false]
  rw [if_neg (by decide), if_neg (by decide), if_neg (by decide), if_neg (by decide),
    if_neg (by decide), if_neg (by decide), if_neg (by decide), if_neg (by decide),
    if_neg (by decide), if_neg (by decide), if_pos (by decide)]
  rw [validateAddonRunAction]
  simp only [strFieldTrimmed, boolFieldOr, optStrFieldTrimmed, hfa, hfra, hfr, hfin,
    has.1, hrs.1]
  rw [if_neg (by simp [has.2, hrs.2, hname])]
  rw [hhints]
  cases inp with
  | none => rfl
  | some e =>
    have hinp2 : jsTrim e = e ∧ e ≠ "" := by
      simp only [canonOptStr, canonStr, Bool.and_eq_true, beq_iff_eq,
        decide_eq_true_eq] at hinp
      exact hinp
    simp only [Option.some.injEq, Action.addonRun.injEq, true_and]
    simp [hinp2.1, hinp2.2]

theorem validateAction_actionToJson (a : Action) (hcan : a.canonical = true) :
    validateAction (actionToJson a) = some a := by
  cases a with
  | reply => exact validate_reply_json
  | question q => exact validate_question_json q hcan
  | ssh t c ra r h => exact validate_ssh_json t c ra r h hcan
  | obsidianWrite p pa ra r h => exact validate_obsidian_json p pa ra r h hcan
  | webFetch u mo ra r ex h => exact validate_webfetch_json u mo ra r ex h hcan
  | imageToText u ra r pr h => exact validate_imagetotext_json u ra r pr h hcan
  | voiceToText u ra r lg h => exact validate_voicetotext_json u ra r lg h hcan
  | opencodeServe t ra r cwd timeout h => exact validate_opencode_json t ra r cwd timeout h hcan
  | addonInstall a ra r h => exact validate_addoninstall_json a ra r h hcan
  | addonCreate a p ra r h => exact validate_addoncreate_json a p ra r h hcan
  | addonRun a i ra r h => exact validate_addonrun_json a i ra r h hcan

theorem validateActions_map (as : List Action) (hcan : ∀ a ∈ as, a.canonical = true) :
    validateActions (as.map actionToJson) = some as := by
  induction as with
  | nil => rfl
  | cons a rest ih =>
    rw [List.map_cons]
    rw [show validateActions (actionToJson a :: rest.map actionToJson) =
      match validateAction (actionToJson a) with
      | none => none
      | some a0 => (validateActions (rest.map actionToJson)).map (fun as => a0 :: as)
      from rfl]
    rw [validateAction_actionToJson a (hcan a (List.mem_cons_self a rest))]
    rw [ih (fun x hx => hcan x (List.mem_cons_of_mem a hx))]
    rfl

theorem parsePlanJson_pretty (P : Plan) (hcan : Plan.canonical P = true) :
    parsePlanJson (jsonStringifyPretty (planToJson P)) = some P := by
  have hacts : ∀ a ∈ P.actions, a.canonical = true := by
    intro a ha
    simp only [Plan.canonical, List.all_eq_true] at hcan
    exact hcan a ha
  unfold parsePlanJson
  rw [jsonParse_stringify]
  dsimp only
  rw [show isObjectLike (planToJson P) = true from rfl]
  simp only [Bool.not_true, Bool.false_eq_true, if_false]
  rw [show (planToJson P).getField "actions" =
    some (.arr (P.actions.map actionToJson)) from by
      rw [show planToJson P =
        .obj [(("actions" : String), .arr (P.actions.map actionToJson))] from rfl,
        getField_obj]
      simp [lookupLast_cons_match, lookupLast_nil]]
  dsimp only
  rw [validateActions_map P.actions hacts]
  rfl

theorem findCloseFence_cons_ne {c : Char} {l : List Char}
    (h : ¬(c = '`' ∧ l.take 2 = ['`', '`'])) :
    findCloseFence (c :: l) = (findCloseFence l).map (fun p => (c :: p.1, p.2)) := by
  rw [findCloseFence.eq_def]
  split
  · rename_i rest heq
    obtain ⟨hc, hl⟩ := List.cons.inj heq
    exact absurd ⟨hc, by rw [hl]; rfl⟩ h
  · rename_i c2 rest h1 heq
    obtain ⟨hc, hl⟩ := List.cons.inj heq
    subst hc
    subst hl
    rfl
  · rename_i heq
    exact absurd heq (List.cons_ne_nil _ _)

theorem hasTriple_cons_ne {c : Char} {l : List Char}
    (h : ¬(c = '`' ∧ l.take 2 = ['`', '`'])) :
    hasTripleBacktickList (c :: l) = hasTripleBacktickList l := by
  rw [hasTripleBacktickList.eq_def]
  split
  · rename_i rest heq
    obtain ⟨hc, hl⟩ := List.cons.inj heq
    exact absurd ⟨hc, by rw [hl]; rfl⟩ h
  · rename_i c2 rest h1 heq
    obtain ⟨hc, hl⟩ := List.cons.inj heq
    subst hc
    subst hl
    rfl
  · rename_i heq
    exact absurd heq (List.cons_ne_nil _ _)

theorem findCloseFence_emit (xs r : List Char) (hnt : hasTripleBacktickList xs = false) :
    findCloseFence (xs ++ '\n' :: '`' :: '`' :: '`' :: r) = some (xs ++ ['\n'], r) := by
  induction xs with
  | nil =>
    rw [List.nil_append, findCloseFence_cons_ne (by simp)]
    rw [show findCloseFence ('`' :: '`' :: '`' :: r) = some ([], r) from by
      rw [findCloseFence.eq_def]
      rfl]
    rfl
  | cons a xs ih =>
    have h3 : ¬(a = '`' ∧ (xs ++ '\n' :: '`' :: '`' :: '`' :: r).take 2 = ['`', '`']) := by
      rintro ⟨ha, htk⟩
      subst ha
      rcases xs with _ | ⟨b, _ | ⟨c2, xs2⟩⟩
      · simp at htk
      · simp at htk
      · have hbc : b = '`' ∧ c2 = '`' := by simpa using htk
        obtain ⟨hb, hc⟩ := hbc
        subst hb
        subst hc
        rw [show hasTripleBacktickList ('`' :: '`' :: '`' :: xs2) = true from rfl] at hnt
        exact absurd hnt (by simp)
    have hxs : hasTripleBacktickList xs = false := by
      by_cases htk : a = '`' ∧ xs.take 2 = ['`', '`']
      · exfalso
        obtain ⟨ha, h2⟩ := htk
        subst ha
        have hx : xs = '`' :: '`' :: xs.drop 2 := by
          conv_lhs => rw [← List.take_append_drop 2 xs]
          rw [h2]
          rfl
        rw [hx] at hnt
        rw [show hasTripleBacktickList ('`' :: '`' :: '`' :: xs.drop 2) = true from rfl] at hnt
        exact absurd hnt (by simp)
      · rw [hasTriple_cons_ne htk] at hnt
        exact hnt
    rw [List.cons_append, findCloseFence_cons_ne h3, ih hxs]
    rfl

theorem jsTrimList_wrap (a b : Char) (m : List Char)
    (ha : jsWhitespace a = false) (hb : jsWhitespace b = false) :
    jsTrimList ((a :: (m ++ [b])) ++ ['\n']) = a :: (m ++ [b]) := by
  unfold jsTrimList
  rw [show ((a :: (m ++ [b])) ++ ['\n']) = a :: (m ++ [b, '\n']) from by simp]
  rw [List.dropWhile_cons_of_neg (by simp [ha])]
  rw [show (a :: (m ++ [b, '\n'])).reverse = '\n' :: (b :: (m.reverse ++ [a])) from by simp]
  rw [List.dropWhile_cons_of_pos (by decide)]
  rw [List.dropWhile_cons_of_neg (by simp [hb])]
  simp

theorem emit_plan_shape (P : Plan) :
    (jsonStringifyPretty (planToJson P)).data =
      '{' :: (('\n' :: (emitMembers 2 "actions" (.arr (P.actions.map actionToJson)) [] ++
        ['\n'])) ++ ['}']) := by
  rw [show (jsonStringifyPretty (planToJson P)).data =
    emitValue 0 (planToJson P) from rfl]
  rw [show planToJson P =
    .obj [(("actions" : String), .arr (P.actions.map actionToJson))] from rfl]
  rw [emitValue_obj_cons_eq]
  simp

theorem extractPlanBlock_format (P : Plan)
    (hnt : hasTripleBacktick (jsonStringifyPretty (planToJson P)) = false) :
    extractPlanBlock (formatPlanBlock P) =
      some (jsonStringifyPretty (planToJson P)) := by
  have hdata : (formatPlanBlock P).data =
      '`' :: '`' :: '`' :: 'j' :: 's' :: 'o' :: 'n' :: '\n' ::
        ((jsonStringifyPretty (planToJson P)).data ++ ['\n', '`', '`', '`']) := by
    unfold formatPlanBlock
    rw [String.data_append, String.data_append]
    rw [show ("```json\n" : String).data =
      ['`', '`', '`', 'j', 's', 'o', 'n', '\n'] from rfl]
    rw [show ("\n```" : String).data = ['\n', '`', '`', '`'] from rfl]
    simp
  unfold extractPlanBlock
  rw [hdata]
  rw [show extractPlanBlockList ('`' :: '`' :: '`' :: 'j' :: 's' :: 'o' :: 'n' :: '\n' ::
      ((jsonStringifyPretty (planToJson P)).data ++ ['\n', '`', '`', '`'])) =
    tryFenceAt ('j' :: 's' :: 'o' :: 'n' :: '\n' ::
      ((jsonStringifyPretty (planToJson P)).data ++ ['\n', '`', '`', '`'])) from by
        rw [extractPlanBlockList.eq_def]
        rfl]
  unfold tryFenceAt
  rw [show (('j' :: 's' :: 'o' :: 'n' :: '\n' ::
      ((jsonStringifyPretty (planToJson P)).data ++ ['\n', '`', '`', '`'])).take 4).map
    Char.toLower = ['j', 's', 'o', 'n'] from by simp]
  rw [if_pos rfl]
  rw [show ('j' :: 's' :: 'o' :: 'n' :: '\n' ::
      ((jsonStringifyPretty (planToJson P)).data ++ ['\n', '`', '`', '`'])).drop 4 =
    '\n' :: ((jsonStringifyPretty (planToJson P)).data ++ ['\n', '`', '`', '`']) from by
      simp]
  dsimp only
  rw [List.dropWhile_cons_of_pos (by decide)]
  rw [show ((jsonStringifyPretty (planToJson P)).data ++ ['\n', '`', '`', '`']).dropWhile
      jsWhitespace = (jsonStringifyPretty (planToJson P)).data ++ ['\n', '`', '`', '`']
    from by
      rw [emit_plan_shape]
      rw [List.cons_append, List.dropWhile_cons_of_neg (by decide)]]
  rw [show (jsonStringifyPretty (planToJson P)).data ++ ['\n', '`', '`', '`'] =
    (jsonStringifyPretty (planToJson P)).data ++ '\n' :: '`' :: '`' :: '`' :: [] from rfl]
  rw [findCloseFence_emit _ _ hnt]
  have hj : jsTrim ⟨(jsonStringifyPretty (planToJson P)).data ++ ['\n']⟩ =
      jsonStringifyPretty (planToJson P) := by
    rw [show jsTrim ⟨(jsonStringifyPretty (planToJson P)).data ++ ['\n']⟩ =
      ⟨jsTrimList ((jsonStringifyPretty (planToJson P)).data ++ ['\n'])⟩ from rfl]
    rw [emit_plan_shape, jsTrimList_wrap '{' '}' _ (by decide) (by decide),
      ← emit_plan_shape]
  simp [hj]

theorem parsePlanFromText_format (P : Plan) (hcan : Plan.canonical P = true)
    (hnt : hasTripleBacktick (jsonStringifyPretty (planToJson P)) = false) :
    parsePlanFromText (formatPlanBlock P) =
      ⟨some P, [], some (jsonStringifyPretty (planToJson P))⟩ := by
  unfold parsePlanFromText
  rw [extractPlanBlock_format P hnt]
  dsimp only
  rw [parsePlanJson_pretty P hcan]

/-- C5 (amended): for every canonical plan whose pretty-printed JSON contains
no triple backtick, parsing the serializer output returns the plan with no
errors and the serialized JSON as the raw block. -/
theorem c5_plan_format_roundtrip (P : Plan) (hcan : Plan.canonical P = true)
    (hnt : hasTripleBacktick (jsonStringifyPretty (planToJson P)) = false) :
    parsePlanFromText (formatPlanBlock P) =
      ⟨some P, [], some (jsonStringifyPretty (planToJson P))⟩ :=
  parsePlanFromText_format P hcan hnt

/-- C5 counterexample: a schema-valid plan (producible by `parsePlanJson`)
whose ssh command contains a triple backtick does not survive the
format/parse round trip: the closing-fence scan stops inside the command
string and the reparse fails. -/
theorem c5_counterexample_backtick_command :
    parsePlanJson "\x7b\"actions\":[\x7b\"type\":\"ssh\",\"command\":\"a```b\",\"target\":\"william\",\"requiresApproval\":true,\"reason\":\"r\"\x7d]\x7d" =
      some (Plan.mk [Action.ssh .william "a```b" true "r" ⟨none, none⟩]) ∧
    (parsePlanFromText (formatPlanBlock
      (Plan.mk [Action.ssh .william "a```b" true "r" ⟨none, none⟩]))).plan = none := by
  constructor
  · decide
  · simp only [formatPlanBlock, jsonStringifyPretty, planToJson, actionToJson,
      hintsMembers, List.map_cons, List.map_nil, List.append_nil, emitValue, emitElems,
      emitMembers, quoteString, escapeChar]
    decide

/-- C5 witness: the round-trip theorem applied at a concrete canonical
one-action plan. -/
theorem c5_plan_format_roundtrip_witness :
    Plan.canonical (Plan.mk [Action.ssh .william "uptime" false "status" ⟨none, none⟩]) =
      true ∧
    hasTripleBacktick (jsonStringifyPretty (planToJson
      (Plan.mk [Action.ssh .william "uptime" false "status" ⟨none, none⟩]))) = false ∧
    parsePlanFromText (formatPlanBlock
      (Plan.mk [Action.ssh .william "uptime" false "status" ⟨none, none⟩])) =
      ⟨some (Plan.mk [Action.ssh .william "uptime" false "status" ⟨none, none⟩]), [],
        some (jsonStringifyPretty (planToJson
          (Plan.mk [Action.ssh .william "uptime" false "status" ⟨none, none⟩])))⟩ :=
  ⟨by decide,
   by
     simp only [jsonStringifyPretty, planToJson, actionToJson, hintsMembers,
       List.map_cons, List.map_nil, List.append_nil, emitValue, emitElems,
       emitMembers, quoteString, escapeChar]
     decide,
   c5_plan_format_roundtrip
     (Plan.mk [Action.ssh .william "uptime" false "status" ⟨none, none⟩])
     (by decide)
     (by
       simp only [jsonStringifyPretty, planToJson, actionToJson, hintsMembers,
         List.map_cons, List.map_nil, List.append_nil, emitValue, emitElems,
         emitMembers, quoteString, escapeChar]
       decide)⟩

end Spec2Proof
